import Mathlib

/-!
# SpectralAlgorithms: single-source personalized PageRank

A shallow embedding of the estimation engine of the repository
(`lib/uniqueue.hpp`, `lib/random.hpp`, `lib/serialize.hpp`, `uwudgraph/graph.hpp`,
`uwudgraph/apps/ssppr/ssppr_custom.hpp`, `uwudgraph/apps/ssppr/ssppr.hpp`) and theorems
about it.

Modelling conventions.

* `node_id` (a 32-bit unsigned integer) is `Nat`; no arithmetic is done on node
  ids, so no wrap-around can occur.
* `double` is `ℚ`: every statement below is about exact arithmetic.
* `std::vector<T>` is `List T`; `v[i]` is `v.getD i d`, `v[i] = x` is
  `v.set i x`.  Both are only meaningful for `i < v.length`
  (an index outside the vector is undefined behaviour in the source).
* Loops whose termination is not structural take a `fuel` argument and return
  `none` when the fuel is used up before the loop condition becomes false.
* Random draws are explicit arguments.
* `std::log` and `std::sqrt` are parameters (`flog`, `fsqrt`) of the estimators that call
  them.  In `rand_geometric` the quotient of two logarithms is taken exactly: its ceiling
  is computed by a search over powers and proved equal to the ceiling of
  `Real.log u / Real.log (1 - p)`.
-/

/-! # Definitions -/

/-! ## `lib/uniqueue.hpp` -/

/-- The class `uniqueue<T>`: a `std::queue<T>` (front of the queue = head of the
list) together with the `std::vector<bool>` of active flags. -/
structure uniqueue where
  _queue : List Nat
  _isact : List Bool
  deriving DecidableEq, Repr

namespace uniqueue

/-- The constructor `uniqueue(size_t n) : _queue(), _isact(n)`. -/
def init (n : Nat) : uniqueue := ⟨[], List.replicate n false⟩

/-- The method `empty()`. -/
def empty (q : uniqueue) : Bool := q._queue.isEmpty

/-- The method `size()`. -/
def size (q : uniqueue) : Nat := q._queue.length

/-- The method `is_active(v)`. -/
def is_active (q : uniqueue) (v : Nat) : Bool := q._isact.getD v false

/-- The method `push(v)`: `if (!_isact[v]) { _isact[v] = true; _queue.push(v); }`. -/
def push (q : uniqueue) (v : Nat) : uniqueue :=
  if !q._isact.getD v false then ⟨q._queue ++ [v], q._isact.set v true⟩ else q

/-- The method `pop()`: `v = _queue.front(); _isact[v] = false; _queue.pop(); return v;`.
On an empty queue `front()` is undefined in the source; the model returns `none`. -/
def pop (q : uniqueue) : Option (Nat × uniqueue) :=
  match q._queue with
  | [] => none
  | v :: rest => some (v, ⟨rest, q._isact.set v false⟩)

/-- The loop of `clear()`, by recursion on the queue:
`while (!_queue.empty()) { _isact[_queue.front()] = false; _queue.pop(); }`. -/
def clearLoop : List Nat → List Bool → List Bool
  | [], act => act
  | v :: rest, act => clearLoop rest (act.set v false)

/-- The method `clear()`. -/
def clear (q : uniqueue) : uniqueue := ⟨[], clearLoop q._queue q._isact⟩

/-- Popping until `empty()` holds, as in the usage example of the header:
`while (!uq.empty()) { int v = uq.pop(); }`.  Returns the popped ids in order
together with the final state. -/
def drain : Nat → uniqueue → Option (List Nat × uniqueue)
  | 0, q => if q.empty then some ([], q) else none
  | fuel + 1, q =>
    match q.pop with
    | none => some ([], q)
    | some (v, q1) =>
      match drain fuel q1 with
      | none => none
      | some (vs, q2) => some (v :: vs, q2)

/-- The worklist states reachable from `uniqueue(n)` by `push` with an id below `n`,
`pop` on a non-empty queue, and `clear`. -/
inductive Reachable (n : Nat) : uniqueue → Prop
  | init : Reachable n (init n)
  | push {q : uniqueue} (v : Nat) : Reachable n q → v < n → Reachable n (q.push v)
  | pop {q q1 : uniqueue} {v : Nat} : Reachable n q → q.pop = some (v, q1) → Reachable n q1
  | clear {q : uniqueue} : Reachable n q → Reachable n q.clear

end uniqueue

/-! ## `uwudgraph/graph.hpp` -/

/-- The class `Graph`: node count `n`, edge count `m`, adjacency lists `adj`. -/
structure Graph where
  n : Nat
  m : Nat
  adj : List (List Nat)
  deriving DecidableEq, Repr

namespace Graph

/-- The method `get_neighbors(u)`: `adj[u]`. -/
def get_neighbors (g : Graph) (u : Nat) : List Nat := g.adj.getD u []

/-- The method `get_degree(u)`: `adj[u].size()`. -/
def get_degree (g : Graph) (u : Nat) : Nat := (g.adj.getD u []).length

/-- What the loader establishes: `adj` has one list per node and every
neighbour is a node.  (Anything else makes the algorithms index outside a
vector.) -/
def WF (g : Graph) : Prop :=
  g.adj.length = g.n ∧ ∀ l ∈ g.adj, ∀ v ∈ l, v < g.n

instance (g : Graph) : Decidable g.WF := by unfold WF; infer_instance

/-- Node `v` can be reached from node `s` along edges of the graph. -/
inductive Reach (g : Graph) (s : Nat) : Nat → Prop
  | refl : Reach g s s
  | step {u v : Nat} : Reach g s u → v ∈ g.get_neighbors u → Reach g s v

end Graph

/-! ## `uwudgraph/apps/ssppr/ssppr_custom.hpp`: Forward Push -/

/-- The inner loop of the push step,
`for (v : g.get_neighbors(u)) { r[v] += ruv; if (r[v] > g.get_degree(v) * rmax) queue.push(v); }`,
by recursion on the neighbour list. -/
def pushNeighbors (g : Graph) (rmax ruv : ℚ) : List Nat → List ℚ → uniqueue → List ℚ × uniqueue
  | [], r, q => (r, q)
  | v :: vs, r, q =>
    let r1 := r.set v (r.getD v 0 + ruv)
    let q1 := if r1.getD v 0 > (g.get_degree v : ℚ) * rmax then q.push v else q
    pushNeighbors g rmax ruv vs r1 q1

/-- The variables of the loop of `ppr_forwardpush`. -/
structure PushState where
  ppr : List ℚ
  r : List ℚ
  queue : uniqueue
  deriving DecidableEq, Repr

/-- The body of the loop of `ppr_forwardpush` after `u = queue.pop()` (the queue
passed in is the one after the pop):
`ppr[u] += alpha * r[u]; ruv = r[u] * (1 - alpha) / degree(u); <inner loop>; r[u] = 0`.
When `degree(u) = 0` the source divides by zero, but `ruv` is then never read
(the inner loop is empty); the model's value of `x / 0` is irrelevant for the
same reason. -/
def pushStep (g : Graph) (alpha rmax : ℚ) (u : Nat) (s : PushState) : PushState :=
  let ppr1 := s.ppr.set u (s.ppr.getD u 0 + alpha * s.r.getD u 0)
  let ruv := s.r.getD u 0 * (1 - alpha) / (g.get_degree u : ℚ)
  let rq := pushNeighbors g rmax ruv (g.get_neighbors u) s.r s.queue
  ⟨ppr1, rq.1.set u 0, rq.2⟩

/-- One iteration of `while (!queue.empty())`: `none` when the loop is over. -/
def fpIter (g : Graph) (alpha rmax : ℚ) (s : PushState) : Option PushState :=
  match s.queue.pop with
  | none => none
  | some (u, q1) => some (pushStep g alpha rmax u { s with queue := q1 })

/-- The loop `while (!queue.empty()) { ... }` of `ppr_forwardpush`, with fuel. -/
def fpLoop (g : Graph) (alpha rmax : ℚ) : Nat → PushState → Option PushState
  | 0, s => if s.queue.empty then some s else none
  | fuel + 1, s =>
    match fpIter g alpha rmax s with
    | none => some s
    | some s1 => fpLoop g alpha rmax fuel s1

/-- The state of `ppr_forwardpush` when the loop is entered:
`ppr` and `r` are `n` zeros, `r[source] = 1.0`, the queue holds `source`. -/
def fpInit (g : Graph) (source : Nat) : PushState :=
  ⟨List.replicate g.n 0, (List.replicate g.n 0).set source 1, (uniqueue.init g.n).push source⟩

/-- The function `ppr_forwardpush(g, source, alpha, rmax)`: the pair `(ppr, r)`. -/
def ppr_forwardpush (g : Graph) (source : Nat) (alpha rmax : ℚ) (fuel : Nat) :
    Option (List ℚ × List ℚ) :=
  (fpLoop g alpha rmax fuel (fpInit g source)).map fun s => (s.ppr, s.r)

/-! ## Example graphs -/

/-- The path graph `0 → 1 → 2 → 3` of the end-to-end scenario. -/
def pathGraph : Graph := ⟨4, 3, [[1], [2], [3], []]⟩

/-- A single node with a self-loop. -/
def loopGraph : Graph := ⟨1, 1, [[0]]⟩

/-- The two-node cycle `0 → 1 → 0`. -/
def cycleGraph : Graph := ⟨2, 2, [[1], [0]]⟩

/-! ## Invariants used in the proofs -/

namespace uniqueue

/-- The representation invariant of the worklist of capacity `n`: one flag per
id, no id queued twice, and the flag of an id is set exactly when it is queued. -/
structure Inv (n : Nat) (q : uniqueue) : Prop where
  len : q._isact.length = n
  nodup : q._queue.Nodup
  act : ∀ v, q.is_active v = true ↔ v ∈ q._queue

end uniqueue

/-- The loop states of `ppr_forwardpush(g, source, alpha, rmax)`: the state on entry
and every state after a processing step. -/
inductive FPReach (g : Graph) (alpha rmax : ℚ) (source : Nat) : PushState → Prop
  | init : FPReach g alpha rmax source (fpInit g source)
  | step {s s1 : PushState} : FPReach g alpha rmax source s →
      fpIter g alpha rmax s = some s1 → FPReach g alpha rmax source s1

/-- Shape of a loop state: both vectors have `n` entries, the worklist satisfies its
invariant, and residuals are non-negative. -/
structure FPInv (g : Graph) (s : PushState) : Prop where
  lenP : s.ppr.length = g.n
  lenR : s.r.length = g.n
  queue : uniqueue.Inv g.n s.queue
  nonneg : ∀ v, 0 ≤ s.r.getD v 0

/-- Every node that is not queued is at or below its threshold. -/
def FPBelow (g : Graph) (rmax : ℚ) (s : PushState) : Prop :=
  ∀ v, s.queue.is_active v = false → s.r.getD v 0 ≤ (g.get_degree v : ℚ) * rmax

/-- The class `AliasSampler`: the tables built by the constructor.  The member `alias` is
named `alias_` here (`alias` is a reserved word). -/
structure AliasSampler where
  probabilities : List ℚ
  alias_ : List Nat
  prob : List ℚ
  n : Nat
  deriving DecidableEq, Repr

namespace AliasSampler

/-- The loop `for (i = 0; i < n; ++i) if (probabilities[i] < 1.0) small.push(i); else large.push(i);`
A stack is a list whose head is the top. -/
def initStacks (probabilities : List ℚ) : List Nat → List Nat × List Nat → List Nat × List Nat
  | [], st => st
  | i :: is, (small, large) =>
    if probabilities.getD i 0 < 1 then initStacks probabilities is (i :: small, large)
    else initStacks probabilities is (small, i :: large)

/-- The variables of the table-construction loop. -/
structure Build where
  probabilities : List ℚ
  alias_ : List Nat
  prob : List ℚ
  small : List Nat
  large : List Nat
  deriving DecidableEq, Repr

/-- The loop `while (!small.empty() && !large.empty()) { ... }`, with fuel. -/
def pairLoop : Nat → Build → Option Build
  | fuel, b =>
    match b.small, b.large with
    | s :: small, l :: large =>
      match fuel with
      | 0 => none
      | fuel + 1 =>
        let prob := b.prob.set s (b.probabilities.getD s 0)
        let alias_ := b.alias_.set s l
        let probabilities :=
          b.probabilities.set l (b.probabilities.getD l 0 + b.probabilities.getD s 0 - 1)
        if probabilities.getD l 0 < 1 then
          pairLoop fuel ⟨probabilities, alias_, prob, l :: small, large⟩
        else
          pairLoop fuel ⟨probabilities, alias_, prob, small, l :: large⟩
    | _, _ => some b

/-- The loops `while (!large.empty()) { l = large.top(); large.pop(); prob[l] = 1.0; }` and
`while (!small.empty()) { ... prob[s] = 1.0; }`, by recursion on the stack. -/
def fillOnes : List Nat → List ℚ → List ℚ
  | [], prob => prob
  | l :: rest, prob => fillOnes rest (prob.set l 1)

/-- The constructor `AliasSampler(weights)`.  Each iteration of the pairing loop removes one
index from the two stacks taken together, so `n` iterations are enough.  The model follows
the source when the sum of the weights is not zero (with a zero sum the source computes
NaN, which has no counterpart in `ℚ`). -/
def construct (weights : List ℚ) : Option AliasSampler :=
  let n := weights.length
  let sum := weights.foldl (fun acc w => acc + w) 0
  let probabilities := weights.map fun w => w * (n : ℚ) / sum
  let st := initStacks probabilities (List.range n) ([], [])
  match pairLoop n ⟨probabilities, List.replicate n 0, List.replicate n 0, st.1, st.2⟩ with
  | none => none
  | some b => some ⟨b.probabilities, b.alias_, fillOnes b.small (fillOnes b.large b.prob), n⟩

/-- The method `sample()`, given the index draw `i = rand_uniform(n)` and the real draw
`u = rand_uniformf()`: `u < prob[i] ? i : alias[i]`. -/
def sample (s : AliasSampler) (i : Nat) (u : ℚ) : Nat :=
  if u < s.prob.getD i 0 then i else s.alias_.getD i 0

/-- State of the pairing loop for a weight vector whose only nonzero entry is at `j`:
`j` is the only heavy index, it still owes one unit to each light index on the stack, and
every light index already taken from the stack has `prob = 0` and alias `j`. -/
structure SingleInv (n j : Nat) (b : Build) : Prop where
  lenP : b.probabilities.length = n
  lenA : b.alias_.length = n
  lenPr : b.prob.length = n
  large : b.large = [j]
  small_lt : ∀ s ∈ b.small, s < n ∧ s ≠ j
  pj : b.probabilities.getD j 0 = 1 + (b.small.length : ℚ)
  pz : ∀ i, i ≠ j → b.probabilities.getD i 0 = 0
  done : ∀ i, i < n → i ≠ j → i ∉ b.small → b.prob.getD i 0 = 0 ∧ b.alias_.getD i 0 = j

end AliasSampler

/-! ## `lib/random.hpp`: uniform draws -/

/-- The function `rand_uniformf()`: `0x1.0p-32 * rand_uint()`.  The argument is the list of
the future outputs of the shared generator `rand_uint` (each a 32-bit value); the result is
the value together with the outputs that are left. -/
def rand_uniformf (draws : List Nat) : Option (ℚ × List Nat) :=
  match draws with
  | [] => none
  | x :: rest => some ((x : ℚ) / 2 ^ 32, rest)

/-- The rejection threshold of `rand_uniform(n)`:
`uint32_t t = -n; if (t >= n) t -= n; if (t >= n) t %= n;`. -/
def rand_uniform_threshold (n : Nat) : Nat :=
  let t := (2 ^ 32 - n) % 2 ^ 32
  let t := if t ≥ n then t - n else t
  if t ≥ n then t % n else t

/-- The loop `while ((uint32_t)m < t) m = (uint64_t)rand_uint() * n;` of `rand_uniform`,
followed by `return m >> 32;`.  It returns `none` when the outputs run out before a
draw is accepted. -/
def rand_uniform_loop (n t : Nat) : Nat → List Nat → Option (Nat × List Nat)
  | m, [] => if m % 2 ^ 32 < t then none else some (m / 2 ^ 32, [])
  | m, x :: rest =>
    if m % 2 ^ 32 < t then rand_uniform_loop n t (x * n % 2 ^ 64) rest
    else some (m / 2 ^ 32, x :: rest)

/-- The function `rand_uniform(n)`:
`m = (uint64_t)rand_uint() * n; if ((uint32_t)m < n) { t = ...; while (...) ...; } return m >> 32;`. -/
def rand_uniform (n : Nat) (draws : List Nat) : Option (Nat × List Nat) :=
  match draws with
  | [] => none
  | x :: rest =>
    let m := x * n % 2 ^ 64
    if m % 2 ^ 32 < n then rand_uniform_loop n (rand_uniform_threshold n) m rest
    else some (m / 2 ^ 32, rest)

/-! ## Computations that read the shared generator -/

/-- Outcome of a computation that reads outputs of the shared generator `rand_uint`:
a value together with the outputs that are left; the exception
`std::runtime_error("No neighbors")` of `Graph::rand_neighbor`, with the outputs left when
it was thrown; or `starved`, when the outputs or the fuel ran out before the computation
finished. -/
inductive Run (α : Type) where
  | ok (val : α) (rest : List Nat)
  | noNeighbors (rest : List Nat)
  | starved
  deriving DecidableEq, Repr

/-- The method `Graph::rand_neighbor(u)`:
`if (adj[u].size() == 0) throw std::runtime_error("No neighbors");`
`return adj[u][rand_uniform(adj[u].size())];`.
The argument of `rand_uniform` is a `uint32_t`, hence the `% 2^32`. -/
def Graph.rand_neighbor (g : Graph) (u : Nat) (draws : List Nat) : Run Nat :=
  if (g.adj.getD u []).length = 0 then .noNeighbors draws
  else
    match rand_uniform ((g.adj.getD u []).length % 2 ^ 32) draws with
    | none => .starved
    | some (k, rest) => .ok ((g.adj.getD u []).getD k 0) rest

/-! ## `uwudgraph/apps/ssppr/ssppr_custom.hpp`: random walks -/

/-- The function `random_walk(g, v, alpha)`:
`while (true) { if (rand_uniformf() < alpha) return v; v = g.rand_neighbor(v); }`,
with fuel for the number of iterations. -/
def random_walk (g : Graph) (alpha : ℚ) : Nat → Nat → List Nat → Run Nat
  | 0, _, _ => .starved
  | fuel + 1, v, draws =>
    match rand_uniformf draws with
    | none => .starved
    | some (u, rest) =>
      if u < alpha then .ok v rest
      else
        match g.rand_neighbor v rest with
        | .ok v1 rest1 => random_walk g alpha fuel v1 rest1
        | .noNeighbors rest1 => .noNeighbors rest1
        | .starved => .starved

/-- The loop `for (size_t _ = 0; _ < count; ++_) ppr[random_walk(g, u, alpha)] += inc;`
shared by the estimators, by recursion on the number of iterations left.  `fuel` bounds the
number of steps of each walk. -/
def walkLoop (g : Graph) (alpha : ℚ) (fuel : Nat) (u : Nat) (inc : ℚ) :
    Nat → List ℚ → List Nat → Run (List ℚ)
  | 0, ppr, draws => .ok ppr draws
  | count + 1, ppr, draws =>
    match random_walk g alpha fuel u draws with
    | .ok v rest => walkLoop g alpha fuel u inc count (ppr.set v (ppr.getD v 0 + inc)) rest
    | .noNeighbors rest => .noNeighbors rest
    | .starved => .starved

/-- The function `ppr_rw(g, source, alpha, rw_num)`: `rw_num` walks from the source, each
adding `1.0 / rw_num` at its terminal node. -/
def ppr_rw (g : Graph) (source : Nat) (alpha : ℚ) (rw_num : Nat) (fuel : Nat)
    (draws : List Nat) : Run (List ℚ) :=
  walkLoop g alpha fuel source (1 / (rw_num : ℚ)) rw_num (List.replicate g.n 0) draws

/-- The terminal nodes of `count` successive calls `random_walk(g, u, alpha)`, in order. -/
def walkEnds (g : Graph) (alpha : ℚ) (fuel : Nat) (u : Nat) :
    Nat → List Nat → Run (List Nat)
  | 0, draws => .ok [] draws
  | count + 1, draws =>
    match random_walk g alpha fuel u draws with
    | .ok v rest =>
      match walkEnds g alpha fuel u count rest with
      | .ok vs rest1 => .ok (v :: vs) rest1
      | .noNeighbors rest1 => .noNeighbors rest1
      | .starved => .starved
    | .noNeighbors rest => .noNeighbors rest
    | .starved => .starved

/-- Node 0 has the single out-edge `0 → 1`; node 1 is dangling. -/
def danglingGraph : Graph := ⟨2, 1, [[1], []]⟩

/-! ## `lib/random.hpp`: binomial draws -/

/-- The loop `for (uint64_t i = 0; i <= n; ++k) i += rand_geometric(p);` of `rand_binomial`.
`geo j` is the value of the `j`-th call of `rand_geometric(p)` (counted from 0); `k` is the
number of calls made so far; the result is the value of `k` when the loop is left. -/
def rand_binomial_loop (n : Nat) (geo : Nat → Nat) : Nat → Nat → Nat → Option Nat
  | 0, _, _ => none
  | fuel + 1, i, k =>
    if i ≤ n then rand_binomial_loop n geo fuel ((i + geo k) % 2 ^ 64) (k + 1) else some k

/-- The function `rand_binomial(n, p)`:
`if (p == 0) return 0; if (p == 1) return n; uint32_t k = 0; <loop> return k - 1;`.
The counter `k` is a `uint32_t`, so the value returned is `k - 1` modulo `2^32`. -/
def rand_binomial (n : Nat) (p : ℚ) (geo : Nat → Nat) (fuel : Nat) : Option Nat :=
  if p = 0 then some 0
  else if p = 1 then some n
  else (rand_binomial_loop n geo fuel 0 0).map fun k => (k % 2 ^ 32 + 2 ^ 32 - 1) % 2 ^ 32

/-- The sum `g_1 + ... + g_j` of the first `j` geometric draws. -/
def geoPrefix (geo : Nat → Nat) (j : Nat) : Nat := (Finset.range j).sum geo

namespace AliasSampler

/-- The indices that are still on one of the two stacks. -/
def Build.pending (b : Build) : List Nat := b.small ++ b.large

/-- The probability mass index `j` currently keeps for itself: its working value
`probabilities[j]` while it is on a stack, its table entry `prob[j]` afterwards. -/
def Build.cur (b : Build) (j : Nat) : ℚ :=
  if j ∈ b.pending then b.probabilities.getD j 0 else b.prob.getD j 0

/-- The probability mass index `j` has received as the alias of finished indices. -/
def Build.given (b : Build) (n j : Nat) : ℚ :=
  (Finset.range n).sum fun i =>
    if i ∉ b.pending ∧ b.alias_.getD i 0 = j then 1 - b.prob.getD i 0 else 0

/-- Invariant of the pairing loop for normalised weights `p0`: light indices are on `small`,
heavy ones on `large`, the indices on the stacks have mean 1, finished entries are
probabilities, and every index owns exactly its normalised weight. -/
structure PropInv (n : Nat) (p0 : Nat → ℚ) (b : Build) : Prop where
  lenP : b.probabilities.length = n
  lenA : b.alias_.length = n
  lenPr : b.prob.length = n
  nodup : b.pending.Nodup
  lt : ∀ x ∈ b.pending, x < n
  small_lt : ∀ s ∈ b.small, 0 ≤ b.probabilities.getD s 0 ∧ b.probabilities.getD s 0 < 1
  large_ge : ∀ l ∈ b.large, 1 ≤ b.probabilities.getD l 0
  mean : ((Finset.range n).sum fun i =>
    if i ∈ b.pending then b.probabilities.getD i 0 - 1 else 0) = 0
  alias_lt : ∀ i, i < n → b.alias_.getD i 0 < n
  done : ∀ i, i < n → i ∉ b.pending → 0 ≤ b.prob.getD i 0 ∧ b.prob.getD i 0 ≤ 1
  mass : ∀ j, j < n → b.cur j + b.given n j = p0 j

end AliasSampler

/-- Every queued node is above its threshold. -/
def FPAbove (g : Graph) (rmax : ℚ) (s : PushState) : Prop :=
  ∀ v, s.queue.is_active v = true → (g.get_degree v : ℚ) * rmax < s.r.getD v 0

/-! ## `uwudgraph/apps/ssppr/ssppr_custom.hpp`: Power Push -/

/-- The constant `epoch_num` of `ppr_powerpush`. -/
def epoch_num : Nat := 8

/-- The loop variables of `ppr_powerpush`: the state of a push loop and the tracked
total residual `rsum`. -/
structure PowerState where
  ppr : List ℚ
  r : List ℚ
  queue : uniqueue
  rsum : ℚ
  deriving DecidableEq, Repr

/-- The condition of the queue loop of `ppr_powerpush`:
`!queue.empty() && queue.size() <= scanThreshold && rsum > lambda`, with
`scanThreshold = g.n / 4`. -/
def ppQueueCond (g : Graph) (lambda : ℚ) (s : PowerState) : Bool :=
  !s.queue.empty && decide (s.queue.size ≤ g.n / 4) && decide (s.rsum > lambda)

/-- The body of the queue loop of `ppr_powerpush`: the push step of `ppr_forwardpush` with
`rmax = lambda / g.m`, together with `rsum -= alpha * r[u]`. -/
def ppQueueStep (g : Graph) (alpha lambda : ℚ) (s : PowerState) : Option PowerState :=
  match s.queue.pop with
  | none => none
  | some (u, q1) =>
    let s1 := pushStep g alpha (lambda / (g.m : ℚ)) u ⟨s.ppr, s.r, q1⟩
    some ⟨s1.ppr, s1.r, s1.queue, s.rsum - alpha * s.r.getD u 0⟩

/-- The queue loop of `ppr_powerpush`, with fuel. -/
def ppQueueLoop (g : Graph) (alpha lambda : ℚ) : Nat → PowerState → Option PowerState
  | 0, s => if ppQueueCond g lambda s then none else some s
  | fuel + 1, s =>
    if ppQueueCond g lambda s then
      match ppQueueStep g alpha lambda s with
      | none => none
      | some s1 => ppQueueLoop g alpha lambda fuel s1
    else some s

/-- The loop `for (v : g.get_neighbors(u)) r[v] += ruv;` of the scan phase. -/
def addNeighbors (ruv : ℚ) : List Nat → List ℚ → List ℚ
  | [], r => r
  | v :: vs, r => addNeighbors ruv vs (r.set v (r.getD v 0 + ruv))

/-- The body of the node loop of the scan phase:
`if (r[u] > degree(u) * rmaxp) { ppr[u] += alpha * r[u]; rsum -= alpha * r[u]; ...; r[u] = 0; }`. -/
def scanNode (g : Graph) (alpha rmaxp : ℚ) (s : PowerState) (u : Nat) : PowerState :=
  if s.r.getD u 0 > (g.get_degree u : ℚ) * rmaxp then
    let ruv := s.r.getD u 0 * (1 - alpha) / (g.get_degree u : ℚ)
    ⟨s.ppr.set u (s.ppr.getD u 0 + alpha * s.r.getD u 0),
      (addNeighbors ruv (g.get_neighbors u) s.r).set u 0, s.queue,
      s.rsum - alpha * s.r.getD u 0⟩
  else s

/-- One scan `for (node_id u = 0; u < g.n; ++u) { ... }` over all nodes. -/
def scanSweep (g : Graph) (alpha rmaxp : ℚ) (s : PowerState) : PowerState :=
  (List.range g.n).foldl (scanNode g alpha rmaxp) s

/-- The loop `while (rsum > g.m * rmaxp) { <scan> }` of one epoch, with fuel. -/
def scanEpoch (g : Graph) (alpha rmaxp : ℚ) : Nat → PowerState → Option PowerState
  | 0, s => if s.rsum > (g.m : ℚ) * rmaxp then none else some s
  | fuel + 1, s =>
    if s.rsum > (g.m : ℚ) * rmaxp then scanEpoch g alpha rmaxp fuel (scanSweep g alpha rmaxp s)
    else some s

/-- The threshold of epoch `i`:
`rmaxp = std::pow(lambda, static_cast<double>(i / epoch_num)) / g.m`.
The quotient `i / epoch_num` is taken between two `int`s before the conversion, so the
exponent is a natural number (and `std::pow` with the exponents `0.0` and `1.0` is exact). -/
def powerpush_rmaxp (lambda : ℚ) (m : Nat) (i : Nat) : ℚ :=
  lambda ^ (i / epoch_num) / (m : ℚ)

/-- The loop `for (int i = 1; i <= epoch_num; ++i)` over the given epochs. -/
def scanEpochs (g : Graph) (alpha lambda : ℚ) (fuel : Nat) : List Nat → PowerState → Option PowerState
  | [], s => some s
  | i :: is, s =>
    match scanEpoch g alpha (powerpush_rmaxp lambda g.m i) fuel s with
    | none => none
    | some s1 => scanEpochs g alpha lambda fuel is s1

/-- The state of `ppr_powerpush` when the queue loop is entered. -/
def ppInit (g : Graph) (source : Nat) : PowerState :=
  ⟨(fpInit g source).ppr, (fpInit g source).r, (fpInit g source).queue, 1⟩

/-- The function `ppr_powerpush(g, source, alpha, lambda)`. `fuel` bounds the number of
iterations of each `while` loop. -/
def ppr_powerpush (g : Graph) (source : Nat) (alpha lambda : ℚ) (fuel : Nat) :
    Option (List ℚ × List ℚ) :=
  match ppQueueLoop g alpha lambda fuel (ppInit g source) with
  | none => none
  | some s =>
    if s.rsum > lambda then
      (scanEpochs g alpha lambda fuel ((List.range epoch_num).map (· + 1)) s).map
        fun s1 => (s1.ppr, s1.r)
    else some (s.ppr, s.r)

/-- Shape of a Power Push state: the vectors have `n` entries, residuals are non-negative
and their sum is at most the tracked `rsum`. -/
structure PPInv (g : Graph) (s : PowerState) : Prop where
  lenP : s.ppr.length = g.n
  lenR : s.r.length = g.n
  nonneg : ∀ v, 0 ≤ s.r.getD v 0
  sum_le : s.r.sum ≤ s.rsum

/-! ## `uwudgraph/apps/ssppr/ssppr_custom.hpp`: estimators completed by random walks -/

/-- The completion loop shared by `ppr_forarw_skelton`, `ppr_fora` and `ppr_speedppr`:
`for (u = 0; u < g.n; ++u) if (r[u] > 0) { for (_ = 0; _ < rw_num; ++_)`
`ppr[random_walk(g, u, alpha)] += r[u] / rw_num; }`, by recursion on the list of the nodes
left.  `cnt u` is the value of `rw_num` at node `u`. -/
def completeWalks (g : Graph) (alpha : ℚ) (fuel : Nat) (r : List ℚ) (cnt : Nat → Nat) :
    List Nat → List ℚ → List Nat → Run (List ℚ)
  | [], ppr, draws => .ok ppr draws
  | u :: us, ppr, draws =>
    if r.getD u 0 > 0 then
      match walkLoop g alpha fuel u (r.getD u 0 / (cnt u : ℚ)) (cnt u) ppr draws with
      | .ok ppr1 rest => completeWalks g alpha fuel r cnt us ppr1 rest
      | .noNeighbors rest => .noNeighbors rest
      | .starved => .starved
    else completeWalks g alpha fuel r cnt us ppr draws

/-- The function `ppr_forarw_skelton(g, source, alpha, rmax, rw_num)`: Forward Push, then
`rw_num` walks from every node with a positive residual. -/
def ppr_forarw_skelton (g : Graph) (source : Nat) (alpha rmax : ℚ) (rw_num : Nat) (fuel : Nat)
    (draws : List Nat) : Run (List ℚ) :=
  match ppr_forwardpush g source alpha rmax fuel with
  | none => .starved
  | some (ppr, r) => completeWalks g alpha fuel r (fun _ => rw_num) (List.range g.n) ppr draws

/-- The walk budget of `ppr_fora`:
`size_t w = ((2*eps/3+2)*std::log(2.0/pf)) / (eps*eps*delta);`.
`flog` stands for `std::log`.  The conversion of the `double` to `size_t` drops the
fractional part; it is defined only for a value that is not negative and below `2^64`, and
the model is the source's value only then. -/
def fora_w (flog : ℚ → ℚ) (eps delta pf : ℚ) : Nat :=
  ⌊((2 * eps / 3 + 2) * flog (2 / pf)) / (eps * eps * delta)⌋₊

/-- The call `ppr_forwardpush(g, source, alpha, rmax)` with `rmax = +inf`.  The source is
processed (`ppr[source] += alpha * r[source]`, every neighbour gets `ruv`, `r[source] = 0`);
no comparison `r[v] > g.get_degree(v) * rmax` holds (the right-hand side is `+inf`, or NaN
when the degree is 0), so nothing is queued and the loop ends there. -/
def forwardpush_unbounded (g : Graph) (source : Nat) (alpha : ℚ) : List ℚ × List ℚ :=
  let s := fpInit g source
  let ruv := s.r.getD source 0 * (1 - alpha) / (g.get_degree source : ℚ)
  (s.ppr.set source (s.ppr.getD source 0 + alpha * s.r.getD source 0),
    (addNeighbors ruv (g.get_neighbors source) s.r).set source 0)

/-- The first two statements of `ppr_fora` after `w`:
`double rmax = std::sqrt(1.0/(g.m*w)); auto [ppr, r] = ppr_forwardpush(g, source, alpha, rmax);`.
The product `g.m*w` is a `size_t`.  When it is `0`, `1.0/0` is `+inf` and so is its square
root; otherwise `fsqrt`, which stands for `std::sqrt`, is applied to the quotient. -/
def fora_forwardpush (fsqrt : ℚ → ℚ) (g : Graph) (source : Nat) (alpha : ℚ) (w : Nat)
    (fuel : Nat) : Option (List ℚ × List ℚ) :=
  if g.m * w % 2 ^ 64 = 0 then some (forwardpush_unbounded g source alpha)
  else ppr_forwardpush g source alpha (fsqrt (1 / ((g.m * w % 2 ^ 64 : Nat) : ℚ))) fuel

/-- The function `ppr_fora(g, source, alpha, eps, delta, pf)`: the budget `w`, Forward
Push with `rmax = std::sqrt(1.0/(g.m*w))`, then `size_t rw_num = std::ceil(r[u] * w);`
walks from every node with a positive residual. -/
def ppr_fora (flog fsqrt : ℚ → ℚ) (g : Graph) (source : Nat) (alpha eps delta pf : ℚ)
    (fuel : Nat) (draws : List Nat) : Run (List ℚ) :=
  let w := fora_w flog eps delta pf
  match fora_forwardpush fsqrt g source alpha w fuel with
  | none => .starved
  | some (ppr, r) =>
    completeWalks g alpha fuel r (fun u => ⌈r.getD u 0 * (w : ℚ)⌉₊) (List.range g.n) ppr draws

/-- The walk budget of `ppr_speedppr`:
`size_t w = 2 * ((2*eps/3+2)*std::log(2.0/pf)) / (eps*eps*delta);`. -/
def speedppr_w (flog : ℚ → ℚ) (eps delta pf : ℚ) : Nat :=
  ⌊2 * ((2 * eps / 3 + 2) * flog (2 / pf)) / (eps * eps * delta)⌋₊

/-- The residual budget of `ppr_speedppr`: `double lambda = static_cast<double>(g.m / w);`.
Both operands of the division are unsigned integers.  (For `w = 0` the source divides an
integer by zero, which is undefined; the model is the source's value for `w > 0`.) -/
def speedppr_lambda (m w : Nat) : ℚ := ((m / w : Nat) : ℚ)

/-- The function `ppr_speedppr(g, source, alpha, eps, delta, pf)`: Power Push with the
budget `lambda`, then `size_t rw_num = std::ceil(r[u] * w);` walks from every node with a
positive residual. -/
def ppr_speedppr (flog : ℚ → ℚ) (g : Graph) (source : Nat) (alpha eps delta pf : ℚ)
    (fuel : Nat) (draws : List Nat) : Run (List ℚ) :=
  let w := speedppr_w flog eps delta pf
  match ppr_powerpush g source alpha (speedppr_lambda g.m w) fuel with
  | none => .starved
  | some (ppr, r) =>
    completeWalks g alpha fuel r (fun u => ⌈r.getD u 0 * (w : ℚ)⌉₊) (List.range g.n) ppr draws

/-- One call of `sampler.sample()` reading the generator:
`uint32_t i = rand_uniform(n); double u = rand_uniformf(); return u < prob[i] ? i : alias[i];`. -/
def AliasSampler.draw (s : AliasSampler) (draws : List Nat) : Option (Nat × List Nat) :=
  match rand_uniform s.n draws with
  | none => none
  | some (i, rest) =>
    match rand_uniformf rest with
    | none => none
    | some (u, rest1) => some (s.sample i u, rest1)

/-- The residual of node `u` in a batch of `ppr_ppw`:
`r[u] = sigma[u] - 1.0/alpha * ppr[u];`
`for (v : g.get_neighbors(u)) r[u] += ((1.0 - alpha)/alpha) * ppr[v] / g.get_degree(u);`. -/
def ppw_residual (g : Graph) (alpha : ℚ) (sigma ppr : List ℚ) (u : Nat) : ℚ :=
  (g.get_neighbors u).foldl
    (fun acc v => acc + ((1 - alpha) / alpha) * ppr.getD v 0 / (g.get_degree u : ℚ))
    (sigma.getD u 0 - 1 / alpha * ppr.getD u 0)

/-- The vector `r` of a batch: the loop `for (u = 0; u < g.n; ++u)` assigns every entry of
the `n`-vector, reading only `sigma` and `ppr`. -/
def ppw_r (g : Graph) (alpha : ℚ) (sigma ppr : List ℚ) : List ℚ :=
  (List.range g.n).map (ppw_residual g alpha sigma ppr)

/-- The vector `rabs` of a batch: `rabs[u] = std::abs(r[u])`. -/
def ppw_rabs (r : List ℚ) : List ℚ := r.map fun x => |x|

/-- Conversion of a `double` to `int`: the fractional part is dropped. -/
def truncToInt (q : ℚ) : Int := if 0 ≤ q then ⌊q⌋ else ⌈q⌉

/-- The call `std::accumulate(rabs.begin(), rabs.end(), 0)`: the initial value `0` is an
`int`, so the accumulator is an `int`, and each step `acc = acc + x` converts the `double`
sum back to `int`. -/
def accumulate_int (xs : List ℚ) : Int :=
  xs.foldl (fun acc x => truncToInt ((acc : ℚ) + x)) 0

/-- What one sample `s` adds to `ppr` at the end of its walk:
`static_cast<double>((1-2*std::signbit(r[s])) * std::accumulate(rabs.begin(), rabs.end(), 0))`
`/ samples_per_batch`.  The product is a product of two `int`s. -/
def ppw_contribution (r rabs : List ℚ) (samples_per_batch : Nat) (s : Nat) : ℚ :=
  (((1 - 2 * (if r.getD s 0 < 0 then 1 else 0)) * accumulate_int rabs : Int) : ℚ)
    / (samples_per_batch : ℚ)

/-- The sampling loop of a batch:
`for (i = 0; i < samples_per_batch; ++i) { AliasSampler sampler(rabs); s = sampler.sample();`
`ppr[random_walk(g, s, alpha)] += ...; }`, by recursion on the number of samples left. -/
def ppw_sampleLoop (g : Graph) (alpha : ℚ) (fuel : Nat) (r rabs : List ℚ)
    (samples_per_batch : Nat) : Nat → List ℚ → List Nat → Run (List ℚ)
  | 0, ppr, draws => .ok ppr draws
  | i + 1, ppr, draws =>
    match AliasSampler.construct rabs with
    | none => .starved
    | some sampler =>
      match sampler.draw draws with
      | none => .starved
      | some (s, rest) =>
        match random_walk g alpha fuel s rest with
        | .ok v rest1 =>
          ppw_sampleLoop g alpha fuel r rabs samples_per_batch i
            (ppr.set v (ppr.getD v 0 + ppw_contribution r rabs samples_per_batch s)) rest1
        | .noNeighbors rest1 => .noNeighbors rest1
        | .starved => .starved

/-- The value accumulated in slot `u` by
`x[u] = 0; for (v : g.get_neighbors(u)) x[u] += (1.0 - alpha) * x_temp[v] / g.get_degree(u);`. -/
def ppw_spread (g : Graph) (alpha : ℚ) (x_temp : List ℚ) (u : Nat) : ℚ :=
  (g.get_neighbors u).foldl
    (fun acc v => acc + (1 - alpha) * x_temp.getD v 0 / (g.get_degree u : ℚ)) 0

/-- The vectors of the power-iteration block of a batch. -/
structure PIState where
  ppr : List ℚ
  facpsigma : List ℚ
  facpppr : List ℚ
  deriving DecidableEq, Repr

/-- The body of `for (u = 0; u < g.n; ++u)` inside one power iteration:
`ppr[u] += alpha * facpsigma[u];` then the slots `u` of `facpsigma` and `facpppr` are
recomputed from the copies `facpsigma_temp` and `facpppr_temp`. -/
def pi_node (g : Graph) (alpha : ℚ) (facpsigma_temp facpppr_temp : List ℚ) (s : PIState)
    (u : Nat) : PIState :=
  ⟨s.ppr.set u (s.ppr.getD u 0 + alpha * s.facpsigma.getD u 0),
    s.facpsigma.set u (ppw_spread g alpha facpsigma_temp u),
    s.facpppr.set u (ppw_spread g alpha facpppr_temp u)⟩

/-- One power iteration: `facpsigma_temp = facpsigma; facpppr_temp = facpppr;` and the loop
over the nodes. -/
def pi_sweep (g : Graph) (alpha : ℚ) (s : PIState) : PIState :=
  (List.range g.n).foldl (pi_node g alpha s.facpsigma s.facpppr) s

/-- The loop `for (k = 0; k < pi_num - 1; ++k)`, by recursion on the number of iterations. -/
def pi_iterate (g : Graph) (alpha : ℚ) : Nat → PIState → PIState
  | 0, s => s
  | k + 1, s => pi_iterate g alpha k (pi_sweep g alpha s)

/-- The final loop `for (u = 0; u < g.n; ++u) ppr[u] += facpppr[u];`. -/
def pi_finish (g : Graph) (s : PIState) : List ℚ :=
  (List.range g.n).foldl (fun p u => p.set u (p.getD u 0 + s.facpppr.getD u 0)) s.ppr

/-- The power-iteration block of a batch: `facpsigma = sigma; facpppr = ppr;`
`std::fill(ppr.begin(), ppr.end(), 0);`, `pi_num - 1` iterations (`pi_num` is a `size_t`),
and the final loop. -/
def ppw_power (g : Graph) (alpha : ℚ) (pi_num : Nat) (sigma ppr : List ℚ) : List ℚ :=
  pi_finish g (pi_iterate g alpha ((pi_num + 2 ^ 64 - 1) % 2 ^ 64)
    ⟨List.replicate ppr.length 0, sigma, ppr⟩)

/-- The loop over the batches of `ppr_ppw`, by recursion on the number of batches left. -/
def ppw_batches (g : Graph) (alpha : ℚ) (pi_num samples_per_batch : Nat) (sigma : List ℚ)
    (fuel : Nat) : Nat → List ℚ → List Nat → Run (List ℚ)
  | 0, ppr, draws => .ok ppr draws
  | b + 1, ppr, draws =>
    match ppw_sampleLoop g alpha fuel (ppw_r g alpha sigma ppr)
        (ppw_rabs (ppw_r g alpha sigma ppr)) samples_per_batch samples_per_batch ppr draws with
    | .ok ppr1 rest =>
      ppw_batches g alpha pi_num samples_per_batch sigma fuel b
        (ppw_power g alpha pi_num sigma ppr1) rest
    | .noNeighbors rest => .noNeighbors rest
    | .starved => .starved

/-- The function `ppr_ppw(g, source, alpha, pi_num, sample_size, batch_size)`, with
`samples_per_batch = static_cast<size_t>(std::ceil(static_cast<double>(sample_size) / batch_size))`. -/
def ppr_ppw (g : Graph) (source : Nat) (alpha : ℚ) (pi_num sample_size batch_size : Nat)
    (fuel : Nat) (draws : List Nat) : Run (List ℚ) :=
  ppw_batches g alpha pi_num ⌈(sample_size : ℚ) / (batch_size : ℚ)⌉₊
    ((List.replicate g.n 0).set source 1) fuel batch_size (List.replicate g.n 0) draws

/-- The operator `P` of the formula comments in `ppr_ppw`: `(P x)[u]` is the average of `x`
over the out-neighbours of `u` (`0` when `u` has none). -/
def transitionP (g : Graph) (x : List ℚ) : List ℚ :=
  (List.range g.n).map fun u =>
    ((g.get_neighbors u).map fun v => x.getD v 0).sum / (g.get_degree u : ℚ)

/-- The value `sum_{k < K} alpha (1-alpha)^k (P^k sigma)[u] + (1-alpha)^K (P^K ppr)[u]`. -/
def ppw_power_formula (g : Graph) (alpha : ℚ) (K : Nat) (sigma ppr : List ℚ) (u : Nat) : ℚ :=
  (Finset.range K).sum (fun k => alpha * (1 - alpha) ^ k * ((transitionP g)^[k] sigma).getD u 0)
    + (1 - alpha) ^ K * ((transitionP g)^[K] ppr).getD u 0

/-! ## `uwudgraph/apps/ssppr/ssppr.hpp`: the dispatcher -/

/-- The eight tunable parameters of `SSPPR`. -/
structure SSPPRParams where
  eps : ℚ
  delta : ℚ
  pf : ℚ
  rmax : ℚ
  rw_num : Nat
  pi_num : Nat
  sample_size : Nat
  batch_size : Nat
  deriving DecidableEq, Repr

/-- The default block of `SSPPR`:
`if(eps == 0) eps = 0.1; if(delta == 0) delta = 1.0/g->n; if(pf == 0) pf = 1.0/g->n;`
`if(rmax == 0) rmax = 1e-4; if(rw_num == 0) rw_num = 1000; if(pi_num == 0) pi_num = 10;`
`if(sample_size == 0) sample_size = 100; if(batch_size == 0) batch_size = 10;`. -/
def SSPPR_defaults (n : Nat) (p : SSPPRParams) : SSPPRParams :=
  let eps := if p.eps = 0 then 1 / 10 else p.eps
  let delta := if p.delta = 0 then 1 / (n : ℚ) else p.delta
  let pf := if p.pf = 0 then 1 / (n : ℚ) else p.pf
  let rmax := if p.rmax = 0 then 1 / 10000 else p.rmax
  let rw_num := if p.rw_num = 0 then 1000 else p.rw_num
  let pi_num := if p.pi_num = 0 then 10 else p.pi_num
  let sample_size := if p.sample_size = 0 then 100 else p.sample_size
  let batch_size := if p.batch_size = 0 then 10 else p.batch_size
  ⟨eps, delta, pf, rmax, rw_num, pi_num, sample_size, batch_size⟩

/-- The exception thrown by `SSPPR` itself: `std::invalid_argument`. -/
inductive SSPPRError where
  | invalid_argument
  deriving DecidableEq, Repr

/-- The expression `ppr_forwardpush(*g, source, alpha, rmax).first`. -/
def forwardpush_first (g : Graph) (source : Nat) (alpha rmax : ℚ) (fuel : Nat)
    (draws : List Nat) : Run (List ℚ) :=
  match ppr_forwardpush g source alpha rmax fuel with
  | none => .starved
  | some (ppr, _) => .ok ppr draws

/-- The function `SSPPR`, from the point where the graph `g` is loaded and `std::stoul` has
returned `source_val`: `source = static_cast<node_id>(source_val)`, the defaults, and the
chain of comparisons of `method`. -/
def SSPPR (flog fsqrt : ℚ → ℚ) (g : Graph) (source_val : Nat) (alpha : ℚ) (method : String)
    (p : SSPPRParams) (fuel : Nat) (draws : List Nat) : Except SSPPRError (Run (List ℚ)) :=
  let source := source_val % 2 ^ 32
  let q := SSPPR_defaults g.n p
  if method = "push" ∨ method = "forwardpush" then
    .ok (forwardpush_first g source alpha q.rmax fuel draws)
  else if method = "rw" then
    .ok (ppr_rw g source alpha q.rw_num fuel draws)
  else if method = "fora_skeleton" then
    .ok (ppr_forarw_skelton g source alpha q.rmax q.rw_num fuel draws)
  else if method = "fora" then
    .ok (ppr_fora flog fsqrt g source alpha q.eps q.delta q.pf fuel draws)
  else if method = "speedppr" then
    .ok (ppr_speedppr flog g source alpha q.eps q.delta q.pf fuel draws)
  else if method = "ppw" then
    .ok (ppr_ppw g source alpha q.pi_num q.sample_size q.batch_size fuel draws)
  else
    .error .invalid_argument

/-- The method names accepted by `SSPPR`. -/
def SSPPR_methods : List String :=
  ["push", "forwardpush", "rw", "fora_skeleton", "fora", "speedppr", "ppw"]

/-! ## `lib/serialize.hpp` -/

/-- The supported types: a fixed-size type of `size` bytes (handled by the generic
helpers, which copy `sizeof(T)` bytes), `std::string`, `std::vector<T>`, `std::pair<T1, T2>`
and `std::tuple<T...>`. -/
inductive Ty where
  | scalar (size : Nat)
  | string
  | vector (t : Ty)
  | pair (a b : Ty)
  | tuple (ts : List Ty)
  deriving Repr

/-- A value of a supported type.  A value of a fixed-size type is its object
representation, the `sizeof(T)` bytes that the generic helpers copy; the characters of a
string are bytes. -/
inductive Val where
  | scalar (bytes : List Nat)
  | string (chars : List Nat)
  | vector (vs : List Val)
  | pair (a b : Val)
  | tuple (vs : List Val)
  deriving Repr

mutual
/-- The function `get_size(obj)`.  `sizeof(size_t)` is 8. -/
def get_size : Val → Nat
  | .scalar bytes => bytes.length
  | .string chars => 8 + chars.length
  | .vector vs => 8 + get_size_list vs
  | .pair a b => get_size a + get_size b
  | .tuple vs => get_size_list vs
/-- The sum of `get_size` over the elements of a vector or the components of a tuple. -/
def get_size_list : List Val → Nat
  | [] => 0
  | v :: vs => get_size v + get_size_list vs
end

/-- The object representation of a `size_t`: 8 bytes, least significant first. -/
def size_bytes (n : Nat) : List Nat :=
  [n % 256, n / 256 % 256, n / 256 ^ 2 % 256, n / 256 ^ 3 % 256, n / 256 ^ 4 % 256,
    n / 256 ^ 5 % 256, n / 256 ^ 6 % 256, n / 256 ^ 7 % 256]

mutual
/-- The function `serializer(obj, res)`: the bytes it writes at the cursor `res`. -/
def serializer : Val → List Nat
  | .scalar bytes => bytes
  | .string chars => size_bytes chars.length ++ chars
  | .vector vs => size_bytes vs.length ++ serializer_list vs
  | .pair a b => serializer a ++ serializer b
  | .tuple vs => serializer_list vs
/-- The loops `for (const auto &cur : obj) serializer(cur, res);` and `serialize_tuple`. -/
def serializer_list : List Val → List Nat
  | [] => []
  | v :: vs => serializer v ++ serializer_list vs
end

/-- The function `serialize(obj, res)`: the stream grows by `get_size(obj)` bytes, the
serializer writes from the old end, and
`assert(res.begin() + offset + size == it)` checks that it stopped at the new end.  The
result is `none` when the assertion fails. -/
def serialize (v : Val) (res : List Nat) : Option (List Nat) :=
  if (serializer v).length = get_size v then some (res ++ serializer v) else none

/-- The helper `deserialize_helper<size_t>::apply`:
`assert(begin + sizeof(T) <= end)`, then 8 bytes are copied into a `size_t`. -/
def read_size : List Nat → Option (Nat × List Nat)
  | b0 :: b1 :: b2 :: b3 :: b4 :: b5 :: b6 :: b7 :: rest =>
    some (b0 + 256 * b1 + 256 ^ 2 * b2 + 256 ^ 3 * b3 + 256 ^ 4 * b4 + 256 ^ 5 * b5
      + 256 ^ 6 * b6 + 256 ^ 7 * b7, rest)
  | _ => none

/-- The loop `for (i = 0; i < size; ++i) str.at(i) = deserialize_helper<uint8_t>::apply(begin, end);`
of the string helper: each step asserts that one byte is left and takes it. -/
def read_chars : Nat → List Nat → Option (List Nat × List Nat)
  | 0, bs => some ([], bs)
  | _ + 1, [] => none
  | k + 1, b :: bs =>
    match read_chars k bs with
    | none => none
    | some (cs, rest) => some (b :: cs, rest)

/-- The loop `for (i = 0; i < size; ++i) vect[i] = deserialize_helper<T>::apply(begin, end);`
of the vector helper; `f` is the helper of the element type. -/
def read_elems (f : List Nat → Option (Val × List Nat)) :
    Nat → List Nat → Option (List Val × List Nat)
  | 0, bs => some ([], bs)
  | k + 1, bs =>
    match f bs with
    | none => none
    | some (v, rest) =>
      match read_elems f k rest with
      | none => none
      | some (vs, rest1) => some (v :: vs, rest1)

mutual
/-- The function `deserialize_helper<T>::apply(begin, end)` for the type `T`: the value read
and the bytes left after the cursor, or `none` when an assertion
`assert(begin + sizeof(T) <= end)` fails. -/
def deserialize_helper : Ty → List Nat → Option (Val × List Nat)
  | .scalar size, bs =>
    if size ≤ bs.length then some (.scalar (bs.take size), bs.drop size) else none
  | .string, bs =>
    match read_size bs with
    | none => none
    | some (size, rest) =>
      if size = 0 then some (.string [], rest)
      else
        match read_chars size rest with
        | none => none
        | some (cs, rest1) => some (.string cs, rest1)
  | .vector t, bs =>
    match read_size bs with
    | none => none
    | some (size, rest) =>
      match read_elems (deserialize_helper t) size rest with
      | none => none
      | some (vs, rest1) => some (.vector vs, rest1)
  | .pair a b, bs =>
    match deserialize_helper a bs with
    | none => none
    | some (x, rest) =>
      match deserialize_helper b rest with
      | none => none
      | some (y, rest1) => some (.pair x y, rest1)
  | .tuple ts, bs =>
    match deserialize_tuple ts bs with
    | none => none
    | some (vs, rest) => some (.tuple vs, rest)
/-- The function `deserialize_tuple`: the components are read in order. -/
def deserialize_tuple : List Ty → List Nat → Option (List Val × List Nat)
  | [], bs => some ([], bs)
  | t :: ts, bs =>
    match deserialize_helper t bs with
    | none => none
    | some (v, rest) =>
      match deserialize_tuple ts rest with
      | none => none
      | some (vs, rest1) => some (v :: vs, rest1)
end

/-- The function `deserialize<T>(res)` on a whole stream: the value read from its start. -/
def deserialize (t : Ty) (res : List Nat) : Option Val :=
  (deserialize_helper t res).map fun p => p.1

mutual
/-- The value `v` is a value of the type `t`: a fixed-size value has `sizeof(T)` bytes,
every byte is below 256, and every length fits a `size_t`. -/
def hasType : Ty → Val → Bool
  | .scalar size, .scalar bytes => bytes.length == size && bytes.all fun b => decide (b < 256)
  | .string, .string chars =>
    decide (chars.length < 2 ^ 64) && chars.all fun b => decide (b < 256)
  | .vector t, .vector vs => decide (vs.length < 2 ^ 64) && vs.all (hasType t)
  | .pair a b, .pair x y => hasType a x && hasType b y
  | .tuple ts, .tuple vs => hasTypeList ts vs
  | _, _ => false
/-- The components `vs` are values of the types `ts`, in order. -/
def hasTypeList : List Ty → List Val → Bool
  | [], [] => true
  | t :: ts, v :: vs => hasType t v && hasTypeList ts vs
  | _, _ => false
end

/-! ## Power Push: loop states used in the termination proof -/

/-- The loop `uint32_t x = rand_uint(); while (x == 0) x = rand_uint();` of
`rand_geometric`: the first output that is not zero, and the outputs left. -/
def rand_nonzero : List Nat → Option (Nat × List Nat)
  | [] => none
  | x :: rest => if x = 0 then rand_nonzero rest else some (x, rest)

/-- Search for the least `k` at or after the given one with `q ^ k ≤ u`, over at most
`fuel` candidates. -/
def geo_search (q u : ℚ) : Nat → Nat → Nat
  | 0, k => k
  | fuel + 1, k => if q ^ k ≤ u then k else geo_search q u fuel (k + 1)

/-- The value of `ceil(std::log(u) / std::log(1 - p))` for exact logarithms, `0 < p < 1` and
`0 < u ≤ 1`, computed without logarithms: since `log(1 - p) < 0`, the quotient is at most `k`
exactly when `(1 - p) ^ k ≤ u`, so its ceiling is the least such `k`.  The search stops at
`ceil((1 - u) / (u * p))` at the latest, where the inequality holds by Bernoulli's
inequality. -/
def ceil_log_ratio (p u : ℚ) : Nat :=
  geo_search (1 - p) u ⌈(1 - u) / (u * p)⌉₊ 0

/-- The function `rand_geometric(p)`:
`if (p == 1) return 1; <x = first nonzero output>; double u = 0x1.0p-32 * x;`
`return (uint32_t)ceil(std::log(u) / std::log(1 - p));`. -/
def rand_geometric (p : ℚ) (draws : List Nat) : Option (Nat × List Nat) :=
  if p = 1 then some (1, draws)
  else
    match rand_nonzero draws with
    | none => none
    | some (x, rest) => some (ceil_log_ratio p ((x : ℚ) / 2 ^ 32) % 2 ^ 32, rest)

/-! # Theorems -/

/-! ## Vector lemmas -/

theorem getD_set_self {α : Type} (l : List α) (i : Nat) (x d : α) (h : i < l.length) :
    (l.set i x).getD i d = x := by
  simp [List.getD_eq_getElem?_getD, List.getElem?_set_self h]

theorem getD_set_ne {α : Type} (l : List α) {i j : Nat} (x d : α) (h : i ≠ j) :
    (l.set i x).getD j d = l.getD j d := by
  simp [List.getD_eq_getElem?_getD, List.getElem?_set_ne h]

theorem getD_replicate {α : Type} (n i : Nat) (x : α) :
    (List.replicate n x).getD i x = x := by
  simp only [List.getD_eq_getElem?_getD, List.getElem?_replicate]
  split <;> rfl

namespace uniqueue

theorem Inv.mem_lt {n : Nat} {q : uniqueue} (h : Inv n q) {v : Nat} (hv : v ∈ q._queue) : v < n := by
  by_contra hlt
  have h1 := (h.act v).2 hv
  rw [is_active, List.getD_eq_default _ _ (by rw [h.len]; omega)] at h1
  exact Bool.false_ne_true h1

theorem inv_init (n : Nat) : Inv n (init n) := by
  refine ⟨by simp [init], by simp [init], fun v => ?_⟩
  simp [init, is_active, getD_replicate]

theorem push_of_active {q : uniqueue} {v : Nat} (h : q.is_active v = true) : q.push v = q := by
  unfold is_active at h
  rw [push, h]; rfl

theorem push_of_inactive {q : uniqueue} {v : Nat} (h : q.is_active v = false) :
    q.push v = ⟨q._queue ++ [v], q._isact.set v true⟩ := by
  unfold is_active at h
  rw [push, h]; rfl

theorem inv_push {n : Nat} {q : uniqueue} (h : Inv n q) {v : Nat} (hv : v < n) :
    Inv n (q.push v) := by
  cases hact : q.is_active v
  · rw [push_of_inactive hact]
    have hnot : v ∉ q._queue := fun hmem => by
      rw [(h.act v).2 hmem] at hact; exact Bool.noConfusion hact
    refine ⟨by simp [h.len], ?_, fun w => ?_⟩
    · exact List.Nodup.append h.nodup (List.nodup_singleton v) (by simpa using hnot)
    · by_cases hw : v = w
      · subst hw
        rw [is_active, getD_set_self _ _ _ _ (by rw [h.len]; exact hv)]
        simp
      · have := h.act w
        simp only [is_active] at this ⊢
        rw [getD_set_ne _ _ _ hw, this]
        simp [Ne.symm hw]
  · rw [push_of_active hact]; exact h

theorem inv_pop {n : Nat} {q q1 : uniqueue} {v : Nat} (h : Inv n q)
    (hp : q.pop = some (v, q1)) : Inv n q1 := by
  obtain ⟨qu, act⟩ := q
  cases qu with
  | nil => simp [pop] at hp
  | cons x rest =>
    simp only [pop, Option.some.injEq, Prod.mk.injEq] at hp
    obtain ⟨hx, hq⟩ := hp
    subst hx hq
    have hnd : x ∉ rest ∧ rest.Nodup := List.nodup_cons.1 h.nodup
    have hxn : x < n := h.mem_lt (List.mem_cons_self x rest)
    refine ⟨by simpa using h.len, hnd.2, fun w => ?_⟩
    by_cases hw : x = w
    · subst hw
      rw [is_active, getD_set_self _ _ _ _ (by rw [← h.len] at hxn; exact hxn)]
      simp [hnd.1]
    · have := h.act w
      simp only [is_active] at this ⊢
      rw [getD_set_ne _ _ _ hw, this]
      simp [Ne.symm hw]

theorem length_clearLoop (l : List Nat) (act : List Bool) :
    (clearLoop l act).length = act.length := by
  induction l generalizing act with
  | nil => rfl
  | cons x rest ih => simp [clearLoop, ih]

theorem getD_clearLoop (l : List Nat) (act : List Bool) (w : Nat) :
    (clearLoop l act).getD w false = (if w ∈ l then false else act.getD w false) := by
  induction l generalizing act with
  | nil => simp [clearLoop]
  | cons x rest ih =>
    rw [clearLoop, ih]
    by_cases h1 : w ∈ rest
    · simp [h1]
    · by_cases h2 : x = w
      · subst h2
        by_cases h3 : x < act.length
        · rw [getD_set_self _ _ _ _ h3]; simp [h1]
        · rw [List.getD_eq_default _ _ (show (act.set x false).length ≤ x by simp; omega)]
          simp [h1]
      · rw [getD_set_ne _ _ _ h2]; simp [h1, Ne.symm h2]

theorem inv_clear {n : Nat} {q : uniqueue} (h : Inv n q) : Inv n q.clear := by
  refine ⟨by simp [clear, length_clearLoop, h.len], by simp [clear], fun w => ?_⟩
  have := h.act w
  simp only [is_active] at this
  simp only [clear, is_active, getD_clearLoop, List.not_mem_nil, iff_false]
  by_cases hw : w ∈ q._queue
  · simp [hw]
  · simp only [hw, if_false]
    intro hc; exact hw (this.1 hc)

theorem Reachable.toInv {n : Nat} {q : uniqueue} (h : Reachable n q) : Inv n q := by
  induction h with
  | init => exact inv_init n
  | push v _ hv ih => exact inv_push ih hv
  | pop _ hp ih => exact inv_pop ih hp
  | clear _ ih => exact inv_clear ih

theorem Inv.size_le {n : Nat} {q : uniqueue} (h : Inv n q) : q.size ≤ n := by
  have hsub : q._queue.toFinset ⊆ Finset.range n := fun v hv =>
    Finset.mem_range.2 (h.mem_lt (List.mem_toFinset.1 hv))
  have hcard := Finset.card_le_card hsub
  rw [List.toFinset_card_of_nodup h.nodup, Finset.card_range] at hcard
  exact hcard

theorem all_inactive_of_empty {n : Nat} {q : uniqueue} (h : Inv n q) (he : q._queue = []) (v : Nat) :
    q.is_active v = false := by
  cases hv : q.is_active v
  · rfl
  · have := (h.act v).1 hv
    rw [he] at this
    exact absurd this (List.not_mem_nil v)

theorem pop_cons (x : Nat) (rest : List Nat) (act : List Bool) :
    pop ⟨x :: rest, act⟩ = some (x, ⟨rest, act.set x false⟩) := rfl

theorem drain_sound {n : Nat} (fuel : Nat) : ∀ (q : uniqueue) (vs : List Nat) (q1 : uniqueue),
    Inv n q → drain fuel q = some (vs, q1) →
    vs = q._queue ∧ q1._queue = [] ∧ Inv n q1 := by
  induction fuel with
  | zero =>
    intro q vs q1 h hd
    obtain ⟨qu, act⟩ := q
    cases qu with
    | nil =>
      simp only [drain, empty, List.isEmpty_nil, if_true, Option.some.injEq, Prod.mk.injEq] at hd
      obtain ⟨h1, h2⟩ := hd
      subst h1 h2
      exact ⟨rfl, rfl, h⟩
    | cons x rest => simp [drain, empty] at hd
  | succ fuel ih =>
    intro q vs q1 h hd
    obtain ⟨qu, act⟩ := q
    cases qu with
    | nil =>
      simp only [drain, pop, Option.some.injEq, Prod.mk.injEq] at hd
      obtain ⟨h1, h2⟩ := hd
      subst h1 h2
      exact ⟨rfl, rfl, h⟩
    | cons x rest =>
      have hinv := inv_pop h (pop_cons x rest act)
      simp only [drain, pop_cons] at hd
      cases hrec : drain fuel ⟨rest, act.set x false⟩ with
      | none => rw [hrec] at hd; exact Option.noConfusion hd
      | some res =>
        obtain ⟨ws, q2⟩ := res
        rw [hrec] at hd
        simp only [Option.some.injEq, Prod.mk.injEq] at hd
        obtain ⟨h1, h2⟩ := hd
        subst h1 h2
        obtain ⟨e1, e2, e3⟩ := ih _ _ _ hinv hrec
        exact ⟨by rw [e1], e2, e3⟩

theorem drain_isSome (fuel : Nat) : ∀ (q : uniqueue), q.size ≤ fuel → (drain fuel q).isSome = true := by
  induction fuel with
  | zero =>
    intro q hs
    have : q._queue = [] := List.length_eq_zero.1 (Nat.le_zero.1 hs)
    simp [drain, empty, this]
  | succ fuel ih =>
    intro q hs
    obtain ⟨qu, act⟩ := q
    cases qu with
    | nil => simp [drain, pop]
    | cons x rest =>
      have hrec := ih ⟨rest, act.set x false⟩ (by simpa [size] using hs)
      simp only [drain, pop_cons]
      cases hd : drain fuel ⟨rest, act.set x false⟩ with
      | none => rw [hd] at hrec; exact Bool.noConfusion hrec
      | some res => rfl

end uniqueue

/-! ## Claims about the worklist -/

/-- C5 (worklist deduplication): in every state reachable from `uniqueue(n)` each id
occurs at most once in the queue; `push(v)` on a state where `v` is active leaves the
whole state unchanged; and pushing an id `v < n` twice in a row leaves exactly one
queued instance of `v`, the second push changing nothing. -/
theorem uniqueue_push_dedup (n : Nat) (q : uniqueue) (h : uniqueue.Reachable n q) :
    (∀ v, q._queue.count v ≤ 1) ∧
    (∀ v, q.is_active v = true → q.push v = q) ∧
    (∀ v, v < n → (q.push v).push v = q.push v ∧ (q.push v)._queue.count v = 1) := by
  have hinv := h.toInv
  refine ⟨fun v => List.nodup_iff_count_le_one.1 hinv.nodup v,
    fun v hv => uniqueue.push_of_active hv, fun v hv => ?_⟩
  have hinv1 := uniqueue.inv_push hinv hv
  have hact : (q.push v).is_active v = true := by
    cases hq : q.is_active v
    · rw [uniqueue.push_of_inactive hq, uniqueue.is_active,
        getD_set_self _ _ _ _ (by rw [hinv.len]; exact hv)]
    · rw [uniqueue.push_of_active hq]; exact hq
  exact ⟨uniqueue.push_of_active hact,
    List.count_eq_one_of_mem hinv1.nodup ((hinv1.act v).1 hact)⟩

/-- Witness for C5: the state after `push(3); push(5); push(3)` on `uniqueue(10)`,
the usage example of the header. -/
theorem uniqueue_push_dedup_witness :
    uniqueue.Reachable 10 ((((uniqueue.init 10).push 3).push 5).push 3) ∧
    ((((uniqueue.init 10).push 3).push 5).push 3)._queue = [3, 5] ∧
    (∀ v, ((((uniqueue.init 10).push 3).push 5).push 3)._queue.count v ≤ 1) :=
  ⟨.push 3 (.push 5 (.push 3 .init (by decide)) (by decide)) (by decide), by decide,
    (uniqueue_push_dedup 10 _
      (.push 3 (.push 5 (.push 3 .init (by decide)) (by decide)) (by decide))).1⟩

/-- C6 (worklist draining): in every reachable state `is_active(v)` holds exactly when
`v` is in the queue; popping until `empty()` returns (any fuel of at least `size()` is
enough) and ends in a state with an empty queue in which no id is active; one `clear()`
gives an empty queue in which no id is active. -/
theorem uniqueue_drain_inactive (n : Nat) (q : uniqueue) (h : uniqueue.Reachable n q) :
    (∀ v, q.is_active v = true ↔ v ∈ q._queue) ∧
    (∀ fuel, q.size ≤ fuel → ∃ vs q1, uniqueue.drain fuel q = some (vs, q1) ∧
      q1.empty = true ∧ ∀ v, q1.is_active v = false) ∧
    (q.clear.empty = true ∧ ∀ v, q.clear.is_active v = false) := by
  have hinv := h.toInv
  refine ⟨hinv.act, fun fuel hf => ?_, rfl, fun v => ?_⟩
  · have hsome := uniqueue.drain_isSome fuel q hf
    cases hd : uniqueue.drain fuel q with
    | none => rw [hd] at hsome; exact Bool.noConfusion hsome
    | some res =>
      obtain ⟨vs, q1⟩ := res
      obtain ⟨_, e2, e3⟩ := uniqueue.drain_sound fuel q vs q1 hinv hd
      exact ⟨vs, q1, rfl, by simp [uniqueue.empty, e2],
        fun v => uniqueue.all_inactive_of_empty e3 e2 v⟩
  · exact uniqueue.all_inactive_of_empty (uniqueue.inv_clear hinv) rfl v

/-- Witness for C6: the state after `push(3); push(5)` on `uniqueue(10)`. -/
theorem uniqueue_drain_inactive_witness :
    uniqueue.Reachable 10 (((uniqueue.init 10).push 3).push 5) ∧
    (∀ v, (((uniqueue.init 10).push 3).push 5).is_active v = true ↔
      v ∈ (((uniqueue.init 10).push 3).push 5)._queue) :=
  ⟨.push 5 (.push 3 .init (by decide)) (by decide),
    (uniqueue_drain_inactive 10 _ (.push 5 (.push 3 .init (by decide)) (by decide))).1⟩

/-- C7 (worklist capacity bound): in every state reachable from `uniqueue(n)` by `push`,
`pop` and `clear` with ids below `n`, `size() ≤ n`. -/
theorem uniqueue_size_le_capacity (n : Nat) (q : uniqueue) (h : uniqueue.Reachable n q) :
    q.size ≤ n :=
  h.toInv.size_le

/-- Witness for C7: pushing `0, 1, 0, 1` into `uniqueue(2)`. -/
theorem uniqueue_size_le_capacity_witness :
    uniqueue.Reachable 2 (((((uniqueue.init 2).push 0).push 1).push 0).push 1) ∧
    (((((uniqueue.init 2).push 0).push 1).push 0).push 1).size ≤ 2 :=
  ⟨.push 1 (.push 0 (.push 1 (.push 0 .init (by decide)) (by decide)) (by decide)) (by decide),
    uniqueue_size_le_capacity 2 _
      (.push 1 (.push 0 (.push 1 (.push 0 .init (by decide)) (by decide)) (by decide))
        (by decide))⟩

/-- C8 (worklist FIFO order): on a reachable state whose queue is `x` followed by `rest`,
`pop()` returns `x`, leaves the queue equal to `rest`, makes `x` inactive and changes no
other active flag.  An effective push (of an inactive id below `n`) appends the id at the
back, and popping until empty returns the queued ids front to back: ids are popped in
the order of their effective pushes. -/
theorem uniqueue_pop_fifo (n : Nat) (q : uniqueue) (h : uniqueue.Reachable n q) :
    (∀ x rest, q._queue = x :: rest → ∃ q1, q.pop = some (x, q1) ∧ q1._queue = rest ∧
      q1.is_active x = false ∧ ∀ v, v ≠ x → q1.is_active v = q.is_active v) ∧
    (∀ v, v < n → q.is_active v = false → (q.push v)._queue = q._queue ++ [v]) ∧
    (∀ fuel vs q1, uniqueue.drain fuel q = some (vs, q1) → vs = q._queue) := by
  have hinv := h.toInv
  refine ⟨fun x rest hq => ?_, fun v _ hv => by rw [uniqueue.push_of_inactive hv],
    fun fuel vs q1 hd => (uniqueue.drain_sound fuel q vs q1 hinv hd).1⟩
  obtain ⟨qu, act⟩ := q
  simp only at hq
  subst hq
  have hinv1 := uniqueue.inv_pop hinv (uniqueue.pop_cons x rest act)
  have hnd : x ∉ rest := (List.nodup_cons.1 hinv.nodup).1
  refine ⟨_, uniqueue.pop_cons x rest act, rfl, ?_, fun v hv => ?_⟩
  · cases hx : uniqueue.is_active ⟨rest, act.set x false⟩ x
    · rfl
    · exact absurd ((hinv1.act x).1 hx) hnd
  · simp only [uniqueue.is_active]
    rw [getD_set_ne _ _ _ (Ne.symm hv)]

/-- Witness for C8: after `push(3); push(5); push(3)` on `uniqueue(10)` the ids come out
as `3, 5`. -/
theorem uniqueue_pop_fifo_witness :
    uniqueue.Reachable 10 ((((uniqueue.init 10).push 3).push 5).push 3) ∧
    uniqueue.drain 2 ((((uniqueue.init 10).push 3).push 5).push 3) =
      some ([3, 5], uniqueue.init 10) ∧
    (∀ fuel vs q1, uniqueue.drain fuel ((((uniqueue.init 10).push 3).push 5).push 3) =
      some (vs, q1) → vs = [3, 5]) :=
  ⟨.push 3 (.push 5 (.push 3 .init (by decide)) (by decide)) (by decide), by decide,
    (uniqueue_pop_fifo 10 _
      (.push 3 (.push 5 (.push 3 .init (by decide)) (by decide)) (by decide))).2.2⟩

/-! ## Sums of vectors -/

theorem sum_set (l : List ℚ) (i : Nat) (x : ℚ) (h : i < l.length) :
    (l.set i x).sum = l.sum - l.getD i 0 + x := by
  induction l generalizing i with
  | nil => simp at h
  | cons a l ih =>
    cases i with
    | zero => simp only [List.set, List.sum_cons, List.getD_cons_zero]; ring
    | succ i =>
      have hi : i < l.length := by simpa using h
      simp only [List.set, List.sum_cons, List.getD_cons_succ, ih i hi]
      ring

theorem pushNeighbors_length (g : Graph) (rmax ruv : ℚ) (vs : List Nat) :
    ∀ (r : List ℚ) (q : uniqueue), (pushNeighbors g rmax ruv vs r q).1.length = r.length := by
  induction vs with
  | nil => intro r q; rfl
  | cons v vs ih => intro r q; simp [pushNeighbors, ih]

theorem pushNeighbors_inv (g : Graph) (rmax ruv : ℚ) (n : Nat) (vs : List Nat)
    (hvs : ∀ v ∈ vs, v < n) :
    ∀ (r : List ℚ) (q : uniqueue), uniqueue.Inv n q →
      uniqueue.Inv n (pushNeighbors g rmax ruv vs r q).2 := by
  induction vs with
  | nil => intro r q h; exact h
  | cons v vs ih =>
    intro r q h
    simp only [pushNeighbors]
    apply ih (fun w hw => hvs w (List.mem_cons_of_mem v hw))
    split
    · exact uniqueue.inv_push h (hvs v (List.mem_cons_self v vs))
    · exact h

theorem pushNeighbors_getD (g : Graph) (rmax ruv : ℚ) (vs : List Nat) :
    ∀ (r : List ℚ) (q : uniqueue), (∀ v ∈ vs, v < r.length) → ∀ w,
      (pushNeighbors g rmax ruv vs r q).1.getD w 0 = r.getD w 0 + (vs.count w : ℚ) * ruv := by
  induction vs with
  | nil => intro r q _ w; simp [pushNeighbors]
  | cons v vs ih =>
    intro r q hvs w
    simp only [pushNeighbors]
    rw [ih _ _ (fun x hx => by simpa using hvs x (List.mem_cons_of_mem v hx))]
    by_cases hw : v = w
    · subst hw
      rw [getD_set_self _ _ _ _ (hvs v (List.mem_cons_self v vs)), List.count_cons_self]
      push_cast; ring
    · rw [getD_set_ne _ _ _ hw, List.count_cons_of_ne (Ne.symm hw)]

theorem pushNeighbors_sum (g : Graph) (rmax ruv : ℚ) (vs : List Nat) :
    ∀ (r : List ℚ) (q : uniqueue), (∀ v ∈ vs, v < r.length) →
      (pushNeighbors g rmax ruv vs r q).1.sum = r.sum + (vs.length : ℚ) * ruv := by
  induction vs with
  | nil => intro r q _; simp [pushNeighbors]
  | cons v vs ih =>
    intro r q hvs
    simp only [pushNeighbors]
    rw [ih _ _ (fun x hx => by simpa using hvs x (List.mem_cons_of_mem v hx)),
      sum_set _ _ _ (hvs v (List.mem_cons_self v vs))]
    simp only [List.length_cons]
    push_cast; ring

/-- The queue after the inner loop is the queue before it followed by the newly
queued ids, each of which is a neighbour whose final residual exceeds its threshold. -/
theorem pushNeighbors_queue (g : Graph) (rmax ruv : ℚ) (hruv : 0 ≤ ruv) (vs : List Nat) :
    ∀ (r : List ℚ) (q : uniqueue), (∀ v ∈ vs, v < r.length) →
      ∃ new, (pushNeighbors g rmax ruv vs r q).2._queue = q._queue ++ new ∧
        ∀ x ∈ new, x ∈ vs ∧
          (g.get_degree x : ℚ) * rmax < (pushNeighbors g rmax ruv vs r q).1.getD x 0 := by
  induction vs with
  | nil => intro r q _; exact ⟨[], by simp [pushNeighbors], by simp⟩
  | cons v vs ih =>
    intro r q hvs
    have hv : v < r.length := hvs v (List.mem_cons_self v vs)
    have hvs1 : ∀ x ∈ vs, x < (r.set v (r.getD v 0 + ruv)).length := fun x hx => by
      simpa using hvs x (List.mem_cons_of_mem v hx)
    simp only [pushNeighbors]
    have hmono : ∀ (q1 : uniqueue) (x : Nat), (r.set v (r.getD v 0 + ruv)).getD x 0 ≤
        (pushNeighbors g rmax ruv vs (r.set v (r.getD v 0 + ruv)) q1).1.getD x 0 := by
      intro q1 x
      rw [pushNeighbors_getD g rmax ruv vs _ q1 hvs1 x]
      have : 0 ≤ (vs.count x : ℚ) * ruv := mul_nonneg (Nat.cast_nonneg _) hruv
      linarith
    split
    · rename_i hgt
      obtain ⟨new, hq, hnew⟩ := ih (r.set v (r.getD v 0 + ruv)) (q.push v) hvs1
      cases hact : q.is_active v
      · rw [uniqueue.push_of_inactive hact] at hq hnew ⊢
        refine ⟨v :: new, by rw [hq]; simp, fun x hx => ?_⟩
        rcases List.mem_cons.1 hx with rfl | hx
        · exact ⟨List.mem_cons_self _ _, lt_of_lt_of_le hgt (hmono _ _)⟩
        · exact ⟨List.mem_cons_of_mem _ (hnew x hx).1, (hnew x hx).2⟩
      · rw [uniqueue.push_of_active hact] at hq hnew ⊢
        exact ⟨new, hq, fun x hx => ⟨List.mem_cons_of_mem _ (hnew x hx).1, (hnew x hx).2⟩⟩
    · obtain ⟨new, hq, hnew⟩ := ih (r.set v (r.getD v 0 + ruv)) q hvs1
      exact ⟨new, hq, fun x hx => ⟨List.mem_cons_of_mem _ (hnew x hx).1, (hnew x hx).2⟩⟩

/-! ## Invariants of the Forward Push loop -/

theorem Graph.WF.neighbors_lt {g : Graph} (hg : g.WF) (u : Nat) :
    ∀ v ∈ g.get_neighbors u, v < g.n := by
  intro v hv
  unfold Graph.get_neighbors at hv
  by_cases hu : u < g.adj.length
  · rw [List.getD_eq_getElem _ _ hu] at hv
    exact hg.2 _ (List.getElem_mem hu) v hv
  · rw [List.getD_eq_default _ _ (by omega)] at hv
    exact absurd hv (List.not_mem_nil v)

theorem Graph.Reach.node_lt {g : Graph} (hg : g.WF) {s v : Nat} (hs : s < g.n) (h : g.Reach s v) :
    v < g.n := by
  induction h with
  | refl => exact hs
  | step _ hv _ => exact hg.neighbors_lt _ _ hv

theorem Graph.degree_eq_length (g : Graph) (u : Nat) :
    g.get_degree u = (g.get_neighbors u).length := rfl

theorem uniqueue.is_active_push_self {q : uniqueue} {v : Nat} (hv : v < q._isact.length) :
    (q.push v).is_active v = true := by
  cases hq : q.is_active v
  · rw [uniqueue.push_of_inactive hq, uniqueue.is_active, getD_set_self _ _ _ _ hv]
  · rw [uniqueue.push_of_active hq]; exact hq

theorem uniqueue.is_active_push_ne (q : uniqueue) {v w : Nat} (h : v ≠ w) :
    (q.push v).is_active w = q.is_active w := by
  cases hq : q.is_active v
  · rw [uniqueue.push_of_inactive hq, uniqueue.is_active, getD_set_ne _ _ _ h]; rfl
  · rw [uniqueue.push_of_active hq]

theorem uniqueue.push_isact_length (q : uniqueue) (v : Nat) :
    (q.push v)._isact.length = q._isact.length := by
  cases hq : q.is_active v
  · rw [uniqueue.push_of_inactive hq]; simp
  · rw [uniqueue.push_of_active hq]

/-- The inner loop keeps every node other than `u` that is not queued at or below its
threshold. -/
theorem pushNeighbors_below (g : Graph) (rmax ruv : ℚ) (u : Nat) (vs : List Nat) :
    ∀ (r : List ℚ) (q : uniqueue), (∀ v ∈ vs, v < q._isact.length) →
      (∀ w, w ≠ u → q.is_active w = false → r.getD w 0 ≤ (g.get_degree w : ℚ) * rmax) →
      ∀ w, w ≠ u → (pushNeighbors g rmax ruv vs r q).2.is_active w = false →
        (pushNeighbors g rmax ruv vs r q).1.getD w 0 ≤ (g.get_degree w : ℚ) * rmax := by
  induction vs with
  | nil => intro r q _ h; exact h
  | cons v vs ih =>
    intro r q hvs hJ
    have hv := hvs v (List.mem_cons_self v vs)
    simp only [pushNeighbors]
    split
    · rename_i hgt
      apply ih
      · intro x hx; rw [uniqueue.push_isact_length]; exact hvs x (List.mem_cons_of_mem v hx)
      · intro w hw hact
        by_cases hvw : v = w
        · subst hvw
          rw [uniqueue.is_active_push_self hv] at hact
          exact Bool.noConfusion hact
        · rw [uniqueue.is_active_push_ne _ hvw] at hact
          rw [getD_set_ne _ _ _ hvw]
          exact hJ w hw hact
    · rename_i hle
      apply ih
      · intro x hx; exact hvs x (List.mem_cons_of_mem v hx)
      · intro w hw hact
        by_cases hvw : v = w
        · subst hvw; exact not_lt.1 hle
        · rw [getD_set_ne _ _ _ hvw]
          exact hJ w hw hact

theorem fpIter_eq_some {g : Graph} {alpha rmax : ℚ} {s s1 : PushState}
    (h : fpIter g alpha rmax s = some s1) :
    ∃ u rest, s.queue._queue = u :: rest ∧
      s.queue.pop = some (u, ⟨rest, s.queue._isact.set u false⟩) ∧
      s1 = pushStep g alpha rmax u { s with queue := ⟨rest, s.queue._isact.set u false⟩ } := by
  obtain ⟨ppr, r, ⟨qu, act⟩⟩ := s
  cases qu with
  | nil => simp [fpIter, uniqueue.pop] at h
  | cons u rest =>
    simp only [fpIter, uniqueue.pop, Option.some.injEq] at h
    exact ⟨u, rest, rfl, rfl, h.symm⟩

theorem fpIter_eq_none {g : Graph} {alpha rmax : ℚ} {s : PushState}
    (h : fpIter g alpha rmax s = none) : s.queue._queue = [] := by
  obtain ⟨ppr, r, ⟨qu, act⟩⟩ := s
  cases qu with
  | nil => rfl
  | cons u rest => simp [fpIter, uniqueue.pop] at h

theorem ruv_nonneg (g : Graph) {alpha : ℚ} (ha1 : alpha ≤ 1) {s : PushState}
    (hnn : ∀ v, 0 ≤ s.r.getD v 0) (u : Nat) :
    0 ≤ s.r.getD u 0 * (1 - alpha) / (g.get_degree u : ℚ) :=
  div_nonneg (mul_nonneg (hnn u) (by linarith)) (Nat.cast_nonneg _)

theorem fpInit_inv (g : Graph) {source : Nat} (hs : source < g.n) : FPInv g (fpInit g source) := by
  refine ⟨by simp [fpInit], by simp [fpInit], uniqueue.inv_push (uniqueue.inv_init g.n) hs,
    fun v => ?_⟩
  simp only [fpInit]
  by_cases hv : source = v
  · subst hv; rw [getD_set_self _ _ _ _ (by simpa using hs)]; exact zero_le_one
  · rw [getD_set_ne _ _ _ hv, getD_replicate]

theorem fpIter_inv {g : Graph} (hg : g.WF) {alpha rmax : ℚ} (ha1 : alpha ≤ 1)
    {s s1 : PushState} (h : FPInv g s) (hstep : fpIter g alpha rmax s = some s1) :
    FPInv g s1 := by
  obtain ⟨u, rest, hq, hpop, rfl⟩ := fpIter_eq_some hstep
  have hqinv := uniqueue.inv_pop h.queue hpop
  have hnb : ∀ v ∈ g.get_neighbors u, v < s.r.length := by
    rw [h.lenR]; exact hg.neighbors_lt u
  refine ⟨by simp [pushStep, h.lenP], by simp [pushStep, pushNeighbors_length, h.lenR],
    pushNeighbors_inv g _ _ g.n _ (hg.neighbors_lt u) _ _ hqinv, fun v => ?_⟩
  simp only [pushStep]
  by_cases hv : u = v
  · subst hv
    by_cases hu : u < s.r.length
    · rw [getD_set_self _ _ _ _ (by rw [pushNeighbors_length]; exact hu)]
    · rw [List.getD_eq_default _ _ (by simp [pushNeighbors_length]; omega)]
  · rw [getD_set_ne _ _ _ hv, pushNeighbors_getD _ _ _ _ _ _ hnb]
    have := mul_nonneg (Nat.cast_nonneg ((g.get_neighbors u).count v) : (0:ℚ) ≤ _)
      (ruv_nonneg g ha1 h.nonneg u)
    have := h.nonneg v
    linarith

theorem fpInit_below (g : Graph) {source : Nat} (hs : source < g.n) {rmax : ℚ} (hr : 0 ≤ rmax) :
    FPBelow g rmax (fpInit g source) := by
  intro v hv
  simp only [fpInit] at hv ⊢
  by_cases hsv : source = v
  · subst hsv
    rw [uniqueue.is_active_push_self (by simpa [uniqueue.init] using hs)] at hv
    exact Bool.noConfusion hv
  · rw [getD_set_ne _ _ _ hsv, getD_replicate]
    exact mul_nonneg (Nat.cast_nonneg _) hr

theorem fpIter_below {g : Graph} (hg : g.WF) {alpha rmax : ℚ} (hr : 0 ≤ rmax)
    {s s1 : PushState} (h : FPInv g s) (hb : FPBelow g rmax s)
    (hstep : fpIter g alpha rmax s = some s1) : FPBelow g rmax s1 := by
  obtain ⟨u, rest, hq, hpop, rfl⟩ := fpIter_eq_some hstep
  intro w hw
  simp only [pushStep] at hw ⊢
  by_cases huw : u = w
  · subst huw
    have h0 : ((pushNeighbors g rmax (s.r.getD u 0 * (1 - alpha) / (g.get_degree u : ℚ))
        (g.get_neighbors u) s.r ⟨rest, s.queue._isact.set u false⟩).1.set u 0).getD u 0 = 0 := by
      by_cases hu : u < s.r.length
      · rw [getD_set_self _ _ _ _ (by rw [pushNeighbors_length]; exact hu)]
      · rw [List.getD_eq_default _ _ (by simp [pushNeighbors_length]; omega)]
    rw [h0]
    exact mul_nonneg (Nat.cast_nonneg _) hr
  · rw [getD_set_ne _ _ _ huw]
    refine pushNeighbors_below g rmax _ u _ s.r ⟨rest, s.queue._isact.set u false⟩ ?_ ?_ w
      (Ne.symm huw) hw
    · intro v hv
      simp only [List.length_set, h.queue.len]
      exact hg.neighbors_lt u v hv
    · intro x hx hact
      apply hb
      simp only [uniqueue.is_active] at hact ⊢
      rwa [getD_set_ne _ _ _ (Ne.symm hx)] at hact

theorem FPReach.toFPInv {g : Graph} (hg : g.WF) {alpha rmax : ℚ} (ha1 : alpha ≤ 1) {source : Nat}
    (hs : source < g.n) {s : PushState} (h : FPReach g alpha rmax source s) : FPInv g s := by
  induction h with
  | init => exact fpInit_inv g hs
  | step _ hstep ih => exact fpIter_inv hg ha1 ih hstep

/-! ## Termination of the Forward Push loop -/

/-- The total residual after one push step, exactly. -/
theorem pushStep_sum {g : Graph} (hg : g.WF) (alpha rmax : ℚ) (u : Nat) (s : PushState)
    (hlen : s.r.length = g.n) (hu : u < g.n) :
    (pushStep g alpha rmax u s).r.sum =
      s.r.sum + (g.get_degree u : ℚ) * (s.r.getD u 0 * (1 - alpha) / (g.get_degree u : ℚ))
        - (s.r.getD u 0 + ((g.get_neighbors u).count u : ℚ)
            * (s.r.getD u 0 * (1 - alpha) / (g.get_degree u : ℚ))) := by
  have hnb : ∀ v ∈ g.get_neighbors u, v < s.r.length := by
    rw [hlen]; exact hg.neighbors_lt u
  simp only [pushStep]
  rw [sum_set _ _ _ (by rw [pushNeighbors_length, hlen]; exact hu),
    pushNeighbors_sum _ _ _ _ _ _ hnb, pushNeighbors_getD _ _ _ _ _ _ hnb,
    Graph.degree_eq_length]
  ring

/-- One push step of a node with at least one neighbour and no self-loop moves mass
without creating or destroying any: `sum(ppr) + sum(r)` is unchanged. -/
theorem pushStep_mass {g : Graph} (hg : g.WF) (alpha rmax : ℚ) (u : Nat) (s : PushState)
    (hlenP : s.ppr.length = g.n) (hlenR : s.r.length = g.n) (hu : u < g.n)
    (hdeg : 1 ≤ g.get_degree u) (hloop : u ∉ g.get_neighbors u) :
    (pushStep g alpha rmax u s).ppr.sum + (pushStep g alpha rmax u s).r.sum
      = s.ppr.sum + s.r.sum := by
  rw [pushStep_sum hg alpha rmax u s hlenR hu, List.count_eq_zero_of_not_mem hloop]
  have hd' : (g.get_degree u : ℚ) ≠ 0 := Nat.cast_ne_zero.2 (by omega)
  have he : (g.get_degree u : ℚ) * (s.r.getD u 0 * (1 - alpha) / (g.get_degree u : ℚ))
      = s.r.getD u 0 * (1 - alpha) := by field_simp
  have hp : (pushStep g alpha rmax u s).ppr.sum
      = s.ppr.sum - s.ppr.getD u 0 + (s.ppr.getD u 0 + alpha * s.r.getD u 0) := by
    simp only [pushStep]
    rw [sum_set _ _ _ (by rw [hlenP]; exact hu)]
  rw [hp, he]
  push_cast
  ring

theorem fpLoop_sound {g : Graph} {alpha rmax : ℚ} {source : Nat} (fuel : Nat) :
    ∀ (s s1 : PushState), FPReach g alpha rmax source s → fpLoop g alpha rmax fuel s = some s1 →
      FPReach g alpha rmax source s1 ∧ s1.queue._queue = [] := by
  induction fuel with
  | zero =>
    intro s s1 hs h
    simp only [fpLoop, uniqueue.empty] at h
    split at h
    · rename_i he
      cases Option.some.inj h
      exact ⟨hs, List.isEmpty_iff.1 he⟩
    · exact Option.noConfusion h
  | succ fuel ih =>
    intro s s1 hs h
    simp only [fpLoop] at h
    cases hit : fpIter g alpha rmax s with
    | none =>
      rw [hit] at h
      cases Option.some.inj h
      exact ⟨hs, fpIter_eq_none hit⟩
    | some s2 =>
      rw [hit] at h
      exact ih s2 s1 (.step hs hit) h

theorem fpLoop_mono {g : Graph} {alpha rmax : ℚ} (fuel : Nat) :
    ∀ (s s1 : PushState) (k : Nat), fpLoop g alpha rmax fuel s = some s1 →
      fpLoop g alpha rmax (fuel + k) s = some s1 := by
  induction fuel with
  | zero =>
    intro s s1 k h
    simp only [fpLoop, uniqueue.empty] at h
    split at h
    · rename_i he
      cases Option.some.inj h
      cases k with
      | zero => simp [fpLoop, uniqueue.empty, he]
      | succ k =>
        have : fpIter g alpha rmax s = none := by
          simp [fpIter, uniqueue.pop, List.isEmpty_iff.1 he]
        simp [fpLoop, this]
    · exact Option.noConfusion h
  | succ fuel ih =>
    intro s s1 k h
    rw [Nat.add_right_comm]
    simp only [fpLoop] at h ⊢
    cases hit : fpIter g alpha rmax s with
    | none => rw [hit] at h; exact h
    | some s2 => rw [hit] at h; exact ih s2 s1 k h

theorem FPReach.belowThreshold {g : Graph} (hg : g.WF) {alpha rmax : ℚ} (ha1 : alpha ≤ 1)
    (hr : 0 ≤ rmax) {source : Nat} (hs : source < g.n) {s : PushState}
    (h : FPReach g alpha rmax source s) : FPBelow g rmax s := by
  induction h with
  | init => exact fpInit_below g hs hr
  | step hreach hstep ih => exact fpIter_below hg hr (hreach.toFPInv hg ha1 hs) ih hstep

/-- Every queued node of a loop state can be reached from the source. -/
theorem FPReach.queued_reach {g : Graph} (hg : g.WF) {alpha rmax : ℚ} (ha1 : alpha ≤ 1)
    {source : Nat} (hs : source < g.n) {s : PushState} (h : FPReach g alpha rmax source s) :
    ∀ v ∈ s.queue._queue, g.Reach source v := by
  induction h with
  | init =>
    intro v hv
    have hq : (fpInit g source).queue._queue = [source] := by
      simp only [fpInit]
      rw [uniqueue.push_of_inactive (by simp [uniqueue.is_active, uniqueue.init, getD_replicate])]
      rfl
    rw [hq] at hv
    rw [List.mem_singleton.1 hv]; exact .refl
  | step hreach hstep ih =>
    rename_i s s1
    intro v hv
    have hinv := hreach.toFPInv hg ha1 hs
    obtain ⟨u, rest, hq, hpop, hs1⟩ := fpIter_eq_some hstep
    have hnb : ∀ v ∈ g.get_neighbors u, v < s.r.length := by
      rw [hinv.lenR]; exact hg.neighbors_lt u
    obtain ⟨new, hq1, hnew⟩ := pushNeighbors_queue g rmax _ (ruv_nonneg g ha1 hinv.nonneg u)
      (g.get_neighbors u) s.r ⟨rest, s.queue._isact.set u false⟩ hnb
    have hq1' : s1.queue._queue = rest ++ new := by rw [hs1]; exact hq1
    rw [hq1'] at hv
    rcases List.mem_append.1 hv with hv | hv
    · exact ih v (by rw [hq]; exact List.mem_cons_of_mem u hv)
    · exact .step (ih u (by rw [hq]; exact List.mem_cons_self u rest)) (hnew v hv).1

/-! ## Claims about Forward Push -/

theorem ppr_forwardpush_eq_some {g : Graph} {source : Nat} {alpha rmax : ℚ} {fuel : Nat}
    {ppr r : List ℚ} (h : ppr_forwardpush g source alpha rmax fuel = some (ppr, r)) :
    ∃ s1, fpLoop g alpha rmax fuel (fpInit g source) = some s1 ∧ s1.ppr = ppr ∧ s1.r = r := by
  unfold ppr_forwardpush at h
  cases hl : fpLoop g alpha rmax fuel (fpInit g source) with
  | none => rw [hl] at h; exact Option.noConfusion h
  | some s1 =>
    rw [hl] at h
    simp only [Option.map_some', Option.some.injEq, Prod.mk.injEq] at h
    exact ⟨s1, rfl, h.1, h.2⟩

/-- C1 (Forward Push mass conservation), the code at the failing input: on the graph with
the single edge `0 → 0` (no node is dangling), with `alpha = 1/2` and `rmax = 1e-4`,
`ppr_forwardpush` returns `ppr = [1/2]`, `r = [0]`, so `sum(ppr) + sum(r) = 1/2`, not `1`;
the equality already fails after the first processing step.  The share pushed along the
self-loop is added to `r[0]` and then erased by `r[u] = 0`. -/
theorem ppr_forwardpush_selfloop_mass :
    loopGraph.WF ∧ (∀ v, loopGraph.Reach 0 v → 1 ≤ loopGraph.get_degree v) ∧
    (∀ k, ppr_forwardpush loopGraph 0 (1/2) (1/10000) (2 + k) = some ([1/2], [0])) ∧
    (([1/2] : List ℚ).sum + ([0] : List ℚ).sum = 1/2) ∧
    (∃ s1, fpIter loopGraph (1/2) (1/10000) (fpInit loopGraph 0) = some s1 ∧
      s1.ppr.sum + s1.r.sum = 1/2) := by
  refine ⟨by decide, fun v hv => ?_, fun k => ?_, by norm_num, ?_⟩
  · have hlt := Graph.Reach.node_lt (g := loopGraph) (by decide) (by decide) hv
    have : v = 0 := by simpa [loopGraph] using hlt
    subst this; decide
  · have h2 : fpLoop loopGraph (1/2) (1/10000) 2 (fpInit loopGraph 0)
        = some ⟨[1/2], [0], ⟨[], [false]⟩⟩ := by decide!
    unfold ppr_forwardpush
    rw [fpLoop_mono 2 _ _ k h2]; rfl
  · exact ⟨⟨[1/2], [0], ⟨[0], [true]⟩⟩, by decide!, by norm_num⟩

/-- C2 (Forward Push post-condition): whenever `ppr_forwardpush` returns `(ppr, r)` on a
well-formed graph with `alpha ≤ 1` and `rmax > 0`, every node `u` of the graph has
`r[u] ≤ degree(u) * rmax`. -/
theorem ppr_forwardpush_residual_le (g : Graph) (source : Nat) (alpha rmax : ℚ)
    (hg : g.WF) (hs : source < g.n) (ha1 : alpha ≤ 1) (hr : 0 < rmax)
    (fuel : Nat) (ppr r : List ℚ)
    (h : ppr_forwardpush g source alpha rmax fuel = some (ppr, r)) :
    ∀ u, u < g.n → r.getD u 0 ≤ (g.get_degree u : ℚ) * rmax := by
  intro u _
  obtain ⟨s1, hl, _, hr1⟩ := ppr_forwardpush_eq_some h
  obtain ⟨hreach, hempty⟩ := fpLoop_sound fuel _ _ (FPReach.init : FPReach g alpha rmax source (fpInit g source)) hl
  have hinv := hreach.toFPInv hg ha1 hs
  have hb := hreach.belowThreshold hg ha1 hr.le hs
  rw [← hr1]
  exact hb u (uniqueue.all_inactive_of_empty hinv.queue hempty u)

/-- Witness for C2: on the cycle `0 → 1 → 0` with `alpha = 1/2`, `rmax = 1/4` the function
returns `ppr = [1/2, 1/4]`, `r = [1/4, 0]`. -/
theorem ppr_forwardpush_residual_le_witness :
    ppr_forwardpush cycleGraph 0 (1/2) (1/4) 2 = some ([1/2, 1/4], [1/4, 0]) ∧
    ∀ u, u < cycleGraph.n →
      ([1/4, 0] : List ℚ).getD u 0 ≤ (cycleGraph.get_degree u : ℚ) * (1/4) :=
  ⟨by decide!, ppr_forwardpush_residual_le cycleGraph 0 (1/2) (1/4) (by decide) (by decide)
    (by norm_num) (by norm_num) 2 [1/2, 1/4] [1/4, 0] (by decide!)⟩

/-- C4 (end-to-end path graph): on the path `0 → 1 → 2 → 3` (n = 4, m = 3) with source 0,
`alpha = 0.2` and `rmax = 1e-4`, `ppr_forwardpush` returns `ppr[0] = 0.2`,
`ppr[1] = 0.2 * 0.8`, `ppr[2] = 0.2 * 0.8^2` (and `ppr[3] = 0.2 * 0.8^3`, `r = 0`): each
entry is `0.8` times the one before. -/
theorem ppr_forwardpush_path_graph :
    ∃ ppr r, (∀ k, ppr_forwardpush pathGraph 0 (1/5) (1/10000) (4 + k) = some (ppr, r)) ∧
      ppr.getD 0 0 = 1/5 ∧ ppr.getD 1 0 = 1/5 * (4/5) ∧ ppr.getD 2 0 = 1/5 * (4/5)^2 ∧
      (∀ i, i < 3 → ppr.getD (i + 1) 0 = 4/5 * ppr.getD i 0) := by
  refine ⟨[1/5, 4/25, 16/125, 64/625], [0, 0, 0, 0], fun k => ?_, by norm_num, by norm_num,
    by norm_num, fun i hi => ?_⟩
  · have h4 : fpLoop pathGraph (1/5) (1/10000) 4 (fpInit pathGraph 0)
        = some ⟨[1/5, 4/25, 16/125, 64/625], [0, 0, 0, 0], ⟨[], [false, false, false, false]⟩⟩ := by
      decide!
    unfold ppr_forwardpush
    rw [fpLoop_mono 4 _ _ k h4]; rfl
  · interval_cases i <;> norm_num

/-! ## The alias tables -/

namespace AliasSampler

theorem foldl_add_eq_sum (l : List ℚ) (a : ℚ) :
    l.foldl (fun acc w => acc + w) a = a + l.sum := by
  induction l generalizing a with
  | nil => simp
  | cons x l ih => simp only [List.foldl_cons, ih, List.sum_cons]; ring

theorem initStacks_eq (P : List ℚ) (is : List Nat) : ∀ (sm lg : List Nat),
    initStacks P is (sm, lg) =
      ((is.filter fun i => decide (P.getD i 0 < 1)).reverse ++ sm,
       (is.filter fun i => !decide (P.getD i 0 < 1)).reverse ++ lg) := by
  induction is with
  | nil => intro sm lg; rfl
  | cons i is ih =>
    intro sm lg
    by_cases h : P.getD i 0 < 1
    · simp [-List.getD_eq_getElem?_getD, initStacks, h, ih]
    · simp [-List.getD_eq_getElem?_getD, initStacks, h, ih]

theorem getD_fillOnes (ls : List Nat) : ∀ (prob : List ℚ) (i : Nat),
    (fillOnes ls prob).getD i 0 = if i ∈ ls ∧ i < prob.length then 1 else prob.getD i 0 := by
  induction ls with
  | nil => intro prob i; simp [fillOnes]
  | cons l rest ih =>
    intro prob i
    rw [fillOnes, ih]
    simp only [List.length_set, List.mem_cons]
    by_cases hi : i < prob.length
    · by_cases hr : i ∈ rest
      · simp [hr, hi]
      · by_cases hl : l = i
        · subst hl; rw [getD_set_self _ _ _ _ hi]; simp [hi]
        · rw [getD_set_ne _ _ _ hl]; simp [hr, Ne.symm hl]
    · have h1 : prob.getD i 0 = 0 := List.getD_eq_default _ _ (by omega)
      have h2 : (prob.set l 1).getD i 0 = 0 := List.getD_eq_default _ _ (by simp; omega)
      rw [h2, h1]; simp [hi]

theorem pairLoop_small_nil (fuel : Nat) (b : Build) (h : b.small = []) :
    pairLoop fuel b = some b := by
  cases fuel <;> simp [pairLoop, h]

theorem construct_replicate (k : Nat) (w : ℚ) (hk : 1 ≤ k) (hw : 0 < w) :
    construct (List.replicate k w) =
      some ⟨List.replicate k 1, List.replicate k 0,
        fillOnes [] (fillOnes (List.range k).reverse (List.replicate k 0)), k⟩ := by
  have hk0 : (k : ℚ) ≠ 0 := Nat.cast_ne_zero.2 (by omega)
  have hsum : (List.replicate k w).foldl (fun acc x => acc + x) 0 = (k : ℚ) * w := by
    rw [foldl_add_eq_sum, List.sum_replicate, nsmul_eq_mul, zero_add]
  have hP : (List.replicate k w).map (fun x => x * (k : ℚ) / ((k : ℚ) * w))
      = List.replicate k 1 := by
    rw [List.map_replicate]
    congr 1
    field_simp
    ring
  have hone : ∀ i ∈ List.range k, (List.replicate k (1 : ℚ)).getD i 0 = 1 := by
    intro i hi
    rw [List.getD_eq_getElem _ _ (by simpa using hi)]
    simp
  have hst : initStacks (List.replicate k 1) (List.range k) ([], [])
      = ([], (List.range k).reverse) := by
    rw [initStacks_eq]
    have h1 : (List.range k).filter (fun i => decide ((List.replicate k (1 : ℚ)).getD i 0 < 1))
        = [] := by
      rw [List.filter_eq_nil_iff]
      intro i hi
      rw [hone i hi]; simp
    have h2 : (List.range k).filter (fun i => !decide ((List.replicate k (1 : ℚ)).getD i 0 < 1))
        = List.range k := by
      rw [List.filter_eq_self]
      intro i hi
      rw [hone i hi]; simp
    rw [h1, h2]; simp
  unfold construct
  simp only [List.length_replicate, hsum, hP, hst]
  rw [pairLoop_small_nil _ _ rfl]

theorem pairLoop_single (n j : Nat) (hj : j < n) (fuel : Nat) :
    ∀ (b : Build), SingleInv n j b → b.small.length ≤ fuel →
      ∃ b1, pairLoop fuel b = some b1 ∧ b1.small = [] ∧ b1.large = [j] ∧ b1.prob.length = n ∧
        ∀ i, i < n → i ≠ j → b1.prob.getD i 0 = 0 ∧ b1.alias_.getD i 0 = j := by
  induction fuel with
  | zero =>
    intro b hb hlen
    have hnil : b.small = [] := List.length_eq_zero.1 (Nat.le_zero.1 hlen)
    exact ⟨b, pairLoop_small_nil 0 b hnil, hnil, hb.large, hb.lenPr,
      fun i hi hij => hb.done i hi hij (by rw [hnil]; exact List.not_mem_nil i)⟩
  | succ fuel ih =>
    intro b hb hlen
    obtain ⟨P, A, Pr, small, large⟩ := b
    cases small with
    | nil =>
      exact ⟨_, pairLoop_small_nil _ _ rfl, rfl, hb.large, hb.lenPr,
        fun i hi hij => hb.done i hi hij (List.not_mem_nil i)⟩
    | cons s small =>
      have hl : large = [j] := hb.large
      subst hl
      have hsj : s ≠ j := (hb.small_lt s (List.mem_cons_self s small)).2
      have hps : P.getD s 0 = 0 := hb.pz s hsj
      have hpj : P.getD j 0 = 1 + ((small.length : ℚ) + 1) := by
        have := hb.pj; simpa using this
      have hjP : j < P.length := by rw [hb.lenP]; exact hj
      have hnew : (P.set j (P.getD j 0 + P.getD s 0 - 1)).getD j 0 = 1 + (small.length : ℚ) := by
        rw [getD_set_self _ _ _ _ hjP, hps, hpj]; ring
      have hnot : ¬ (P.set j (P.getD j 0 + P.getD s 0 - 1)).getD j 0 < 1 := by
        rw [hnew]
        have : (0 : ℚ) ≤ (small.length : ℚ) := Nat.cast_nonneg _
        linarith
      have hrec := ih ⟨P.set j (P.getD j 0 + P.getD s 0 - 1), A.set s j, Pr.set s (P.getD s 0),
          small, [j]⟩
        { lenP := by simpa using hb.lenP
          lenA := by simpa using hb.lenA
          lenPr := by simpa using hb.lenPr
          large := rfl
          small_lt := fun x hx => hb.small_lt x (List.mem_cons_of_mem s hx)
          pj := hnew
          pz := fun i hij => by
            show (P.set j _).getD i 0 = 0
            rw [getD_set_ne _ _ _ (Ne.symm hij)]; exact hb.pz i hij
          done := fun i hi hij hmem => by
            show (Pr.set s _).getD i 0 = 0 ∧ (A.set s j).getD i 0 = j
            by_cases hsi : s = i
            · subst hsi
              rw [getD_set_self _ _ _ _ (by rw [hb.lenPr]; exact hi),
                getD_set_self _ _ _ _ (by rw [hb.lenA]; exact hi)]
              exact ⟨hps, rfl⟩
            · rw [getD_set_ne _ _ _ hsi, getD_set_ne _ _ _ hsi]
              exact hb.done i hi hij (by
                simp only [List.mem_cons, not_or]
                exact ⟨Ne.symm hsi, hmem⟩) }
        (by simpa using hlen)
      obtain ⟨b1, hrun, hres⟩ := hrec
      refine ⟨b1, ?_, hres⟩
      rw [pairLoop]
      simp only [hnot, if_false]
      exact hrun

theorem getD_map_zero (f : ℚ → ℚ) (hf : f 0 = 0) (l : List ℚ) (i : Nat) :
    (l.map f).getD i 0 = f (l.getD i 0) := by
  have := List.getD_map (l := l) (d := (0 : ℚ)) (n := i) f
  rwa [hf] at this

theorem sum_eq_getD_of_single (l : List ℚ) (j : Nat) (hj : j < l.length)
    (hz : ∀ i, i ≠ j → l.getD i 0 = 0) : l.sum = l.getD j 0 := by
  have h0 : (l.set j 0).sum = 0 := by
    apply List.sum_eq_zero
    intro x hx
    obtain ⟨i, hi, rfl⟩ := List.getElem_of_mem hx
    rw [← List.getD_eq_getElem _ (0 : ℚ) hi]
    by_cases hij : j = i
    · subst hij; exact getD_set_self _ _ _ _ hj
    · rw [getD_set_ne _ _ _ hij]; exact hz i (Ne.symm hij)
  rw [sum_set _ _ _ hj] at h0
  linarith

theorem eq_singleton_of_nodup {l : List Nat} {j : Nat} (hnd : l.Nodup)
    (hmem : ∀ x, x ∈ l ↔ x = j) : l = [j] := by
  cases l with
  | nil => exact absurd ((hmem j).2 rfl) (List.not_mem_nil j)
  | cons a t =>
    have ha : a = j := (hmem a).1 (List.mem_cons_self a t)
    subst ha
    cases t with
    | nil => rfl
    | cons b t =>
      have hb : b = a := (hmem b).1 (List.mem_cons_of_mem a (List.mem_cons_self b t))
      subst hb
      exact absurd (List.mem_cons_self b t) (List.nodup_cons.1 hnd).1

/-- The state in which the pairing loop is entered, for a weight vector whose only nonzero
entry is a positive weight at index `j`. -/
theorem single_init (weights : List ℚ) (j : Nat) (hj : j < weights.length)
    (hpos : 0 < weights.getD j 0) (hzero : ∀ i, i ≠ j → weights.getD i 0 = 0) :
    SingleInv weights.length j
      ⟨weights.map fun w => w * (weights.length : ℚ) / weights.foldl (fun acc w => acc + w) 0,
        List.replicate weights.length 0, List.replicate weights.length 0,
        (initStacks (weights.map fun w => w * (weights.length : ℚ)
          / weights.foldl (fun acc w => acc + w) 0) (List.range weights.length) ([], [])).1,
        (initStacks (weights.map fun w => w * (weights.length : ℚ)
          / weights.foldl (fun acc w => acc + w) 0) (List.range weights.length) ([], [])).2⟩ := by
  have hsum : weights.foldl (fun acc w => acc + w) 0 = weights.getD j 0 := by
    rw [foldl_add_eq_sum, zero_add, sum_eq_getD_of_single weights j hj hzero]
  rw [hsum]
  generalize hn : weights.length = n at hj ⊢
  generalize hw : weights.getD j 0 = w at hpos ⊢
  have hP : ∀ i, (weights.map fun x => x * (n : ℚ) / w).getD i 0
      = weights.getD i 0 * (n : ℚ) / w := fun i =>
    getD_map_zero (fun x => x * (n : ℚ) / w) (by simp) weights i
  have hPj : (weights.map fun x => x * (n : ℚ) / w).getD j 0 = (n : ℚ) := by
    rw [hP, hw]; field_simp
  have hPz : ∀ i, i ≠ j → (weights.map fun x => x * (n : ℚ) / w).getD i 0 = 0 := by
    intro i hij; rw [hP, hzero i hij]; simp
  have hn1 : (1 : ℚ) ≤ (n : ℚ) := by exact_mod_cast (show 1 ≤ n by omega)
  rw [initStacks_eq]
  simp only [List.append_nil]
  have hlarge : ((List.range n).filter fun i =>
      !decide ((weights.map fun x => x * (n : ℚ) / w).getD i 0 < 1)).reverse = [j] := by
    apply eq_singleton_of_nodup
    · exact List.nodup_reverse.2 ((List.nodup_range n).filter _)
    · intro x
      simp only [List.mem_reverse, List.mem_filter, List.mem_range, Bool.not_eq_true',
        decide_eq_false_iff_not, not_lt]
      constructor
      · rintro ⟨_, hx⟩
        by_contra hxj
        rw [hPz x hxj] at hx
        linarith
      · rintro rfl
        exact ⟨hj, by rw [hPj]; exact hn1⟩
  have hlen := List.length_eq_length_filter_add (l := List.range n)
    (fun i => decide ((weights.map fun x => x * (n : ℚ) / w).getD i 0 < 1))
  have hlarge_len := congrArg List.length hlarge
  simp only [List.length_reverse, List.length_singleton] at hlarge_len
  rw [hlarge_len, List.length_range] at hlen
  refine
    { lenP := by simp [hn]
      lenA := by simp
      lenPr := by simp
      large := hlarge
      small_lt := fun s hs => ?_
      pj := ?_
      pz := hPz
      done := fun i hi hij hmem => ?_ }
  · simp only [List.mem_reverse, List.mem_filter, List.mem_range, decide_eq_true_eq] at hs
    refine ⟨hs.1, fun hsj => ?_⟩
    rw [hsj, hPj] at hs
    linarith [hs.2]
  · show (weights.map fun x => x * (n : ℚ) / w).getD j 0 = _
    rw [hPj, List.length_reverse]
    have : (n : ℚ) = (((List.range n).filter fun i =>
        decide ((weights.map fun x => x * (n : ℚ) / w).getD i 0 < 1)).length : ℚ) + 1 := by
      exact_mod_cast hlen
    linarith
  · exfalso
    apply hmem
    simp only [List.mem_reverse, List.mem_filter, List.mem_range, decide_eq_true_eq]
    exact ⟨hi, by rw [hPz i hij]; exact zero_lt_one⟩

end AliasSampler

/-! ## Claims about the alias sampler -/

/-- C9 (alias sampler with a single nonzero weight): for a weight vector (of length at least
1) whose only nonzero entry is a positive weight at index `j`, the constructor returns a
sampler on which `sample()` returns `j` for every index draw `i` in `[0,n)` and every real
draw `u` in `[0,1)`. -/
theorem alias_single_weight (weights : List ℚ) (j : Nat) (hj : j < weights.length)
    (hpos : 0 < weights.getD j 0) (hzero : ∀ i, i ≠ j → weights.getD i 0 = 0) :
    ∃ S, AliasSampler.construct weights = some S ∧ S.n = weights.length ∧
      ∀ i u, i < weights.length → 0 ≤ u → u < 1 → S.sample i u = j := by
  have hinit := AliasSampler.single_init weights j hj hpos hzero
  have hlen : (AliasSampler.initStacks (weights.map fun w => w * (weights.length : ℚ)
      / weights.foldl (fun acc w => acc + w) 0) (List.range weights.length) ([], [])).1.length
      ≤ weights.length := by
    rw [AliasSampler.initStacks_eq]
    simp only [List.append_nil, List.length_reverse]
    exact le_trans (List.length_filter_le _ _) (by simp)
  obtain ⟨b1, hrun, hsmall, hlarge, hplen, hdone⟩ :=
    AliasSampler.pairLoop_single weights.length j hj weights.length _ hinit hlen
  refine ⟨⟨b1.probabilities, b1.alias_,
    AliasSampler.fillOnes b1.small (AliasSampler.fillOnes b1.large b1.prob), weights.length⟩,
    ?_, rfl, fun i u hi hu0 hu1 => ?_⟩
  · unfold AliasSampler.construct
    simp only [hrun]
  · simp only [AliasSampler.sample]
    rw [hsmall, hlarge, AliasSampler.fillOnes, AliasSampler.getD_fillOnes]
    by_cases hij : i = j
    · subst hij
      simp [hplen, hi, hu1]
    · have hp := (hdone i hi hij).1
      have ha := (hdone i hi hij).2
      have hcond : ¬ (i ∈ [j] ∧ i < b1.prob.length) := by simp [hij]
      rw [if_neg hcond, hp, if_neg (not_lt.2 hu0), ha]

/-- Witness for C9: the weights `[1, 0, 0]`. -/
theorem alias_single_weight_witness :
    ∃ S, AliasSampler.construct [1, 0, 0] = some S ∧ S.n = 3 ∧
      ∀ i u, i < 3 → 0 ≤ u → u < 1 → S.sample i u = 0 :=
  alias_single_weight [1, 0, 0] 0 (by decide) (by norm_num) (fun i hi => by
    match i, hi with
    | 1, _ => rfl
    | 2, _ => rfl
    | i + 3, _ => rfl)

/-- C10 (alias sampler with uniform weights): for `k ≥ 1` equal positive weights the
constructor returns tables with `prob[i] = 1` for every `i < k`, so `sample()` returns the
drawn index `i` whatever the real draw `u < 1` is; for every real draw each index `t < k` is
the result of exactly one of the `k` index draws, that is, of a fraction `1/k` of them. -/
theorem alias_uniform_weights (k : Nat) (w : ℚ) (hk : 1 ≤ k) (hw : 0 < w) :
    ∃ S, AliasSampler.construct (List.replicate k w) = some S ∧ S.n = k ∧
      (∀ i, i < k → S.prob.getD i 0 = 1) ∧
      (∀ i u, i < k → u < 1 → S.sample i u = i) ∧
      (∀ t u, t < k → u < 1 →
        ((Finset.range k).filter fun i => S.sample i u = t).card = 1) := by
  have hprob : ∀ i, i < k → (AliasSampler.fillOnes []
      (AliasSampler.fillOnes (List.range k).reverse (List.replicate k 0))).getD i 0 = 1 := by
    intro i hi
    rw [AliasSampler.fillOnes, AliasSampler.getD_fillOnes]
    simp [hi]
  have hsample : ∀ i u, i < k → u < 1 → AliasSampler.sample
      ⟨List.replicate k 1, List.replicate k 0, AliasSampler.fillOnes []
        (AliasSampler.fillOnes (List.range k).reverse (List.replicate k 0)), k⟩ i u = i := by
    intro i u hi hu
    simp only [AliasSampler.sample]
    rw [hprob i hi, if_pos hu]
  refine ⟨_, AliasSampler.construct_replicate k w hk hw, rfl, hprob, hsample, fun t u ht hu => ?_⟩
  have hfil : ((Finset.range k).filter fun i => AliasSampler.sample
      ⟨List.replicate k 1, List.replicate k 0, AliasSampler.fillOnes []
        (AliasSampler.fillOnes (List.range k).reverse (List.replicate k 0)), k⟩ i u = t)
      = {t} := by
    ext i
    simp only [Finset.mem_filter, Finset.mem_range, Finset.mem_singleton]
    constructor
    · rintro ⟨hi, h⟩; rw [hsample i u hi hu] at h; exact h
    · rintro rfl; exact ⟨ht, hsample i u ht hu⟩
  rw [hfil, Finset.card_singleton]

/-- Witness for C10: three weights equal to 2. -/
theorem alias_uniform_weights_witness :
    ∃ S, AliasSampler.construct [2, 2, 2] = some S ∧ S.n = 3 ∧
      (∀ i, i < 3 → S.prob.getD i 0 = 1) ∧
      (∀ i u, i < 3 → u < 1 → S.sample i u = i) ∧
      (∀ t u, t < 3 → u < 1 →
        ((Finset.range 3).filter fun i => S.sample i u = t).card = 1) :=
  alias_uniform_weights 3 2 (by decide) (by norm_num)

/-! ## `rand_uniform` -/

theorem rand_uniform_threshold_eq (n : Nat) (hn : 1 ≤ n) (hn32 : n < 2 ^ 32) :
    rand_uniform_threshold n = 2 ^ 32 % n := by
  unfold rand_uniform_threshold
  have h1 : (2 ^ 32 - n) % 2 ^ 32 = 2 ^ 32 - n := Nat.mod_eq_of_lt (by omega)
  simp only [h1]
  have hmod : (2 ^ 32 - n) % n = 2 ^ 32 % n := by
    conv_rhs => rw [show 2 ^ 32 = (2 ^ 32 - n) + n by omega]
    rw [Nat.add_mod_right]
  by_cases ha : 2 ^ 32 - n ≥ n
  · rw [if_pos ha]
    have hmod2 : (2 ^ 32 - n - n) % n = 2 ^ 32 % n := by
      rw [← hmod]
      conv_rhs => rw [show 2 ^ 32 - n = (2 ^ 32 - n - n) + n by omega]
      rw [Nat.add_mod_right]
    by_cases hb : 2 ^ 32 - n - n ≥ n
    · rw [if_pos hb, hmod2]
    · rw [if_neg hb, ← hmod2, Nat.mod_eq_of_lt (by omega)]
  · rw [if_neg ha, if_neg ha, ← hmod, Nat.mod_eq_of_lt (by omega)]

theorem mul_lt_two_pow_64 {x n : Nat} (hx : x < 2 ^ 32) (hn : n < 2 ^ 32) : x * n < 2 ^ 64 := by
  have : x * n < 2 ^ 32 * 2 ^ 32 := by
    rcases Nat.eq_zero_or_pos n with h0 | hpos
    · subst h0; simp
    · calc x * n < 2 ^ 32 * n := Nat.mul_lt_mul_of_pos_right hx hpos
        _ ≤ 2 ^ 32 * 2 ^ 32 := Nat.mul_le_mul_left _ hn.le
  simpa using this

theorem rand_uniform_loop_reject {n t m : Nat} (h : m % 2 ^ 32 < t) (x : Nat) (rest : List Nat) :
    rand_uniform_loop n t m (x :: rest) = rand_uniform_loop n t (x * n % 2 ^ 64) rest := by
  rw [rand_uniform_loop, if_pos h]

theorem rand_uniform_loop_accept {n t m : Nat} (h : ¬ m % 2 ^ 32 < t) (draws : List Nat) :
    rand_uniform_loop n t m draws = some (m / 2 ^ 32, draws) := by
  cases draws <;> rw [rand_uniform_loop, if_neg h]

/-- A draw `x` of `rand_uniform(n)` is accepted exactly when the low half of `x * n` is at
least `2^32 mod n`; a rejected draw is discarded and the next one is treated the same way. -/
theorem rand_uniform_cons (n : Nat) (hn : 1 ≤ n) (hn32 : n < 2 ^ 32) (x : Nat) (hx : x < 2 ^ 32)
    (rest : List Nat) :
    rand_uniform n (x :: rest) =
      if 2 ^ 32 % n ≤ x * n % 2 ^ 32 then some (x * n / 2 ^ 32, rest)
      else rand_uniform_loop n (2 ^ 32 % n) 0 rest := by
  have hm : x * n % 2 ^ 64 = x * n := Nat.mod_eq_of_lt (mul_lt_two_pow_64 hx hn32)
  have ht := rand_uniform_threshold_eq n hn hn32
  have htn : 2 ^ 32 % n < n := Nat.mod_lt _ hn
  simp only [rand_uniform, hm, ht]
  by_cases hlow : x * n % 2 ^ 32 < n
  · rw [if_pos hlow]
    by_cases hacc : 2 ^ 32 % n ≤ x * n % 2 ^ 32
    · rw [if_pos hacc, rand_uniform_loop_accept (by omega)]
    · rw [if_neg hacc]
      have hrej : x * n % 2 ^ 32 < 2 ^ 32 % n := by omega
      have h0 : (0 : Nat) % 2 ^ 32 < 2 ^ 32 % n := by
        rw [Nat.zero_mod]; exact lt_of_le_of_lt (Nat.zero_le _) hrej
      cases rest with
      | nil => rw [rand_uniform_loop, if_pos hrej, rand_uniform_loop, if_pos h0]
      | cons y rest =>
        rw [rand_uniform_loop_reject hrej, rand_uniform_loop_reject h0]
  · rw [if_neg hlow, if_pos (by omega)]

theorem rand_uniform_eq_loop (n : Nat) (hn : 1 ≤ n) (hn32 : n < 2 ^ 32) (x : Nat)
    (rest : List Nat) :
    rand_uniform n (x :: rest) = rand_uniform_loop n (2 ^ 32 % n) (x * n % 2 ^ 64) rest := by
  have ht := rand_uniform_threshold_eq n hn hn32
  have htn : 2 ^ 32 % n < n := Nat.mod_lt _ hn
  simp only [rand_uniform, ht]
  by_cases hlow : x * n % 2 ^ 64 % 2 ^ 32 < n
  · rw [if_pos hlow]
  · rw [if_neg hlow, rand_uniform_loop_accept (by omega)]

theorem rand_uniform_reject (n : Nat) (hn : 1 ≤ n) (hn32 : n < 2 ^ 32) (x : Nat)
    (hx : x < 2 ^ 32) (rest : List Nat) (hrej : x * n % 2 ^ 32 < 2 ^ 32 % n) :
    rand_uniform n (x :: rest) = rand_uniform n rest := by
  have hm : x * n % 2 ^ 64 = x * n := Nat.mod_eq_of_lt (mul_lt_two_pow_64 hx hn32)
  rw [rand_uniform_eq_loop n hn hn32 x]
  cases rest with
  | nil => rw [rand_uniform_loop, if_pos (by rw [hm]; exact hrej)]; rfl
  | cons y rest =>
    rw [rand_uniform_loop, if_pos (by rw [hm]; exact hrej),
      rand_uniform_eq_loop n hn hn32 y]

theorem rand_uniform_loop_lt (n t : Nat) (hn32 : n < 2 ^ 32) (draws : List Nat) :
    ∀ (m : Nat), (∃ x, x < 2 ^ 32 ∧ m = x * n) → (∀ x ∈ draws, x < 2 ^ 32) →
      ∀ k rest, rand_uniform_loop n t m draws = some (k, rest) →
        ∃ x, x < 2 ^ 32 ∧ k = x * n / 2 ^ 32 := by
  induction draws with
  | nil =>
    intro m hm _ k rest h
    rw [rand_uniform_loop] at h
    split at h
    · exact Option.noConfusion h
    · obtain ⟨x, hx, rfl⟩ := hm
      simp only [Option.some.injEq, Prod.mk.injEq] at h
      exact ⟨x, hx, h.1.symm⟩
  | cons y draws ih =>
    intro m hm hd k rest h
    rw [rand_uniform_loop] at h
    split at h
    · have hy := hd y (List.mem_cons_self y draws)
      exact ih (y * n % 2 ^ 64)
        ⟨y, hy, Nat.mod_eq_of_lt (mul_lt_two_pow_64 hy hn32)⟩
        (fun x hx => hd x (List.mem_cons_of_mem y hx)) k rest h
    · obtain ⟨x, hx, rfl⟩ := hm
      simp only [Option.some.injEq, Prod.mk.injEq] at h
      exact ⟨x, hx, h.1.symm⟩

theorem high_half_lt {x n : Nat} (hx : x < 2 ^ 32) (hn : 1 ≤ n) : x * n / 2 ^ 32 < n := by
  apply Nat.div_lt_of_lt_mul
  exact Nat.mul_lt_mul_of_pos_right hx hn

theorem le_mul_iff_ceil (b x n : Nat) (hn : 1 ≤ n) : b ≤ x * n ↔ (b + n - 1) / n ≤ x := by
  have h : (b + n - 1) / n ≤ x ↔ (b + n - 1) / n < x + 1 := Nat.lt_succ_iff.symm
  rw [h, Nat.div_lt_iff_lt_mul (by omega), Nat.add_mul, Nat.one_mul]
  omega

/-- Among the `2^32` possible draws, exactly `2^32 / n` are accepted and mapped to `k`. -/
theorem accepted_card (n k : Nat) (hn : 1 ≤ n) (hk : k < n) :
    ((Finset.range (2 ^ 32)).filter
      fun x => 2 ^ 32 % n ≤ x * n % 2 ^ 32 ∧ x * n / 2 ^ 32 = k).card = 2 ^ 32 / n := by
  have hqn : 2 ^ 32 / n * n + 2 ^ 32 % n = 2 ^ 32 := Nat.div_add_mod' _ _
  have hset : ((Finset.range (2 ^ 32)).filter
      fun x => 2 ^ 32 % n ≤ x * n % 2 ^ 32 ∧ x * n / 2 ^ 32 = k)
      = Finset.Ico ((k * 2 ^ 32 + 2 ^ 32 % n + n - 1) / n)
          ((k * 2 ^ 32 + 2 ^ 32 % n + n - 1) / n + 2 ^ 32 / n) := by
    ext x
    simp only [Finset.mem_filter, Finset.mem_range, Finset.mem_Ico]
    have h1 := le_mul_iff_ceil (k * 2 ^ 32 + 2 ^ 32 % n) x n hn
    have h2 := le_mul_iff_ceil (k * 2 ^ 32 + 2 ^ 32 % n + 2 ^ 32 / n * n) x n hn
    have h3 : (k * 2 ^ 32 + 2 ^ 32 % n + 2 ^ 32 / n * n + n - 1) / n
        = (k * 2 ^ 32 + 2 ^ 32 % n + n - 1) / n + 2 ^ 32 / n := by
      rw [show k * 2 ^ 32 + 2 ^ 32 % n + 2 ^ 32 / n * n + n - 1
        = (k * 2 ^ 32 + 2 ^ 32 % n + n - 1) + 2 ^ 32 / n * n by omega,
        Nat.add_mul_div_right _ _ (by omega)]
    rw [h3] at h2
    have h2b : x < (k * 2 ^ 32 + 2 ^ 32 % n + n - 1) / n + 2 ^ 32 / n
        ↔ x * n < k * 2 ^ 32 + 2 ^ 32 % n + 2 ^ 32 / n * n := by
      rw [← not_le, ← h2, not_le]
    rw [← h1, h2b]
    constructor
    · rintro ⟨_, hlow, hhigh⟩
      constructor <;> omega
    · rintro ⟨ha, hb⟩
      have hkn : (k + 1) * 2 ^ 32 ≤ n * 2 ^ 32 := Nat.mul_le_mul_right _ hk
      have hxn : x * n < n * 2 ^ 32 := by omega
      have hx : x < 2 ^ 32 := by
        by_contra hge
        have := Nat.mul_le_mul_right n (not_lt.1 hge)
        rw [Nat.mul_comm (2 ^ 32) n] at this
        omega
      refine ⟨hx, ?_, ?_⟩ <;> omega
  rw [hset, Nat.card_Ico, Nat.add_sub_cancel_left]

/-- C12 (`rand_uniform` range): for `1 ≤ n < 2^32` and every sequence of 32-bit generator
outputs on which `rand_uniform(n)` returns, the result `k` satisfies `k < n`, and it is the
high 32 bits of the 64-bit product `x * n` for a 32-bit draw `x`. -/
theorem rand_uniform_range (n : Nat) (hn : 1 ≤ n) (hn32 : n < 2 ^ 32) (draws : List Nat)
    (hd : ∀ x ∈ draws, x < 2 ^ 32) (k : Nat) (rest : List Nat)
    (h : rand_uniform n draws = some (k, rest)) :
    k < n ∧ ∃ x, x < 2 ^ 32 ∧ k = x * n / 2 ^ 32 := by
  cases draws with
  | nil => exact Option.noConfusion h
  | cons y draws =>
    have hy := hd y (List.mem_cons_self y draws)
    rw [rand_uniform_eq_loop n hn hn32 y] at h
    obtain ⟨x, hx, hk⟩ := rand_uniform_loop_lt n _ hn32 draws _
      ⟨y, hy, Nat.mod_eq_of_lt (mul_lt_two_pow_64 hy hn32)⟩
      (fun x hx => hd x (List.mem_cons_of_mem y hx)) k rest h
    exact ⟨by rw [hk]; exact high_half_lt hx hn, x, hx, hk⟩

/-- Witness for C12: `rand_uniform(3)` on the outputs `0, 2^31`: the first draw is rejected,
the second gives `1`. -/
theorem rand_uniform_range_witness :
    rand_uniform 3 [0, 2 ^ 31] = some (1, []) ∧
    (1 < 3 ∧ ∃ x, x < 2 ^ 32 ∧ 1 = x * 3 / 2 ^ 32) :=
  ⟨by decide, rand_uniform_range 3 (by decide) (by decide) [0, 2 ^ 31]
    (by decide) 1 [] (by decide)⟩

/-- C13 (`rand_uniform` has no modulo bias): for `1 ≤ n < 2^32` the threshold computed by the
code is `2^32 mod n`; a 32-bit draw `x` is accepted (and `x * n / 2^32` returned) exactly when
`x * n mod 2^32` is at least the threshold, otherwise it is discarded and the next draw is
treated the same way; and for every `k < n` the number of accepted draws `x` in `[0, 2^32)`
with `x * n / 2^32 = k` is `2^32 / n`. -/
theorem rand_uniform_no_bias (n : Nat) (hn : 1 ≤ n) (hn32 : n < 2 ^ 32) :
    rand_uniform_threshold n = 2 ^ 32 % n ∧
    (∀ x rest, x < 2 ^ 32 →
      rand_uniform n (x :: rest) =
        if 2 ^ 32 % n ≤ x * n % 2 ^ 32 then some (x * n / 2 ^ 32, rest)
        else rand_uniform n rest) ∧
    (∀ k, k < n → ((Finset.range (2 ^ 32)).filter
      fun x => 2 ^ 32 % n ≤ x * n % 2 ^ 32 ∧ x * n / 2 ^ 32 = k).card = 2 ^ 32 / n) := by
  refine ⟨rand_uniform_threshold_eq n hn hn32, fun x rest hx => ?_,
    fun k hk => accepted_card n k hn hk⟩
  by_cases hacc : 2 ^ 32 % n ≤ x * n % 2 ^ 32
  · rw [rand_uniform_cons n hn hn32 x hx, if_pos hacc, if_pos hacc]
  · rw [if_neg hacc]
    exact rand_uniform_reject n hn hn32 x hx rest (by omega)

/-- Witness for C13: `n = 3`, where the threshold is `1`. -/
theorem rand_uniform_no_bias_witness :
    rand_uniform_threshold 3 = 2 ^ 32 % 3 ∧
    (∀ k, k < 3 → ((Finset.range (2 ^ 32)).filter
      fun x => 2 ^ 32 % 3 ≤ x * 3 % 2 ^ 32 ∧ x * 3 / 2 ^ 32 = k).card = 2 ^ 32 / 3) :=
  ⟨(rand_uniform_no_bias 3 (by decide) (by decide)).1,
    (rand_uniform_no_bias 3 (by decide) (by decide)).2.2⟩

/-! ## Random neighbours and random walks -/

theorem rand_neighbor_of_degree_zero (g : Graph) (u : Nat) (draws : List Nat)
    (h : g.get_degree u = 0) : g.rand_neighbor u draws = .noNeighbors draws := by
  unfold Graph.get_degree at h
  simp only [Graph.rand_neighbor, h, if_true]

theorem rand_neighbor_of_degree_pos (g : Graph) (u : Nat) (draws : List Nat)
    (h : g.get_degree u ≠ 0) (h32 : g.get_degree u < 2 ^ 32) :
    g.rand_neighbor u draws =
      match rand_uniform (g.get_degree u) draws with
      | none => .starved
      | some (k, rest) => .ok ((g.get_neighbors u).getD k 0) rest := by
  unfold Graph.get_degree at h h32
  simp only [Graph.rand_neighbor, Graph.get_degree, Graph.get_neighbors, h, if_false,
    Nat.mod_eq_of_lt h32]

/-- C14 (`rand_neighbor` fails exactly on dangling nodes): `rand_neighbor(u)` throws the
"No neighbors" error, leaving the generator untouched, when `degree(u) = 0`, and never throws
it otherwise; when `degree(u) ≠ 0` (and the degree fits the 32-bit argument of
`rand_uniform`) it returns `adj[u][k]` with `k = rand_uniform(degree(u)) < degree(u)`, which
is an element of `neighbors(u)`; and `degree(u)` is the length of `neighbors(u)`. -/
theorem rand_neighbor_dangling_iff (g : Graph) (u : Nat) (draws : List Nat)
    (h32 : g.get_degree u < 2 ^ 32) (hd : ∀ x ∈ draws, x < 2 ^ 32) :
    (g.get_degree u = 0 → g.rand_neighbor u draws = .noNeighbors draws) ∧
    (g.get_degree u ≠ 0 → ∀ rest, g.rand_neighbor u draws ≠ .noNeighbors rest) ∧
    (g.get_degree u ≠ 0 → ∀ v rest, g.rand_neighbor u draws = .ok v rest →
      ∃ k, rand_uniform (g.get_degree u) draws = some (k, rest) ∧ k < g.get_degree u ∧
        v = (g.get_neighbors u).getD k 0 ∧ v ∈ g.get_neighbors u) ∧
    g.get_degree u = (g.get_neighbors u).length := by
  refine ⟨rand_neighbor_of_degree_zero g u draws, fun hne rest => ?_, fun hne v rest hok => ?_,
    rfl⟩
  · rw [rand_neighbor_of_degree_pos g u draws hne h32]
    cases rand_uniform (g.get_degree u) draws with
    | none => exact fun h => Run.noConfusion h
    | some kr => exact fun h => Run.noConfusion h
  · rw [rand_neighbor_of_degree_pos g u draws hne h32] at hok
    cases hru : rand_uniform (g.get_degree u) draws with
    | none => rw [hru] at hok; exact Run.noConfusion hok
    | some kr =>
      obtain ⟨k, rest1⟩ := kr
      rw [hru] at hok
      simp only [Run.ok.injEq] at hok
      obtain ⟨hv, hrest⟩ := hok
      subst hrest
      have hk := (rand_uniform_range (g.get_degree u) (Nat.one_le_iff_ne_zero.2 hne) h32 draws hd
        k rest1 hru).1
      refine ⟨k, rfl, hk, hv.symm, ?_⟩
      rw [← hv, List.getD_eq_getElem _ _ (by rw [← Graph.degree_eq_length]; exact hk)]
      exact List.getElem_mem _

/-- Witness for C14: node 0 of the graph `0 → 1`, with the generator output `7`. -/
theorem rand_neighbor_dangling_iff_witness :
    danglingGraph.rand_neighbor 0 [7] = .ok 1 [] ∧
    danglingGraph.rand_neighbor 1 [7] = .noNeighbors [7] ∧
    (danglingGraph.get_degree 0 ≠ 0 → ∀ rest,
      danglingGraph.rand_neighbor 0 [7] ≠ .noNeighbors rest) :=
  ⟨by decide, by decide,
    (rand_neighbor_dangling_iff danglingGraph 0 [7] (by decide) (by decide)).2.1⟩

theorem random_walk_succ_cons (g : Graph) (alpha : ℚ) (fuel v x : Nat) (rest : List Nat) :
    random_walk g alpha (fuel + 1) v (x :: rest) =
      if (x : ℚ) / 2 ^ 32 < alpha then .ok v rest
      else
        match g.rand_neighbor v rest with
        | .ok v1 rest1 => random_walk g alpha fuel v1 rest1
        | .noNeighbors rest1 => .noNeighbors rest1
        | .starved => .starved := rfl

/-- C15 (random walk from a dangling node): for a node `v` with `degree(v) = 0` and any
`alpha`, `random_walk(g, v, alpha)` returns `v` when the very first uniform draw is below
`alpha` and otherwise throws the "No neighbors" error on its first step attempt; in the
latter case `ppr_rw` from `v` (with at least one walk) throws the same error instead of
returning a vector. -/
theorem random_walk_from_dangling (g : Graph) (v : Nat) (alpha : ℚ)
    (hv : g.get_degree v = 0) (fuel x : Nat) (rest : List Nat) :
    random_walk g alpha (fuel + 1) v (x :: rest) =
      (if (x : ℚ) / 2 ^ 32 < alpha then .ok v rest else .noNeighbors rest) ∧
    (∀ rw_num, 1 ≤ rw_num → ¬ ((x : ℚ) / 2 ^ 32 < alpha) →
      ppr_rw g v alpha rw_num (fuel + 1) (x :: rest) = .noNeighbors rest) := by
  have hwalk : random_walk g alpha (fuel + 1) v (x :: rest) =
      (if (x : ℚ) / 2 ^ 32 < alpha then .ok v rest else .noNeighbors rest) := by
    rw [random_walk_succ_cons, rand_neighbor_of_degree_zero g v rest hv]
  refine ⟨hwalk, fun rw_num hrw hx => ?_⟩
  obtain ⟨k, rfl⟩ : ∃ k, rw_num = k + 1 := ⟨rw_num - 1, by omega⟩
  unfold ppr_rw
  rw [walkLoop, hwalk, if_neg hx]

/-- Witness for C15: node 1 of the graph `0 → 1` with `alpha = 1/2`; the draw `2^31` gives
the uniform value `1/2`, which is not below `alpha`. -/
theorem random_walk_from_dangling_witness :
    random_walk danglingGraph (1/2) 1 1 [2 ^ 31] = .noNeighbors [] ∧
    random_walk danglingGraph (1/2) 1 1 [0] = .ok 1 [] ∧
    ppr_rw danglingGraph 1 (1/2) 3 1 [2 ^ 31] = .noNeighbors [] :=
  ⟨by decide!, by decide!,
    (random_walk_from_dangling danglingGraph 1 (1/2) (by decide) 0 (2 ^ 31) []).2 3 (by decide)
      (by norm_num)⟩

theorem rand_neighbor_lt {g : Graph} (hg : g.WF) {u : Nat} (hu : u < g.n) (draws : List Nat)
    {v : Nat} {rest : List Nat} (h : g.rand_neighbor u draws = .ok v rest) : v < g.n := by
  unfold Graph.rand_neighbor at h
  split at h
  · exact Run.noConfusion h
  · cases hru : rand_uniform ((g.adj.getD u []).length % 2 ^ 32) draws with
    | none => rw [hru] at h; exact Run.noConfusion h
    | some kr =>
      obtain ⟨k, rest1⟩ := kr
      rw [hru] at h
      simp only [Run.ok.injEq] at h
      rw [← h.1]
      by_cases hk : k < (g.adj.getD u []).length
      · rw [List.getD_eq_getElem _ _ hk]
        exact hg.neighbors_lt u _ (List.getElem_mem hk)
      · rw [List.getD_eq_default _ _ (by omega)]; omega

theorem random_walk_lt {g : Graph} (hg : g.WF) (alpha : ℚ) (fuel : Nat) :
    ∀ (v : Nat) (draws : List Nat) (w : Nat) (rest : List Nat), v < g.n →
      random_walk g alpha fuel v draws = .ok w rest → w < g.n := by
  induction fuel with
  | zero => intro v draws w rest _ h; exact Run.noConfusion h
  | succ fuel ih =>
    intro v draws w rest hv h
    cases draws with
    | nil => exact Run.noConfusion h
    | cons x draws =>
      rw [random_walk_succ_cons] at h
      split at h
      · simp only [Run.ok.injEq] at h
        rw [← h.1]; exact hv
      · cases hrn : g.rand_neighbor v draws with
        | ok v1 rest1 =>
          rw [hrn] at h
          exact ih v1 rest1 w rest (rand_neighbor_lt hg hv draws hrn) h
        | noNeighbors rest1 => rw [hrn] at h; exact Run.noConfusion h
        | starved => rw [hrn] at h; exact Run.noConfusion h

/-- The walk loop adds `inc` at the terminal node of each of its `count` walks. -/
theorem walkLoop_ok {g : Graph} (hg : g.WF) (alpha : ℚ) (fuel : Nat) {u : Nat} (hu : u < g.n)
    (inc : ℚ) (count : Nat) :
    ∀ (ppr : List ℚ) (draws : List Nat) (ppr1 : List ℚ) (rest : List Nat),
      ppr.length = g.n → walkLoop g alpha fuel u inc count ppr draws = .ok ppr1 rest →
      ppr1.length = g.n ∧ ppr1.sum = ppr.sum + (count : ℚ) * inc ∧
      ∃ ends, walkEnds g alpha fuel u count draws = .ok ends rest ∧ ends.length = count ∧
        ∀ i, ppr1.getD i 0 = ppr.getD i 0 + (ends.count i : ℚ) * inc := by
  induction count with
  | zero =>
    intro ppr draws ppr1 rest hlen h
    simp only [walkLoop, Run.ok.injEq] at h
    obtain ⟨h1, h2⟩ := h
    subst h1 h2
    exact ⟨hlen, by simp, [], rfl, rfl, fun i => by simp⟩
  | succ count ih =>
    intro ppr draws ppr1 rest hlen h
    rw [walkLoop] at h
    cases hw : random_walk g alpha fuel u draws with
    | ok v rest0 =>
      rw [hw] at h
      simp only at h
      have hv : v < g.n := random_walk_lt hg alpha fuel u draws v rest0 hu hw
      obtain ⟨hl1, hsum, ends, hends, hlen1, hget⟩ :=
        ih (ppr.set v (ppr.getD v 0 + inc)) rest0 ppr1 rest (by simpa using hlen) h
      refine ⟨hl1, ?_, v :: ends, ?_, by simp [hlen1], fun i => ?_⟩
      · rw [hsum, sum_set _ _ _ (by rw [hlen]; exact hv)]
        push_cast; ring
      · rw [walkEnds, hw]
        simp only [hends]
      · rw [hget i]
        by_cases hvi : v = i
        · subst hvi
          rw [getD_set_self _ _ _ _ (by rw [hlen]; exact hv), List.count_cons_self]
          push_cast; ring
        · rw [getD_set_ne _ _ _ hvi, List.count_cons_of_ne (Ne.symm hvi)]
    | noNeighbors rest0 => rw [hw] at h; exact Run.noConfusion h
    | starved => rw [hw] at h; exact Run.noConfusion h

/-- C16 (random-walk estimator output): on a well-formed graph with `source < n` and
`rw_num ≥ 1`, whenever `ppr_rw` returns (all `rw_num` walks terminate) the result has length
`n`, its entry `i` is the number of walks that terminated at node `i` divided by `rw_num`,
every entry is non-negative and the entries sum to exactly 1. -/
theorem ppr_rw_frequencies (g : Graph) (source : Nat) (alpha : ℚ) (rw_num fuel : Nat)
    (draws : List Nat) (hg : g.WF) (hs : source < g.n) (hrw : 1 ≤ rw_num)
    (ppr : List ℚ) (rest : List Nat)
    (h : ppr_rw g source alpha rw_num fuel draws = .ok ppr rest) :
    ppr.length = g.n ∧
    (∃ ends, walkEnds g alpha fuel source rw_num draws = .ok ends rest ∧
      ends.length = rw_num ∧ ∀ i, ppr.getD i 0 = (ends.count i : ℚ) / (rw_num : ℚ)) ∧
    (∀ i, 0 ≤ ppr.getD i 0) ∧ ppr.sum = 1 := by
  have hrw0 : (rw_num : ℚ) ≠ 0 := Nat.cast_ne_zero.2 (by omega)
  obtain ⟨hlen, hsum, ends, hends, hlen1, hget⟩ :=
    walkLoop_ok hg alpha fuel hs (1 / (rw_num : ℚ)) rw_num _ draws ppr rest (by simp) h
  have hentry : ∀ i, ppr.getD i 0 = (ends.count i : ℚ) / (rw_num : ℚ) := by
    intro i
    rw [hget i, getD_replicate]
    ring
  refine ⟨hlen, ⟨ends, hends, hlen1, hentry⟩, fun i => ?_, ?_⟩
  · rw [hentry i]; positivity
  · rw [hsum]
    simp only [List.sum_replicate, smul_zero, zero_add]
    field_simp

/-- Witness for C16: two walks on the cycle `0 → 1 → 0` from node 0 with `alpha = 1/2`; the
first stops at 0, the second moves to 1 and stops there. -/
theorem ppr_rw_frequencies_witness :
    ppr_rw cycleGraph 0 (1/2) 2 2 [0, 2 ^ 31, 5, 0] = .ok [1/2, 1/2] [] ∧
    ([1/2, 1/2] : List ℚ).sum = 1 :=
  ⟨by decide!, (ppr_rw_frequencies cycleGraph 0 (1/2) 2 2 [0, 2 ^ 31, 5, 0] (by decide)
    (by decide) (by decide) [1/2, 1/2] [] (by decide!)).2.2.2⟩

/-! ## `rand_binomial` -/

theorem geoPrefix_succ (geo : Nat → Nat) (j : Nat) :
    geoPrefix geo (j + 1) = geoPrefix geo j + geo j := Finset.sum_range_succ geo j

theorem geoPrefix_ge (geo : Nat → Nat) (h1 : ∀ j, 1 ≤ geo j) (j : Nat) : j ≤ geoPrefix geo j := by
  induction j with
  | zero => exact Nat.zero_le _
  | succ j ih => rw [geoPrefix_succ]; have := h1 j; omega

theorem geoPrefix_mono (geo : Nat → Nat) {a b : Nat} (h : a ≤ b) :
    geoPrefix geo a ≤ geoPrefix geo b :=
  Finset.sum_le_sum_of_subset (Finset.range_mono h)

/-- The loop of `rand_binomial`, started after `k` draws with `i = g_1 + ... + g_k`, stops
at the first `k1` whose prefix sum exceeds `n`. -/
theorem rand_binomial_loop_spec (n : Nat) (hn : n < 2 ^ 32) (geo : Nat → Nat)
    (h1 : ∀ j, 1 ≤ geo j) (h32 : ∀ j, geo j < 2 ^ 32) (fuel : Nat) :
    ∀ (k : Nat), k ≤ n + 1 → n + 2 ≤ fuel + k →
      ∃ k1, rand_binomial_loop n geo fuel (geoPrefix geo k) k = some k1 ∧ k ≤ k1 ∧
        n < geoPrefix geo k1 ∧ ∀ j, k ≤ j → j < k1 → geoPrefix geo j ≤ n := by
  induction fuel with
  | zero =>
    intro k hk hk2
    omega
  | succ fuel ih =>
    intro k _ hk
    rw [rand_binomial_loop]
    by_cases hle : geoPrefix geo k ≤ n
    · rw [if_pos hle]
      have hmod : (geoPrefix geo k + geo k) % 2 ^ 64 = geoPrefix geo (k + 1) := by
        rw [geoPrefix_succ]
        apply Nat.mod_eq_of_lt
        have := h32 k
        omega
      rw [hmod]
      have hkn := geoPrefix_ge geo h1 k
      obtain ⟨k1, hrun, hk1, hgt, hall⟩ := ih (k + 1) (by omega) (by omega)
      refine ⟨k1, hrun, by omega, hgt, fun j hj hj1 => ?_⟩
      by_cases hjk : j = k
      · subst hjk; exact hle
      · exact hall j (by omega) hj1
    · rw [if_neg hle]
      exact ⟨k, rfl, le_refl k, by omega, fun j hj hj1 => by omega⟩

/-- C19 (`rand_binomial` counts geometric arrivals): for `n < 2^32`, `0 < p < 1` and every
sequence of geometric draws `g_1, g_2, ...` (32-bit values, each at least 1),
`rand_binomial(n, p)` terminates (`n + 2` units of fuel are enough) and returns the number of
indices `j ≥ 1` with `g_1 + ... + g_j ≤ n`; the result is at most `n`; and when every draw is 1
the result is `n`, the value of the shortcut for `p = 1`. -/
theorem rand_binomial_counts (n : Nat) (p : ℚ) (geo : Nat → Nat) (hn : n < 2 ^ 32)
    (hp0 : 0 < p) (hp1 : p < 1) (h1 : ∀ j, 1 ≤ geo j) (h32 : ∀ j, geo j < 2 ^ 32) :
    (∀ fuel, n + 2 ≤ fuel → ∃ res, rand_binomial n p geo fuel = some res ∧
      res = ((Finset.range (n + 1)).filter fun j => geoPrefix geo (j + 1) ≤ n).card ∧
      res ≤ n) ∧
    ((∀ j, geo j = 1) → ∀ fuel, n + 2 ≤ fuel →
      rand_binomial n p geo fuel = some n ∧ rand_binomial n 1 geo fuel = some n) := by
  have hmain : ∀ fuel, n + 2 ≤ fuel → ∃ res, rand_binomial n p geo fuel = some res ∧
      res = ((Finset.range (n + 1)).filter fun j => geoPrefix geo (j + 1) ≤ n).card ∧
      res ≤ n := by
    intro fuel hfuel
    obtain ⟨k1, hrun, _, hgt, hall⟩ :=
      rand_binomial_loop_spec n hn geo h1 h32 fuel 0 (by omega) (by omega)
    have hrun0 : rand_binomial_loop n geo fuel 0 0 = some k1 := hrun
    have hk1pos : 1 ≤ k1 := by
      by_contra hk
      have : k1 = 0 := by omega
      rw [this] at hgt
      simp [geoPrefix] at hgt
    have hk1le : k1 ≤ n + 1 := by
      have h2 := hall (k1 - 1) (Nat.zero_le _) (by omega)
      have h3 := geoPrefix_ge geo h1 (k1 - 1)
      omega
    have hset : ((Finset.range (n + 1)).filter fun j => geoPrefix geo (j + 1) ≤ n)
        = Finset.range (k1 - 1) := by
      ext j
      simp only [Finset.mem_filter, Finset.mem_range]
      constructor
      · rintro ⟨_, hj⟩
        by_contra hlt
        have := geoPrefix_mono geo (show k1 ≤ j + 1 by omega)
        omega
      · intro hj
        exact ⟨by omega, hall (j + 1) (Nat.zero_le _) (by omega)⟩
    refine ⟨k1 - 1, ?_, by rw [hset, Finset.card_range], by omega⟩
    unfold rand_binomial
    rw [if_neg hp0.ne', if_neg hp1.ne, hrun0]
    simp only [Option.map_some', Option.some.injEq]
    rcases Nat.lt_or_ge k1 (2 ^ 32) with hlt | hge
    · rw [Nat.mod_eq_of_lt hlt]; omega
    · have : k1 = 2 ^ 32 := by omega
      rw [this]; omega
  refine ⟨hmain, fun hone fuel hfuel => ⟨?_, by simp [rand_binomial]⟩⟩
  obtain ⟨res, hres, hcard, _⟩ := hmain fuel hfuel
  rw [hres, hcard]
  have hpre : ∀ j, geoPrefix geo j = j := by
    intro j
    induction j with
    | zero => simp [geoPrefix]
    | succ j ih => rw [geoPrefix_succ, ih, hone j]
  have hset : ((Finset.range (n + 1)).filter fun j => geoPrefix geo (j + 1) ≤ n)
      = Finset.range n := by
    ext j
    simp only [Finset.mem_filter, Finset.mem_range, hpre]
    omega
  rw [hset, Finset.card_range]

/-- Witness for C19: `n = 3`, `p = 1/2` and all geometric draws equal to 2: the prefix sums
are 2, 4, 6, ... and exactly one of them is at most 3. -/
theorem rand_binomial_counts_witness :
    rand_binomial 3 (1/2) (fun _ => 2) 5 = some 1 ∧
    (∀ fuel, 3 + 2 ≤ fuel → ∃ res, rand_binomial 3 (1/2) (fun _ => 2) fuel = some res ∧
      res = ((Finset.range (3 + 1)).filter fun j => geoPrefix (fun _ => 2) (j + 1) ≤ 3).card ∧
      res ≤ 3) :=
  ⟨by decide!, (rand_binomial_counts 3 (1/2) (fun _ => 2) (by decide) (by norm_num)
    (by norm_num) (fun _ => by norm_num) (fun _ => by norm_num)).1⟩

/-! ## The alias tables are proportional to the weights -/

theorem sum_range_change (n a : Nat) (f f1 : Nat → ℚ) (ha : a < n)
    (h : ∀ i, i ≠ a → f1 i = f i) :
    (Finset.range n).sum f1 = (Finset.range n).sum f - f a + f1 a := by
  have hmem : a ∈ Finset.range n := Finset.mem_range.2 ha
  rw [← Finset.add_sum_erase _ f hmem, ← Finset.add_sum_erase _ f1 hmem]
  have : ((Finset.range n).erase a).sum f1 = ((Finset.range n).erase a).sum f :=
    Finset.sum_congr rfl fun i hi => h i (Finset.ne_of_mem_erase hi)
  rw [this]; ring

theorem sum_range_getD (l : List ℚ) : ((Finset.range l.length).sum fun i => l.getD i 0) = l.sum := by
  induction l with
  | nil => simp
  | cons a l ih =>
    rw [List.length_cons, Finset.sum_range_succ', List.sum_cons]
    simp only [List.getD_cons_succ, List.getD_cons_zero]
    rw [ih]; ring

namespace AliasSampler

/-- One iteration of the pairing loop keeps the invariant.  `b1` is the state after the
iteration; how the heavy index `l` is pushed back is left to the caller. -/
theorem propInv_step {n : Nat} {p0 : Nat → ℚ} {b b1 : Build} {s l : Nat}
    (hb : PropInv n p0 b) (hs : s ∈ b.small) (hl : l ∈ b.large)
    (hP : b1.probabilities = b.probabilities.set l
      (b.probabilities.getD l 0 + b.probabilities.getD s 0 - 1))
    (hA : b1.alias_ = b.alias_.set s l)
    (hPr : b1.prob = b.prob.set s (b.probabilities.getD s 0))
    (hnodup : b1.pending.Nodup)
    (hmem : ∀ x, x ∈ b1.pending ↔ x ∈ b.pending ∧ x ≠ s)
    (hsmall : ∀ x ∈ b1.small, 0 ≤ b1.probabilities.getD x 0 ∧ b1.probabilities.getD x 0 < 1)
    (hlarge : ∀ x ∈ b1.large, 1 ≤ b1.probabilities.getD x 0) :
    PropInv n p0 b1 := by
  have hsp : s ∈ b.pending := List.mem_append_left _ hs
  have hlp : l ∈ b.pending := List.mem_append_right _ hl
  have hsn : s < n := hb.lt s hsp
  have hln : l < n := hb.lt l hlp
  have hsl : s ≠ l := by
    intro h
    have hnd := hb.nodup
    unfold Build.pending at hnd
    exact (List.disjoint_of_nodup_append hnd) hs (h ▸ hl)
  have hlp1 : l ∈ b1.pending := (hmem l).2 ⟨hlp, Ne.symm hsl⟩
  have hsp1 : s ∉ b1.pending := fun h => ((hmem s).1 h).2 rfl
  have hP1l : b1.probabilities.getD l 0
      = b.probabilities.getD l 0 + b.probabilities.getD s 0 - 1 := by
    rw [hP, getD_set_self _ _ _ _ (by rw [hb.lenP]; exact hln)]
  have hP1 : ∀ i, i ≠ l → b1.probabilities.getD i 0 = b.probabilities.getD i 0 := by
    intro i hi; rw [hP, getD_set_ne _ _ _ (Ne.symm hi)]
  have hPr1s : b1.prob.getD s 0 = b.probabilities.getD s 0 := by
    rw [hPr, getD_set_self _ _ _ _ (by rw [hb.lenPr]; exact hsn)]
  have hPr1 : ∀ i, i ≠ s → b1.prob.getD i 0 = b.prob.getD i 0 := by
    intro i hi; rw [hPr, getD_set_ne _ _ _ (Ne.symm hi)]
  have hA1s : b1.alias_.getD s 0 = l := by
    rw [hA, getD_set_self _ _ _ _ (by rw [hb.lenA]; exact hsn)]
  have hA1 : ∀ i, i ≠ s → b1.alias_.getD i 0 = b.alias_.getD i 0 := by
    intro i hi; rw [hA, getD_set_ne _ _ _ (Ne.symm hi)]
  have hsbound := hb.small_lt s hs
  refine
    { lenP := by rw [hP, List.length_set, hb.lenP]
      lenA := by rw [hA, List.length_set, hb.lenA]
      lenPr := by rw [hPr, List.length_set, hb.lenPr]
      nodup := hnodup
      lt := fun x hx => hb.lt x ((hmem x).1 hx).1
      small_lt := hsmall
      large_ge := hlarge
      mean := ?_
      alias_lt := fun i hi => ?_
      done := fun i hi hip => ?_
      mass := fun j hj => ?_ }
  · -- the mean: `s` leaves with `P[s]`, and `l` gives up `1 - P[s]`
    have h1 := sum_range_change n s
      (fun i => if i ∈ b.pending then b.probabilities.getD i 0 - 1 else 0)
      (fun i => if i ∈ b.pending ∧ i ≠ s then b.probabilities.getD i 0 - 1 else 0) hsn
      (fun i hi => by simp [hi])
    have h2 := sum_range_change n l
      (fun i => if i ∈ b.pending ∧ i ≠ s then b.probabilities.getD i 0 - 1 else 0)
      (fun i => if i ∈ b1.pending then b1.probabilities.getD i 0 - 1 else 0) hln
      (fun i hi => by
        simp only [hmem i, hP1 i hi])
    rw [h2, h1, hb.mean]
    simp only [hsp, hlp, hlp1, Ne.symm hsl, ne_eq, not_true_eq_false, and_false, and_true,
      not_false_eq_true, if_true, if_false, hP1l]
    ring
  · by_cases his : i = s
    · rw [his, hA1s]; exact hln
    · rw [hA1 i his]; exact hb.alias_lt i hi
  · by_cases his : i = s
    · rw [his, hPr1s]; exact ⟨hsbound.1, hsbound.2.le⟩
    · rw [hPr1 i his]
      exact hb.done i hi fun h => hip ((hmem i).2 ⟨h, his⟩)
  · -- the mass owned by `j`
    have hgiven : b1.given n j = b.given n j + (if l = j then 1 - b.probabilities.getD s 0 else 0) := by
      unfold Build.given
      rw [sum_range_change n s
        (fun i => if i ∉ b.pending ∧ b.alias_.getD i 0 = j then 1 - b.prob.getD i 0 else 0)
        (fun i => if i ∉ b1.pending ∧ b1.alias_.getD i 0 = j then 1 - b1.prob.getD i 0 else 0)
        hsn (fun i hi => by
          have : i ∈ b1.pending ↔ i ∈ b.pending := by rw [hmem i]; simp [hi]
          simp only [this, hA1 i hi, hPr1 i hi])]
      simp only [hsp, hsp1, not_true_eq_false, false_and, not_false_eq_true, true_and,
        if_false, hA1s, hPr1s]
      ring
    have hmass := hb.mass j hj
    rw [hgiven, ← hmass]
    unfold Build.cur
    by_cases hjs : j = s
    · subst hjs
      simp only [hsp, hsp1, if_true, if_false, hPr1s, hsl.symm, if_neg (Ne.symm hsl)]
      simp [Ne.symm hsl]
    · by_cases hjl : j = l
      · subst hjl
        simp only [hlp, hlp1, if_true, hP1l]
        ring
      · have : j ∈ b1.pending ↔ j ∈ b.pending := by rw [hmem j]; simp [hjs]
        simp only [this, hP1 j hjl, hPr1 j hjs, if_neg (Ne.symm hjl), add_zero]

end AliasSampler

namespace AliasSampler

theorem pairLoop_large_nil (fuel : Nat) (b : Build) (h : b.large = []) :
    pairLoop fuel b = some b := by
  obtain ⟨P, A, Pr, small, large⟩ := b
  simp only at h
  subst h
  cases fuel <;> cases small <;> simp [pairLoop]

/-- The pairing loop returns within `small.size() + large.size() - 1` iterations, keeps the
invariant, and leaves one of the stacks empty. -/
theorem pairLoop_prop {n : Nat} {p0 : Nat → ℚ} (fuel : Nat) :
    ∀ (b : Build), PropInv n p0 b → b.small.length + b.large.length ≤ fuel + 1 →
      ∃ b1, pairLoop fuel b = some b1 ∧ PropInv n p0 b1 ∧ (b1.small = [] ∨ b1.large = []) := by
  induction fuel with
  | zero =>
    intro b hb hlen
    obtain ⟨P, A, Pr, small, large⟩ := b
    cases small with
    | nil => exact ⟨_, pairLoop_small_nil _ _ rfl, hb, Or.inl rfl⟩
    | cons s rs =>
      cases large with
      | nil => exact ⟨_, pairLoop_large_nil _ _ rfl, hb, Or.inr rfl⟩
      | cons l rl => simp only [List.length_cons] at hlen; omega
  | succ fuel ih =>
    intro b hb hlen
    obtain ⟨P, A, Pr, small, large⟩ := b
    cases small with
    | nil => exact ⟨_, pairLoop_small_nil _ _ rfl, hb, Or.inl rfl⟩
    | cons s rs =>
      cases large with
      | nil => exact ⟨_, pairLoop_large_nil _ _ rfl, hb, Or.inr rfl⟩
      | cons l rl =>
        have hnd := hb.nodup
        simp only [Build.pending, List.cons_append, List.nodup_cons, List.nodup_append,
          List.mem_append, List.mem_cons, not_or, List.disjoint_cons_right] at hnd
        obtain ⟨⟨hs_rs, hsl, hs_rl⟩, hrs_nd, ⟨hl_rl, hrl_nd⟩, hl_rs, hdisj⟩ := hnd
        have hln : l < n := hb.lt l (by simp [Build.pending])
        have hP1l : (P.set l (P.getD l 0 + P.getD s 0 - 1)).getD l 0
            = P.getD l 0 + P.getD s 0 - 1 :=
          getD_set_self _ _ _ _ (by rw [hb.lenP]; exact hln)
        have hP1 : ∀ x, x ≠ l → (P.set l (P.getD l 0 + P.getD s 0 - 1)).getD x 0 = P.getD x 0 :=
          fun x hx => getD_set_ne _ _ _ (Ne.symm hx)
        have hsb := hb.small_lt s (List.mem_cons_self s rs)
        have hlb := hb.large_ge l (List.mem_cons_self l rl)
        have hrs : ∀ x ∈ rs, x ≠ l := fun x hx h => hl_rs (h ▸ hx)
        have hrl : ∀ x ∈ rl, x ≠ l := fun x hx h => hl_rl (h ▸ hx)
        rw [pairLoop]
        simp only
        split
        · rename_i hlt
          have hinv : PropInv n p0 ⟨P.set l (P.getD l 0 + P.getD s 0 - 1), A.set s l,
              Pr.set s (P.getD s 0), l :: rs, rl⟩ := by
            refine propInv_step hb (List.mem_cons_self s rs) (List.mem_cons_self l rl) rfl rfl rfl
              ?_ (fun x => ?_) (fun x hx => ?_) (fun x hx => ?_)
            · simp only [Build.pending, List.cons_append, List.nodup_cons, List.nodup_append,
                List.mem_append, not_or]
              exact ⟨⟨hl_rs, hl_rl⟩, hrs_nd, hrl_nd, hdisj⟩
            · simp only [Build.pending, List.cons_append, List.mem_cons, List.mem_append]
              constructor
              · rintro (h | h | h)
                · exact ⟨Or.inr (Or.inr (Or.inl h)), by rw [h]; exact Ne.symm hsl⟩
                · exact ⟨Or.inr (Or.inl h), fun e => hs_rs (e ▸ h)⟩
                · exact ⟨Or.inr (Or.inr (Or.inr h)), fun e => hs_rl (e ▸ h)⟩
              · rintro ⟨h | h | h | h, hne⟩
                · exact absurd h hne
                · exact Or.inr (Or.inl h)
                · exact Or.inl h
                · exact Or.inr (Or.inr h)
            · rcases List.mem_cons.1 hx with rfl | hx
              · show 0 ≤ (P.set x _).getD x 0 ∧ (P.set x _).getD x 0 < 1
                rw [hP1l]
                exact ⟨by linarith [hsb.1], by rw [← hP1l]; exact hlt⟩
              · show 0 ≤ (P.set l _).getD x 0 ∧ (P.set l _).getD x 0 < 1
                rw [hP1 x (hrs x hx)]
                exact hb.small_lt x (List.mem_cons_of_mem s hx)
            · show 1 ≤ (P.set l _).getD x 0
              rw [hP1 x (hrl x hx)]
              exact hb.large_ge x (List.mem_cons_of_mem l hx)
          exact ih _ hinv (by simp only [List.length_cons] at hlen ⊢; omega)
        · rename_i hge
          have hinv : PropInv n p0 ⟨P.set l (P.getD l 0 + P.getD s 0 - 1), A.set s l,
              Pr.set s (P.getD s 0), rs, l :: rl⟩ := by
            refine propInv_step hb (List.mem_cons_self s rs) (List.mem_cons_self l rl) rfl rfl rfl
              ?_ (fun x => ?_) (fun x hx => ?_) (fun x hx => ?_)
            · simp only [Build.pending, List.nodup_cons, List.nodup_append,
                List.disjoint_cons_right]
              exact ⟨hrs_nd, ⟨hl_rl, hrl_nd⟩, hl_rs, hdisj⟩
            · simp only [Build.pending, List.cons_append, List.mem_cons, List.mem_append]
              constructor
              · rintro (h | h | h)
                · exact ⟨Or.inr (Or.inl h), fun e => hs_rs (e ▸ h)⟩
                · exact ⟨Or.inr (Or.inr (Or.inl h)), by rw [h]; exact Ne.symm hsl⟩
                · exact ⟨Or.inr (Or.inr (Or.inr h)), fun e => hs_rl (e ▸ h)⟩
              · rintro ⟨h | h | h | h, hne⟩
                · exact absurd h hne
                · exact Or.inl h
                · exact Or.inr (Or.inl h)
                · exact Or.inr (Or.inr h)
            · show 0 ≤ (P.set l _).getD x 0 ∧ (P.set l _).getD x 0 < 1
              rw [hP1 x (hrs x hx)]
              exact hb.small_lt x (List.mem_cons_of_mem s hx)
            · rcases List.mem_cons.1 hx with rfl | hx
              · exact not_lt.1 hge
              · show 1 ≤ (P.set l _).getD x 0
                rw [hP1 x (hrl x hx)]
                exact hb.large_ge x (List.mem_cons_of_mem l hx)
          exact ih _ hinv (by simp only [List.length_cons] at hlen ⊢; omega)

end AliasSampler

namespace AliasSampler

theorem length_fillOnes (ls : List Nat) : ∀ (prob : List ℚ),
    (fillOnes ls prob).length = prob.length := by
  induction ls with
  | nil => intro prob; rfl
  | cons l rest ih => intro prob; rw [fillOnes, ih, List.length_set]

/-- The state in which the pairing loop is entered satisfies the invariant, for
non-negative weights with positive sum. -/
theorem propInv_init (weights : List ℚ) (hnn : ∀ i, 0 ≤ weights.getD i 0)
    (hS : 0 < weights.sum) :
    PropInv weights.length
      (fun j => weights.getD j 0 * (weights.length : ℚ) / weights.sum)
      ⟨weights.map fun w => w * (weights.length : ℚ) / weights.foldl (fun acc w => acc + w) 0,
        List.replicate weights.length 0, List.replicate weights.length 0,
        (initStacks (weights.map fun w => w * (weights.length : ℚ)
          / weights.foldl (fun acc w => acc + w) 0) (List.range weights.length) ([], [])).1,
        (initStacks (weights.map fun w => w * (weights.length : ℚ)
          / weights.foldl (fun acc w => acc + w) 0) (List.range weights.length) ([], [])).2⟩ := by
  have hsum : weights.foldl (fun acc w => acc + w) 0 = weights.sum := by
    rw [foldl_add_eq_sum, zero_add]
  rw [hsum, initStacks_eq]
  simp only [List.append_nil]
  have hrange := sum_range_getD weights
  generalize hn : weights.length = n at hrange ⊢
  generalize hSdef : weights.sum = S at hS hrange ⊢
  have hP : ∀ i, (weights.map fun x => x * (n : ℚ) / S).getD i 0
      = weights.getD i 0 * (n : ℚ) / S := fun i =>
    getD_map_zero (fun x => x * (n : ℚ) / S) (by simp) weights i
  have hPnn : ∀ i, 0 ≤ (weights.map fun x => x * (n : ℚ) / S).getD i 0 := by
    intro i; rw [hP]
    exact div_nonneg (mul_nonneg (hnn i) (Nat.cast_nonneg n)) hS.le
  have hmem : ∀ x, x ∈ (Build.pending
      ⟨weights.map fun x => x * (n : ℚ) / S, List.replicate n 0, List.replicate n 0,
        ((List.range n).filter fun i =>
          decide ((weights.map fun x => x * (n : ℚ) / S).getD i 0 < 1)).reverse,
        ((List.range n).filter fun i =>
          !decide ((weights.map fun x => x * (n : ℚ) / S).getD i 0 < 1)).reverse⟩) ↔ x < n := by
    intro x
    simp only [Build.pending, List.mem_append, List.mem_reverse, List.mem_filter, List.mem_range,
      decide_eq_true_eq, Bool.not_eq_true', decide_eq_false_iff_not]
    constructor
    · rintro (h | h) <;> exact h.1
    · intro h
      by_cases hx : (weights.map fun x => x * (n : ℚ) / S).getD x 0 < 1
      · exact Or.inl ⟨h, hx⟩
      · exact Or.inr ⟨h, hx⟩
  refine
    { lenP := by simp [hn]
      lenA := by simp
      lenPr := by simp
      nodup := ?_
      lt := fun x hx => (hmem x).1 hx
      small_lt := fun s hs => ?_
      large_ge := fun l hl => ?_
      mean := ?_
      alias_lt := fun i hi => ?_
      done := fun i hi hip => absurd ((hmem i).2 hi) hip
      mass := fun j hj => ?_ }
  · simp only [Build.pending]
    rw [List.nodup_append]
    refine ⟨List.nodup_reverse.2 ((List.nodup_range n).filter _),
      List.nodup_reverse.2 ((List.nodup_range n).filter _), ?_⟩
    intro x hx1 hx2
    simp only [List.mem_reverse, List.mem_filter, decide_eq_true_eq, Bool.not_eq_true',
      decide_eq_false_iff_not] at hx1 hx2
    exact hx2.2 hx1.2
  · simp only [List.mem_reverse, List.mem_filter, decide_eq_true_eq] at hs
    exact ⟨hPnn s, hs.2⟩
  · simp only [List.mem_reverse, List.mem_filter, Bool.not_eq_true',
      decide_eq_false_iff_not] at hl
    exact not_lt.1 hl.2
  · have hcongr : ((Finset.range n).sum fun i =>
        if i ∈ (Build.pending
          ⟨weights.map fun x => x * (n : ℚ) / S, List.replicate n 0, List.replicate n 0,
            ((List.range n).filter fun i =>
              decide ((weights.map fun x => x * (n : ℚ) / S).getD i 0 < 1)).reverse,
            ((List.range n).filter fun i =>
              !decide ((weights.map fun x => x * (n : ℚ) / S).getD i 0 < 1)).reverse⟩)
        then (weights.map fun x => x * (n : ℚ) / S).getD i 0 - 1 else 0)
        = (Finset.range n).sum fun i => weights.getD i 0 * ((n : ℚ) / S) - 1 := by
      apply Finset.sum_congr rfl
      intro i hi
      rw [if_pos ((hmem i).2 (Finset.mem_range.1 hi)), hP, mul_div_assoc]
    show ((Finset.range n).sum fun i => if i ∈ _ then _ else 0) = 0
    rw [hcongr, Finset.sum_sub_distrib, ← Finset.sum_mul, hrange]
    simp only [Finset.sum_const, Finset.card_range, nsmul_eq_mul, mul_one]
    field_simp
  · show (List.replicate n 0).getD i 0 < n
    rw [getD_replicate]; exact Nat.lt_of_le_of_lt (Nat.zero_le i) hi
  · have hgiven : Build.given
        ⟨weights.map fun x => x * (n : ℚ) / S, List.replicate n 0, List.replicate n 0,
          ((List.range n).filter fun i =>
            decide ((weights.map fun x => x * (n : ℚ) / S).getD i 0 < 1)).reverse,
          ((List.range n).filter fun i =>
            !decide ((weights.map fun x => x * (n : ℚ) / S).getD i 0 < 1)).reverse⟩ n j = 0 := by
      unfold Build.given
      apply Finset.sum_eq_zero
      intro i hi
      rw [if_neg]
      exact fun h => h.1 ((hmem i).2 (Finset.mem_range.1 hi))
    rw [hgiven, add_zero]
    unfold Build.cur
    rw [if_pos ((hmem j).2 hj)]
    exact hP j

/-- When the pairing loop is over, every index left on a stack has working value 1. -/
theorem propInv_final {n : Nat} {p0 : Nat → ℚ} {b : Build} (hb : PropInv n p0 b)
    (hend : b.small = [] ∨ b.large = []) :
    ∀ x ∈ b.pending, b.probabilities.getD x 0 = 1 := by
  intro x hx
  have hxn := hb.lt x hx
  have hmean := hb.mean
  rcases hend with h | h
  · have hall : ∀ i ∈ Finset.range n,
        0 ≤ (if i ∈ b.pending then b.probabilities.getD i 0 - 1 else 0) := by
      intro i _
      split
      · rename_i hi
        have : i ∈ b.large := by simpa [Build.pending, h] using hi
        linarith [hb.large_ge i this]
      · exact le_refl 0
    have := (Finset.sum_eq_zero_iff_of_nonneg hall).1 hmean x (Finset.mem_range.2 hxn)
    rw [if_pos hx] at this
    linarith
  · have hall : ∀ i ∈ Finset.range n,
        (if i ∈ b.pending then b.probabilities.getD i 0 - 1 else 0) ≤ 0 := by
      intro i _
      split
      · rename_i hi
        have : i ∈ b.small := by simpa [Build.pending, h] using hi
        linarith [(hb.small_lt i this).2]
      · exact le_refl 0
    have := (Finset.sum_eq_zero_iff_of_nonpos hall).1 hmean x (Finset.mem_range.2 hxn)
    rw [if_pos hx] at this
    linarith

end AliasSampler

/-- C11 (the alias sampler samples proportionally to the weights): for `n ≥ 1`
non-negative weights with positive sum `S`, the constructor returns tables of length `n`
with every `prob[i]` in `[0,1]` and every `alias[i] < n`, such that for every index `j`
`prob[j]` plus the sum of `1 - prob[i]` over the `i` with `alias[i] = j` is
`n * weights[j] / S`.  `sample()` with index draw `i` and real draw `u` in `[0,1)` returns `j`
exactly when `i = j` and `u < prob[i]`, or `alias[i] = j` and `u ≥ prob[i]`; so, for a uniform
index draw and a uniform real draw, the probability of `j` is the displayed quantity divided
by `n`, that is `weights[j] / S`. -/
theorem alias_proportional (weights : List ℚ) (hn : 1 ≤ weights.length)
    (hnn : ∀ i, 0 ≤ weights.getD i 0) (hS : 0 < weights.sum) :
    ∃ Sm, AliasSampler.construct weights = some Sm ∧ Sm.n = weights.length ∧
      Sm.prob.length = weights.length ∧ Sm.alias_.length = weights.length ∧
      (∀ i, i < weights.length →
        0 ≤ Sm.prob.getD i 0 ∧ Sm.prob.getD i 0 ≤ 1 ∧ Sm.alias_.getD i 0 < weights.length) ∧
      (∀ j, j < weights.length →
        Sm.prob.getD j 0 + ((Finset.range weights.length).sum fun i =>
          if Sm.alias_.getD i 0 = j then 1 - Sm.prob.getD i 0 else 0)
          = (weights.length : ℚ) * weights.getD j 0 / weights.sum) ∧
      (∀ i j u, 0 ≤ u → u < 1 → (Sm.sample i u = j ↔
        (i = j ∧ u < Sm.prob.getD i 0) ∨ (Sm.alias_.getD i 0 = j ∧ Sm.prob.getD i 0 ≤ u))) ∧
      (∀ j, j < weights.length →
        (Sm.prob.getD j 0 + ((Finset.range weights.length).sum fun i =>
          if Sm.alias_.getD i 0 = j then 1 - Sm.prob.getD i 0 else 0)) / (weights.length : ℚ)
          = weights.getD j 0 / weights.sum) := by
  have hinit := AliasSampler.propInv_init weights hnn hS
  have hlen : (AliasSampler.initStacks (weights.map fun w => w * (weights.length : ℚ)
      / weights.foldl (fun acc w => acc + w) 0) (List.range weights.length) ([], [])).1.length
      + (AliasSampler.initStacks (weights.map fun w => w * (weights.length : ℚ)
      / weights.foldl (fun acc w => acc + w) 0) (List.range weights.length) ([], [])).2.length
      ≤ weights.length + 1 := by
    rw [AliasSampler.initStacks_eq]
    simp only [List.append_nil, List.length_reverse]
    have h := List.length_eq_length_filter_add (l := List.range weights.length)
      (fun i => decide ((weights.map fun w => w * (weights.length : ℚ)
        / weights.foldl (fun acc w => acc + w) 0).getD i 0 < 1))
    rw [List.length_range] at h
    omega
  obtain ⟨b1, hrun, hb1, hend⟩ := AliasSampler.pairLoop_prop weights.length _ hinit hlen
  have hone := AliasSampler.propInv_final hb1 hend
  have hprob : ∀ i, (AliasSampler.fillOnes b1.small
      (AliasSampler.fillOnes b1.large b1.prob)).getD i 0 = b1.cur i := by
    intro i
    rw [AliasSampler.getD_fillOnes, AliasSampler.getD_fillOnes,
      AliasSampler.length_fillOnes]
    unfold AliasSampler.Build.cur AliasSampler.Build.pending
    by_cases hs : i ∈ b1.small
    · have hi : i ∈ b1.pending := List.mem_append_left _ hs
      rw [if_pos ⟨hs, by rw [hb1.lenPr]; exact hb1.lt i hi⟩, if_pos (List.mem_append_left _ hs),
        hone i hi]
    · by_cases hl : i ∈ b1.large
      · have hi : i ∈ b1.pending := List.mem_append_right _ hl
        rw [if_neg (fun h => hs h.1), if_pos ⟨hl, by rw [hb1.lenPr]; exact hb1.lt i hi⟩,
          if_pos (List.mem_append_right _ hl), hone i hi]
      · rw [if_neg (fun h => hs h.1), if_neg (fun h => hl h.1),
          if_neg (by simp [hs, hl])]
  have hident : ∀ j, j < weights.length →
      (AliasSampler.fillOnes b1.small (AliasSampler.fillOnes b1.large b1.prob)).getD j 0
        + ((Finset.range weights.length).sum fun i =>
          if b1.alias_.getD i 0 = j then
            1 - (AliasSampler.fillOnes b1.small
              (AliasSampler.fillOnes b1.large b1.prob)).getD i 0 else 0)
        = (weights.length : ℚ) * weights.getD j 0 / weights.sum := by
    intro j hj
    have hmass := hb1.mass j hj
    simp only at hmass
    rw [hprob j, mul_comm (weights.length : ℚ), ← hmass]
    congr 1
    unfold AliasSampler.Build.given
    apply Finset.sum_congr rfl
    intro i _
    rw [hprob i]
    unfold AliasSampler.Build.cur
    by_cases hi : i ∈ b1.pending
    · have hneg : ¬ (i ∉ b1.pending ∧ b1.alias_.getD i 0 = j) := fun h => h.1 hi
      rw [if_pos hi, hone i hi, if_neg hneg]
      simp only [sub_self, ite_self]
    · rw [if_neg hi]
      by_cases hA : b1.alias_.getD i 0 = j
      · rw [if_pos hA, if_pos ⟨hi, hA⟩]
      · rw [if_neg hA, if_neg (fun h => hA h.2)]
  refine ⟨⟨b1.probabilities, b1.alias_,
    AliasSampler.fillOnes b1.small (AliasSampler.fillOnes b1.large b1.prob), weights.length⟩,
    ?_, rfl, ?_, hb1.lenA, fun i hi => ?_, hident, fun i j u hu0 hu1 => ?_, fun j hj => ?_⟩
  · unfold AliasSampler.construct
    simp only [hrun]
  · show (AliasSampler.fillOnes _ _).length = _
    rw [AliasSampler.length_fillOnes, AliasSampler.length_fillOnes, hb1.lenPr]
  · show 0 ≤ (AliasSampler.fillOnes _ _).getD i 0 ∧ (AliasSampler.fillOnes _ _).getD i 0 ≤ 1 ∧ _
    rw [hprob i]
    refine ⟨?_, ?_, hb1.alias_lt i hi⟩
    · unfold AliasSampler.Build.cur
      by_cases hp : i ∈ b1.pending
      · rw [if_pos hp, hone i hp]; exact zero_le_one
      · rw [if_neg hp]; exact (hb1.done i hi hp).1
    · unfold AliasSampler.Build.cur
      by_cases hp : i ∈ b1.pending
      · rw [if_pos hp, hone i hp]
      · rw [if_neg hp]; exact (hb1.done i hi hp).2
  · simp only [AliasSampler.sample]
    by_cases hlt : u < (AliasSampler.fillOnes b1.small
        (AliasSampler.fillOnes b1.large b1.prob)).getD i 0
    · rw [if_pos hlt]
      constructor
      · intro h; exact Or.inl ⟨h, hlt⟩
      · rintro (h | h)
        · exact h.1
        · exact absurd hlt (not_lt.2 h.2)
    · rw [if_neg hlt]
      constructor
      · intro h; exact Or.inr ⟨h, not_lt.1 hlt⟩
      · rintro (h | h)
        · exact absurd h.2 hlt
        · exact h.1
  · show (_ + _) / _ = _
    rw [hident j hj]
    have hn0 : (weights.length : ℚ) ≠ 0 := Nat.cast_ne_zero.2 (by omega)
    rw [mul_div_assoc, mul_div_cancel_left₀ _ hn0]

/-- Witness for C11: the weights `0.1, 0.3, 0.6` of the usage example of the header. -/
theorem alias_proportional_witness :
    AliasSampler.construct [1/10, 3/10, 6/10]
      = some ⟨[3/10, 9/10, 1], [2, 2, 0], [3/10, 9/10, 1], 3⟩ ∧
    ∃ Sm, AliasSampler.construct [1/10, 3/10, 6/10] = some Sm ∧ Sm.n = 3 ∧
      (∀ j, j < 3 →
        (Sm.prob.getD j 0 + ((Finset.range 3).sum fun i =>
          if Sm.alias_.getD i 0 = j then 1 - Sm.prob.getD i 0 else 0)) / ((3 : Nat) : ℚ)
          = ([1/10, 3/10, 6/10] : List ℚ).getD j 0 / ([1/10, 3/10, 6/10] : List ℚ).sum) := by
  refine ⟨by decide!, ?_⟩
  obtain ⟨Sm, h1, h2, _, _, _, _, _, h8⟩ := alias_proportional [1/10, 3/10, 6/10] (by decide)
    (fun i => by
      match i with
      | 0 => norm_num
      | 1 => norm_num
      | 2 => norm_num
      | i + 3 => simp)
    (by norm_num)
  exact ⟨Sm, h1, h2, h8⟩

/-! ## The active set and the effect of one push step -/

theorem pushNeighbors_active_mono (g : Graph) (rmax ruv : ℚ) (vs : List Nat) :
    ∀ (r : List ℚ) (q : uniqueue) (w : Nat), q.is_active w = true →
      (pushNeighbors g rmax ruv vs r q).2.is_active w = true := by
  induction vs with
  | nil => intro r q w h; exact h
  | cons v vs ih =>
    intro r q w h
    simp only [pushNeighbors]
    apply ih
    split
    · by_cases hvw : v = w
      · subst hvw; rw [uniqueue.push_of_active h]; exact h
      · rw [uniqueue.is_active_push_ne _ hvw]; exact h
    · exact h

/-- After the inner loop every neighbour whose residual exceeds its threshold is queued. -/
theorem pushNeighbors_active (g : Graph) (rmax ruv : ℚ) (vs : List Nat) :
    ∀ (r : List ℚ) (q : uniqueue), (∀ v ∈ vs, v < r.length) → (∀ v ∈ vs, v < q._isact.length) →
      ∀ v ∈ vs, (g.get_degree v : ℚ) * rmax < (pushNeighbors g rmax ruv vs r q).1.getD v 0 →
        (pushNeighbors g rmax ruv vs r q).2.is_active v = true := by
  induction vs with
  | nil => intro r q _ _ v hv; exact absurd hv (List.not_mem_nil v)
  | cons v0 vs ih =>
    intro r q hr hq v hv hgt
    have hr1 : ∀ x ∈ vs, x < (r.set v0 (r.getD v0 0 + ruv)).length := fun x hx => by
      simpa using hr x (List.mem_cons_of_mem v0 hx)
    simp only [pushNeighbors] at hgt ⊢
    by_cases hmem : v ∈ vs
    · apply ih _ _ hr1 _ v hmem hgt
      intro x hx
      split
      · rw [uniqueue.push_isact_length]; exact hq x (List.mem_cons_of_mem v0 hx)
      · exact hq x (List.mem_cons_of_mem v0 hx)
    · have hv0 : v = v0 := by
        rcases List.mem_cons.1 hv with h | h
        · exact h
        · exact absurd h hmem
      subst hv0
      rw [pushNeighbors_getD g rmax ruv vs _ _ hr1, List.count_eq_zero_of_not_mem hmem,
        Nat.cast_zero, zero_mul, add_zero] at hgt
      apply pushNeighbors_active_mono
      rw [if_pos hgt]
      exact uniqueue.is_active_push_self (hq v (List.mem_cons_self v vs))

/-- C23 (single push step): processing a popped node `u` with `degree(u) ≥ 1` adds
`alpha * r[u]` to `ppr[u]` and leaves the other entries of `ppr` unchanged, adds
`c(v) * (1 - alpha) * r[u] / degree(u)` to `r[v]` for every `v ≠ u`, where `c(v)` is the
number of occurrences of `v` in `neighbors(u)`, sets `r[u]` to 0, and (for `rmax ≥ 0`) leaves
every neighbour whose new residual exceeds `degree(v) * rmax` active. -/
theorem pushStep_effect (g : Graph) (alpha rmax : ℚ) (u : Nat) (s : PushState)
    (hg : g.WF) (hu : u < g.n) (hdeg : 1 ≤ g.get_degree u) (hr : 0 ≤ rmax)
    (hlenP : s.ppr.length = g.n) (hlenR : s.r.length = g.n)
    (hlenQ : s.queue._isact.length = g.n) :
    (pushStep g alpha rmax u s).ppr.getD u 0 = s.ppr.getD u 0 + alpha * s.r.getD u 0 ∧
    (∀ v, v ≠ u → (pushStep g alpha rmax u s).ppr.getD v 0 = s.ppr.getD v 0) ∧
    (∀ v, v ≠ u → (pushStep g alpha rmax u s).r.getD v 0
      = s.r.getD v 0
        + ((g.get_neighbors u).count v : ℚ) * (1 - alpha) * s.r.getD u 0 / (g.get_degree u : ℚ)) ∧
    (pushStep g alpha rmax u s).r.getD u 0 = 0 ∧
    (∀ v ∈ g.get_neighbors u,
      (g.get_degree v : ℚ) * rmax < (pushStep g alpha rmax u s).r.getD v 0 →
      (pushStep g alpha rmax u s).queue.is_active v = true) := by
  have _ := hdeg
  have hnb : ∀ v ∈ g.get_neighbors u, v < s.r.length := by
    rw [hlenR]; exact hg.neighbors_lt u
  have hnbq : ∀ v ∈ g.get_neighbors u, v < s.queue._isact.length := by
    rw [hlenQ]; exact hg.neighbors_lt u
  have hru0 : (pushStep g alpha rmax u s).r.getD u 0 = 0 := by
    simp only [pushStep]
    rw [getD_set_self _ _ _ _ (by rw [pushNeighbors_length, hlenR]; exact hu)]
  refine ⟨?_, fun v hv => ?_, fun v hv => ?_, hru0, fun v hv hgt => ?_⟩
  · simp only [pushStep]
    rw [getD_set_self _ _ _ _ (by rw [hlenP]; exact hu)]
  · simp only [pushStep]
    rw [getD_set_ne _ _ _ (Ne.symm hv)]
  · simp only [pushStep]
    rw [getD_set_ne _ _ _ (Ne.symm hv), pushNeighbors_getD _ _ _ _ _ _ hnb]
    ring
  · by_cases hvu : v = u
    · subst hvu
      rw [hru0] at hgt
      have : (0 : ℚ) ≤ (g.get_degree v : ℚ) * rmax := mul_nonneg (Nat.cast_nonneg _) hr
      linarith
    · simp only [pushStep] at hgt ⊢
      rw [getD_set_ne _ _ _ (Ne.symm hvu)] at hgt
      exact pushNeighbors_active g rmax _ _ s.r s.queue hnb hnbq v hv hgt

/-- Witness for C23: the first step on the cycle `0 → 1 → 0` with `alpha = 1/2`,
`rmax = 1/4`: node 0 is processed, `ppr[0]` becomes `1/2` and `r[1]` becomes `1/2`. -/
theorem pushStep_effect_witness :
    pushStep cycleGraph (1/2) (1/4) 0 ⟨[0, 0], [1, 0], ⟨[], [false, false]⟩⟩
      = ⟨[1/2, 0], [0, 1/2], ⟨[1], [false, true]⟩⟩ ∧
    (pushStep cycleGraph (1/2) (1/4) 0 ⟨[0, 0], [1, 0], ⟨[], [false, false]⟩⟩).r.getD 0 0 = 0 :=
  ⟨by decide!, (pushStep_effect cycleGraph (1/2) (1/4) 0 ⟨[0, 0], [1, 0], ⟨[], [false, false]⟩⟩
    (by decide) (by decide) (by decide) (by norm_num) rfl rfl rfl).2.2.2.1⟩

theorem fpInit_above (g : Graph) {source : Nat} (hs : source < g.n) {rmax : ℚ}
    (hsrc : (g.get_degree source : ℚ) * rmax < 1) : FPAbove g rmax (fpInit g source) := by
  intro v hv
  simp only [fpInit] at hv ⊢
  by_cases hsv : source = v
  · subst hsv
    rw [getD_set_self _ _ _ _ (by simpa using hs)]; exact hsrc
  · rw [uniqueue.is_active_push_ne _ hsv] at hv
    simp [uniqueue.init, uniqueue.is_active, getD_replicate] at hv

theorem fpIter_above {g : Graph} (hg : g.WF) {alpha rmax : ℚ} (ha1 : alpha ≤ 1)
    {s s1 : PushState} (h : FPInv g s) (ha : FPAbove g rmax s)
    (hloop : ∀ u ∈ s.queue._queue, u ∉ g.get_neighbors u)
    (hstep : fpIter g alpha rmax s = some s1) : FPAbove g rmax s1 := by
  have h1 := fpIter_inv hg ha1 h hstep
  obtain ⟨u, rest, hq, hpop, hs1⟩ := fpIter_eq_some hstep
  have hurest : u ∉ rest := by
    have := h.queue.nodup; rw [hq] at this; exact (List.nodup_cons.1 this).1
  have hnb : ∀ v ∈ g.get_neighbors u, v < s.r.length := by
    rw [h.lenR]; exact hg.neighbors_lt u
  have hruv := ruv_nonneg g ha1 h.nonneg u
  have hself : u ∉ g.get_neighbors u := hloop u (by rw [hq]; exact List.mem_cons_self u rest)
  obtain ⟨new, hq1, hnew⟩ := pushNeighbors_queue g rmax _ hruv (g.get_neighbors u) s.r
    ⟨rest, s.queue._isact.set u false⟩ hnb
  intro w hw
  have hwq : w ∈ s1.queue._queue := (h1.queue.act w).1 hw
  have hq1' : s1.queue._queue = rest ++ new := by rw [hs1]; exact hq1
  rw [hq1'] at hwq
  have hwu : w ≠ u := by
    rcases List.mem_append.1 hwq with hmem | hmem
    · exact fun e => hurest (e ▸ hmem)
    · exact fun e => hself (e ▸ (hnew w hmem).1)
  have hr1 : s1.r.getD w 0 = (pushNeighbors g rmax
      (s.r.getD u 0 * (1 - alpha) / (g.get_degree u : ℚ)) (g.get_neighbors u) s.r
      ⟨rest, s.queue._isact.set u false⟩).1.getD w 0 := by
    rw [hs1]; simp only [pushStep]
    rw [getD_set_ne _ _ _ (Ne.symm hwu)]
  rw [hr1]
  rcases List.mem_append.1 hwq with hmem | hmem
  · have hact : s.queue.is_active w = true :=
      (h.queue.act w).2 (by rw [hq]; exact List.mem_cons_of_mem u hmem)
    have := ha w hact
    rw [pushNeighbors_getD _ _ _ _ _ _ hnb]
    have hc := mul_nonneg (Nat.cast_nonneg ((g.get_neighbors u).count w) : (0:ℚ) ≤ _) hruv
    linarith
  · exact (hnew w hmem).2

/-- Counterexample for C22: on the cycle `0 → 1 → 0` with `rmax = 1`, the source is queued
on entry of the loop although `r[0] = 1` does not exceed `degree(0) * rmax = 1`. -/
theorem fp_active_iff_counterexample :
    ¬ (∀ (g : Graph) (source : Nat) (alpha rmax : ℚ) (s : PushState) (u : Nat),
      g.WF → source < g.n → 0 < alpha → alpha ≤ 1 → 0 < rmax →
      FPReach g alpha rmax source s →
      (s.queue.is_active u = true ↔ (g.get_degree u : ℚ) * rmax < s.r.getD u 0)) := by
  intro h
  have h0 := (h cycleGraph 0 (1/2) 1 (fpInit cycleGraph 0) 0 (by decide) (by decide)
    (by norm_num) (by norm_num) (by norm_num) .init).1 (by decide)
  have hval : ((cycleGraph.get_degree 0 : ℚ) * 1 < (fpInit cycleGraph 0).r.getD 0 0) = False := by
    simp [cycleGraph, Graph.get_degree, fpInit]
  rw [hval] at h0
  exact h0

/-- C22, amended (active iff above threshold): at every instant of `ppr_forwardpush` between
processing steps, a node that is not queued has `r[u] ≤ degree(u) * rmax`; and when the
source starts above its threshold (`degree(source) * rmax < 1`) and no node reachable from the
source is its own neighbour, a node is queued if and only if `r[u] > degree(u) * rmax`. -/
theorem fp_active_iff_above (g : Graph) (source : Nat) (alpha rmax : ℚ)
    (hg : g.WF) (hs : source < g.n) (ha1 : alpha ≤ 1) (hr : 0 < rmax)
    (s : PushState) (hreach : FPReach g alpha rmax source s) :
    (∀ u, s.queue.is_active u = false → s.r.getD u 0 ≤ (g.get_degree u : ℚ) * rmax) ∧
    ((g.get_degree source : ℚ) * rmax < 1 →
      (∀ u, g.Reach source u → u ∉ g.get_neighbors u) →
      ∀ u, s.queue.is_active u = true ↔ (g.get_degree u : ℚ) * rmax < s.r.getD u 0) := by
  have hbelow := hreach.belowThreshold hg ha1 hr.le hs
  refine ⟨hbelow, fun hsrc hloop => ?_⟩
  have habove : FPAbove g rmax s := by
    induction hreach with
    | init => exact fpInit_above g hs hsrc
    | step hprev hstep ih =>
      exact fpIter_above hg ha1 (hprev.toFPInv hg ha1 hs)
        (ih (hprev.belowThreshold hg ha1 hr.le hs))
        (fun u hu => hloop u (hprev.queued_reach hg ha1 hs u hu)) hstep
  intro u
  constructor
  · exact habove u
  · intro hgt
    cases hact : s.queue.is_active u
    · exact absurd (hbelow u hact) (not_le.2 hgt)
    · rfl

/-- Witness for the amended C22: the state after the first step on the cycle `0 → 1 → 0`
with `alpha = 1/2`, `rmax = 1/4`. -/
theorem fp_active_iff_above_witness :
    FPReach cycleGraph (1/2) (1/4) 0 ⟨[1/2, 0], [0, 1/2], ⟨[1], [false, true]⟩⟩ ∧
    (∀ u, (⟨[1], [false, true]⟩ : uniqueue).is_active u = false →
      ([0, 1/2] : List ℚ).getD u 0 ≤ (cycleGraph.get_degree u : ℚ) * (1/4)) :=
  have hreach : FPReach cycleGraph (1/2) (1/4) 0 ⟨[1/2, 0], [0, 1/2], ⟨[1], [false, true]⟩⟩ :=
    .step .init (by decide!)
  ⟨hreach, (fp_active_iff_above cycleGraph 0 (1/2) (1/4) (by decide) (by decide)
    (by norm_num) (by norm_num) _ hreach).1⟩

/-! ## Power Push -/

theorem pushNeighbors_fst (g : Graph) (rmax ruv : ℚ) (vs : List Nat) :
    ∀ (r : List ℚ) (q : uniqueue), (pushNeighbors g rmax ruv vs r q).1 = addNeighbors ruv vs r := by
  induction vs with
  | nil => intro r q; rfl
  | cons v vs ih => intro r q; simp only [pushNeighbors, addNeighbors, ih]

theorem pushStep_nonneg {g : Graph} (hg : g.WF) {alpha : ℚ} (rmax : ℚ) (ha1 : alpha ≤ 1)
    (u : Nat) (s : PushState) (hlen : s.r.length = g.n) (hnn : ∀ v, 0 ≤ s.r.getD v 0) :
    ∀ v, 0 ≤ (pushStep g alpha rmax u s).r.getD v 0 := by
  intro v
  have hnb : ∀ v ∈ g.get_neighbors u, v < s.r.length := by
    rw [hlen]; exact hg.neighbors_lt u
  simp only [pushStep]
  by_cases hv : u = v
  · subst hv
    by_cases hu : u < s.r.length
    · rw [getD_set_self _ _ _ _ (by rw [pushNeighbors_length]; exact hu)]
    · rw [List.getD_eq_default _ _ (by simp [pushNeighbors_length]; omega)]
  · rw [getD_set_ne _ _ _ hv, pushNeighbors_getD _ _ _ _ _ _ hnb]
    have := mul_nonneg (Nat.cast_nonneg ((g.get_neighbors u).count v) : (0:ℚ) ≤ _)
      (ruv_nonneg g ha1 hnn u)
    have := hnn v
    linarith

/-- A push step lowers the total residual by at least `alpha * r[u]`, whatever the degree
of `u` is. -/
theorem pushStep_sum_le_alpha {g : Graph} (hg : g.WF) {alpha : ℚ} (rmax : ℚ) (ha1 : alpha ≤ 1)
    (u : Nat) (s : PushState) (hlen : s.r.length = g.n) (hu : u < g.n)
    (hnn : ∀ v, 0 ≤ s.r.getD v 0) :
    (pushStep g alpha rmax u s).r.sum ≤ s.r.sum - alpha * s.r.getD u 0 := by
  rw [pushStep_sum hg alpha rmax u s hlen hu]
  have hruv := ruv_nonneg g ha1 hnn u
  have hc : 0 ≤ ((g.get_neighbors u).count u : ℚ)
      * (s.r.getD u 0 * (1 - alpha) / (g.get_degree u : ℚ)) :=
    mul_nonneg (Nat.cast_nonneg _) hruv
  have hru := hnn u
  by_cases hd : g.get_degree u = 0
  · generalize ((g.get_neighbors u).count u : ℚ)
      * (s.r.getD u 0 * (1 - alpha) / (g.get_degree u : ℚ)) = X at hc ⊢
    rw [hd]; simp only [Nat.cast_zero, zero_mul]
    nlinarith
  · have hd' : (g.get_degree u : ℚ) ≠ 0 := Nat.cast_ne_zero.2 hd
    have he : (g.get_degree u : ℚ) * (s.r.getD u 0 * (1 - alpha) / (g.get_degree u : ℚ))
        = s.r.getD u 0 * (1 - alpha) := by field_simp
    rw [he]
    linarith

theorem uniqueue.pop_mem {q q1 : uniqueue} {v : Nat} (hp : q.pop = some (v, q1)) :
    v ∈ q._queue := by
  obtain ⟨qu, act⟩ := q
  cases qu with
  | nil => simp [uniqueue.pop] at hp
  | cons x rest =>
    simp only [uniqueue.pop, Option.some.injEq, Prod.mk.injEq] at hp
    rw [← hp.1]
    exact List.mem_cons_self x rest

theorem ppInit_inv (g : Graph) {source : Nat} (hs : source < g.n) :
    PPInv g (ppInit g source) ∧ uniqueue.Inv g.n (ppInit g source).queue := by
  have h := fpInit_inv g hs
  refine ⟨⟨h.lenP, h.lenR, h.nonneg, ?_⟩, h.queue⟩
  show ((List.replicate g.n (0 : ℚ)).set source 1).sum ≤ 1
  rw [sum_set _ _ _ (by simpa using hs), getD_replicate]
  simp

theorem ppQueueStep_inv {g : Graph} (hg : g.WF) {alpha lambda : ℚ} (ha1 : alpha ≤ 1)
    {s s1 : PowerState} (h : PPInv g s) (hq : uniqueue.Inv g.n s.queue)
    (hstep : ppQueueStep g alpha lambda s = some s1) :
    PPInv g s1 ∧ uniqueue.Inv g.n s1.queue := by
  unfold ppQueueStep at hstep
  cases hpop : s.queue.pop with
  | none => rw [hpop] at hstep; exact Option.noConfusion hstep
  | some uq =>
    obtain ⟨u, q1⟩ := uq
    rw [hpop] at hstep
    simp only [Option.some.injEq] at hstep
    subst hstep
    have hq1 := uniqueue.inv_pop hq hpop
    have hun : u < g.n := hq.mem_lt (uniqueue.pop_mem hpop)
    refine ⟨⟨by simp [pushStep, h.lenP], by simp [pushStep, pushNeighbors_length, h.lenR],
      pushStep_nonneg hg _ ha1 u ⟨s.ppr, s.r, q1⟩ h.lenR h.nonneg, ?_⟩,
      pushNeighbors_inv g _ _ g.n _ (hg.neighbors_lt u) _ _ hq1⟩
    have := pushStep_sum_le_alpha hg (lambda / (g.m : ℚ)) ha1 u ⟨s.ppr, s.r, q1⟩ h.lenR hun
      h.nonneg
    have hs := h.sum_le
    show (pushStep g alpha (lambda / (g.m : ℚ)) u ⟨s.ppr, s.r, q1⟩).r.sum
      ≤ s.rsum - alpha * s.r.getD u 0
    simp only at this
    linarith

theorem ppQueueLoop_inv {g : Graph} (hg : g.WF) {alpha lambda : ℚ} (ha1 : alpha ≤ 1)
    (fuel : Nat) : ∀ (s s1 : PowerState), PPInv g s → uniqueue.Inv g.n s.queue →
      ppQueueLoop g alpha lambda fuel s = some s1 → PPInv g s1 := by
  induction fuel with
  | zero =>
    intro s s1 h _ hrun
    simp only [ppQueueLoop] at hrun
    split at hrun
    · exact Option.noConfusion hrun
    · cases Option.some.inj hrun; exact h
  | succ fuel ih =>
    intro s s1 h hq hrun
    simp only [ppQueueLoop] at hrun
    split at hrun
    · cases hst : ppQueueStep g alpha lambda s with
      | none => rw [hst] at hrun; exact Option.noConfusion hrun
      | some s2 =>
        rw [hst] at hrun
        obtain ⟨h2, hq2⟩ := ppQueueStep_inv hg ha1 h hq hst
        exact ih s2 s1 h2 hq2 hrun
    · cases Option.some.inj hrun; exact h

theorem scanNode_inv {g : Graph} (hg : g.WF) {alpha : ℚ} (rmaxp : ℚ) (ha1 : alpha ≤ 1)
    {s : PowerState} (h : PPInv g s) {u : Nat} (hu : u < g.n) :
    PPInv g (scanNode g alpha rmaxp s u) := by
  unfold scanNode
  split
  · have hr : (addNeighbors (s.r.getD u 0 * (1 - alpha) / (g.get_degree u : ℚ))
        (g.get_neighbors u) s.r).set u 0
        = (pushStep g alpha 0 u ⟨s.ppr, s.r, s.queue⟩).r := by
      simp only [pushStep, pushNeighbors_fst]
    refine ⟨by simp [h.lenP], ?_, ?_, ?_⟩
    · show ((addNeighbors _ _ s.r).set u 0).length = g.n
      rw [hr]; simp [pushStep, pushNeighbors_length, h.lenR]
    · show ∀ v, 0 ≤ ((addNeighbors _ _ s.r).set u 0).getD v 0
      rw [hr]
      exact pushStep_nonneg hg 0 ha1 u ⟨s.ppr, s.r, s.queue⟩ h.lenR h.nonneg
    · show ((addNeighbors _ _ s.r).set u 0).sum ≤ s.rsum - alpha * s.r.getD u 0
      rw [hr]
      have := pushStep_sum_le_alpha hg 0 ha1 u ⟨s.ppr, s.r, s.queue⟩ h.lenR hu h.nonneg
      have hs := h.sum_le
      simp only at this
      linarith
  · exact h

theorem scanSweep_inv {g : Graph} (hg : g.WF) {alpha : ℚ} (rmaxp : ℚ) (ha1 : alpha ≤ 1)
    {s : PowerState} (h : PPInv g s) : PPInv g (scanSweep g alpha rmaxp s) := by
  unfold scanSweep
  have : ∀ (us : List Nat) (s : PowerState), (∀ u ∈ us, u < g.n) → PPInv g s →
      PPInv g (us.foldl (scanNode g alpha rmaxp) s) := by
    intro us
    induction us with
    | nil => intro s _ hs; exact hs
    | cons u us ih =>
      intro s hus hs
      exact ih _ (fun x hx => hus x (List.mem_cons_of_mem u hx))
        (scanNode_inv hg rmaxp ha1 hs (hus u (List.mem_cons_self u us)))
  exact this _ s (fun u hu => List.mem_range.1 hu) h

theorem scanEpoch_inv {g : Graph} (hg : g.WF) {alpha : ℚ} (rmaxp : ℚ) (ha1 : alpha ≤ 1)
    (fuel : Nat) : ∀ (s s1 : PowerState), PPInv g s →
      scanEpoch g alpha rmaxp fuel s = some s1 →
      PPInv g s1 ∧ s1.rsum ≤ (g.m : ℚ) * rmaxp := by
  induction fuel with
  | zero =>
    intro s s1 h hrun
    simp only [scanEpoch] at hrun
    split at hrun
    · exact Option.noConfusion hrun
    · rename_i hle
      cases Option.some.inj hrun; exact ⟨h, not_lt.1 hle⟩
  | succ fuel ih =>
    intro s s1 h hrun
    simp only [scanEpoch] at hrun
    split at hrun
    · exact ih _ s1 (scanSweep_inv hg rmaxp ha1 h) hrun
    · rename_i hle
      cases Option.some.inj hrun; exact ⟨h, not_lt.1 hle⟩

theorem scanEpochs_inv {g : Graph} (hg : g.WF) {alpha : ℚ} (lambda : ℚ) (ha1 : alpha ≤ 1)
    (fuel : Nat) (is : List Nat) : ∀ (s s1 : PowerState), PPInv g s →
      scanEpochs g alpha lambda fuel is s = some s1 →
      PPInv g s1 ∧ ∀ i, is.getLast? = some i →
        s1.rsum ≤ (g.m : ℚ) * powerpush_rmaxp lambda g.m i := by
  induction is with
  | nil =>
    intro s s1 h hrun
    simp only [scanEpochs, Option.some.injEq] at hrun
    subst hrun
    exact ⟨h, fun i hi => by simp at hi⟩
  | cons i is ih =>
    intro s s1 h hrun
    simp only [scanEpochs] at hrun
    cases hep : scanEpoch g alpha (powerpush_rmaxp lambda g.m i) fuel s with
    | none => rw [hep] at hrun; exact Option.noConfusion hrun
    | some s2 =>
      rw [hep] at hrun
      obtain ⟨h2, hle2⟩ := scanEpoch_inv hg _ ha1 fuel s s2 h hep
      obtain ⟨h1, hlast⟩ := ih s2 s1 h2 hrun
      refine ⟨h1, fun j hj => ?_⟩
      cases is with
      | nil =>
        simp only [scanEpochs, Option.some.injEq] at hrun
        subst hrun
        simp only [List.getLast?_singleton, Option.some.injEq] at hj
        subst hj
        exact hle2
      | cons i2 is2 =>
        rw [List.getLast?_cons_cons] at hj
        exact hlast j hj

/-- C26 (Power Push meets its residual budget): on a well-formed graph with `m > 0` and
`alpha ≤ 1`, whenever `ppr_powerpush` returns `(ppr, r)`, the total residual `sum(r)` is at
most `lambda`: the tracked `rsum` never falls below `sum(r)`, the function returns either
after the queue phase with `rsum ≤ lambda` or after the last epoch, whose loop runs until
`rsum ≤ g.m * (lambda / g.m)`. -/
theorem ppr_powerpush_budget (g : Graph) (source : Nat) (alpha lambda : ℚ)
    (hg : g.WF) (hs : source < g.n) (hm : 0 < g.m) (ha1 : alpha ≤ 1)
    (fuel : Nat) (ppr r : List ℚ)
    (h : ppr_powerpush g source alpha lambda fuel = some (ppr, r)) :
    r.sum ≤ lambda := by
  unfold ppr_powerpush at h
  obtain ⟨hinit, hqinit⟩ := ppInit_inv g hs
  cases hq : ppQueueLoop g alpha lambda fuel (ppInit g source) with
  | none => rw [hq] at h; exact Option.noConfusion h
  | some s =>
    rw [hq] at h
    have hinv := ppQueueLoop_inv hg ha1 fuel _ s hinit hqinit hq
    simp only at h
    split at h
    · cases hsc : scanEpochs g alpha lambda fuel ((List.range epoch_num).map (· + 1)) s with
      | none => rw [hsc] at h; exact Option.noConfusion h
      | some s1 =>
        rw [hsc] at h
        simp only [Option.map_some', Option.some.injEq, Prod.mk.injEq] at h
        obtain ⟨h1, hlast⟩ := scanEpochs_inv hg lambda ha1 fuel _ s s1 hinv hsc
        have h8 := hlast 8 (by decide)
        have hm0 : (g.m : ℚ) ≠ 0 := Nat.cast_ne_zero.2 (by omega)
        have hthr : (g.m : ℚ) * powerpush_rmaxp lambda g.m 8 = lambda := by
          show (g.m : ℚ) * (lambda ^ 1 / (g.m : ℚ)) = lambda
          rw [pow_one]
          field_simp
        rw [hthr] at h8
        rw [← h.2]
        exact le_trans h1.sum_le h8
    · rename_i hle
      simp only [Option.some.injEq, Prod.mk.injEq] at h
      rw [← h.2]
      exact le_trans hinv.sum_le (not_lt.1 hle)

/-- Witness for C26: the cycle `0 → 1 → 0` with `alpha = 1/2` and `lambda = 1/4`. -/
theorem ppr_powerpush_budget_witness :
    ppr_powerpush cycleGraph 0 (1/2) (1/4) 10 = some ([1/2, 1/4], [1/4, 0]) ∧
    ([1/4, 0] : List ℚ).sum ≤ 1/4 :=
  ⟨by decide!, ppr_powerpush_budget cycleGraph 0 (1/2) (1/4) (by decide) (by decide)
    (by decide) (by norm_num) 10 [1/2, 1/4] [1/4, 0] (by decide!)⟩

/-- C24 (Power Push epoch thresholds), the code at the failing input: the exponent
`i / epoch_num` is an integer quotient, so the threshold is `1 / m` in the epochs 1 to 7 and
`lambda / m` in epoch 8.  With `lambda = 1/256` and `m = 2` the threshold of epoch 1 is `1/2`
(the claim gives `lambda^(1/8) / m = 1/4`), it does not decrease from epoch 1 to epoch 2,
and on the cycle `0 → 1 → 0` the loops of the epochs 1 to 7 do not scan at all. -/
theorem powerpush_epoch_thresholds :
    (∀ (lambda : ℚ) (m i : Nat), i ∈ [1, 2, 3, 4, 5, 6, 7] →
      powerpush_rmaxp lambda m i = 1 / (m : ℚ)) ∧
    (∀ (lambda : ℚ) (m : Nat), powerpush_rmaxp lambda m 8 = lambda / (m : ℚ)) ∧
    powerpush_rmaxp (1/256) 2 1 = 1/2 ∧
    (powerpush_rmaxp (1/256) 2 1 * 2) ^ 8 ≠ (1/256 : ℚ) ^ 1 ∧
    ¬ (powerpush_rmaxp (1/256) 2 2 < powerpush_rmaxp (1/256) 2 1) ∧
    scanEpochs cycleGraph (1/2) (1/256) 1 [1, 2, 3, 4, 5, 6, 7] (ppInit cycleGraph 0)
      = some (ppInit cycleGraph 0) := by
  refine ⟨fun lambda m i hi => ?_, fun lambda m => ?_, by decide!, by decide!, by decide!,
    by decide!⟩
  · have hq : i / epoch_num = 0 := by
      simp only [List.mem_cons, List.mem_singleton, List.not_mem_nil, or_false] at hi
      rcases hi with rfl | rfl | rfl | rfl | rfl | rfl | rfl <;> rfl
    simp only [powerpush_rmaxp, hq, pow_zero]
  · show lambda ^ 1 / (m : ℚ) = lambda / (m : ℚ)
    rw [pow_one]

/-! ## Estimators completed by random walks -/

theorem completeWalks_zero (g : Graph) (alpha : ℚ) (fuel : Nat) (r : List ℚ)
    (nodes : List Nat) : ∀ (ppr : List ℚ) (draws : List Nat),
      completeWalks g alpha fuel r (fun _ => 0) nodes ppr draws = .ok ppr draws := by
  induction nodes with
  | nil => intro ppr draws; rfl
  | cons u us ih =>
    intro ppr draws
    rw [completeWalks]
    split
    · simp only [walkLoop]
      exact ih ppr draws
    · exact ih ppr draws

/-- C21 (Forward Push determinism): `ppr_forwardpush` is a function of the graph, the
source, `alpha` and `rmax`: it takes no generator outputs, and any two runs that return
(whatever fuel the model was given) return the same `(ppr, r)`.  A caller's generator
outputs pass through it untouched: `ppr_forarw_skelton` with `rw_num = 0`, which calls
`ppr_forwardpush` and then runs no walk, returns the `ppr` of Forward Push together with
all the outputs it was given. -/
theorem ppr_forwardpush_deterministic (g : Graph) (source : Nat) (alpha rmax : ℚ)
    (fuel1 fuel2 : Nat) (p1 p2 : List ℚ × List ℚ)
    (h1 : ppr_forwardpush g source alpha rmax fuel1 = some p1)
    (h2 : ppr_forwardpush g source alpha rmax fuel2 = some p2) :
    p1 = p2 ∧
    ∀ draws, ppr_forarw_skelton g source alpha rmax 0 fuel1 draws = .ok p1.1 draws := by
  constructor
  · have e1 : ppr_forwardpush g source alpha rmax fuel1 = some (p1.1, p1.2) := h1
    have e2 : ppr_forwardpush g source alpha rmax fuel2 = some (p2.1, p2.2) := h2
    obtain ⟨s1, hl1, hp1, hr1⟩ := ppr_forwardpush_eq_some e1
    obtain ⟨s2, hl2, hp2, hr2⟩ := ppr_forwardpush_eq_some e2
    have hs : s1 = s2 := by
      rcases Nat.le_total fuel1 fuel2 with hle | hle
      · obtain ⟨k, rfl⟩ := Nat.exists_eq_add_of_le hle
        have := fpLoop_mono fuel1 _ s1 k hl1
        rw [hl2] at this
        exact (Option.some.inj this).symm
      · obtain ⟨k, rfl⟩ := Nat.exists_eq_add_of_le hle
        have := fpLoop_mono fuel2 _ s2 k hl2
        rw [hl1] at this
        exact Option.some.inj this
    subst hs
    exact Prod.ext (hp1.symm.trans hp2) (hr1.symm.trans hr2)
  · intro draws
    unfold ppr_forarw_skelton
    rw [h1]
    exact completeWalks_zero g alpha fuel1 p1.2 _ p1.1 draws

/-- Witness for C21: the cycle `0 → 1 → 0` with `alpha = 1/2`, `rmax = 1/4`, run with fuel
10 and with fuel 12. -/
theorem ppr_forwardpush_deterministic_witness :
    ppr_forwardpush cycleGraph 0 (1/2) (1/4) 10 = some ([1/2, 1/4], [1/4, 0]) ∧
    ppr_forarw_skelton cycleGraph 0 (1/2) (1/4) 0 10 [7, 8, 9] = .ok [1/2, 1/4] [7, 8, 9] :=
  ⟨by decide!, (ppr_forwardpush_deterministic cycleGraph 0 (1/2) (1/4) 10 12
    ([1/2, 1/4], [1/4, 0]) ([1/2, 1/4], [1/4, 0]) (by decide!) (by decide!)).2 [7, 8, 9]⟩

theorem forwardpush_unbounded_eq (g : Graph) (source : Nat) (alpha : ℚ) :
    forwardpush_unbounded g source alpha
      = ((pushStep g alpha 0 source (fpInit g source)).ppr,
          (pushStep g alpha 0 source (fpInit g source)).r) := by
  simp only [forwardpush_unbounded, pushStep, pushNeighbors_fst]

/-- C25 (SpeedPPR residual budget), the code at the failing input: `g.m / w` divides two
unsigned integers, so `lambda` is `0` whenever `w > m`.  With `eps = delta = pf = 1` the
budget is `w = 3` (for every value of `std::log(2.0)` between `0.69` and `0.70`), and on the
cycle `0 → 1 → 0` (`m = 2`) the code passes `lambda = 0` to Power Push, where the real
quotient is `2/3 > 0`. -/
theorem speedppr_lambda_truncates :
    (∀ flog : ℚ → ℚ, 69/100 < flog 2 → flog 2 < 7/10 →
      speedppr_w flog 1 1 1 = 3 ∧
      speedppr_lambda cycleGraph.m (speedppr_w flog 1 1 1) = 0) ∧
    speedppr_lambda cycleGraph.m (speedppr_w (fun _ => 693/1000) 1 1 1) = 0 ∧
    (0 : ℚ) < (cycleGraph.m : ℚ) / ((speedppr_w (fun _ => 693/1000) 1 1 1 : Nat) : ℚ) ∧
    (∀ m w : Nat, m < w → speedppr_lambda m w = 0) := by
  have hgen : ∀ m w : Nat, m < w → speedppr_lambda m w = 0 := by
    intro m w h
    unfold speedppr_lambda
    rw [Nat.div_eq_of_lt h]; rfl
  refine ⟨fun flog h1 h2 => ?_, by decide!, by decide!, hgen⟩
  have hval : 2 * ((2 * 1 / 3 + 2) * flog (2 / 1)) / (1 * 1 * 1) = 16 / 3 * flog 2 := by
    norm_num; ring
  have hw : speedppr_w flog 1 1 1 = 3 := by
    unfold speedppr_w
    rw [hval, Nat.floor_eq_iff (by linarith)]
    constructor <;> norm_num <;> linarith
  exact ⟨hw, by rw [hw]; exact hgen _ _ (by decide)⟩

/-! ## `ppr_ppw` -/

/-- C29 (PPW sample contribution), the code at the failing input: on the cycle `0 → 1 → 0`
with `alpha = 1/2`, `pi_num = 1`, `sample_size = 4`, `batch_size = 2` (two samples per
batch), the first batch leaves `ppr = [1/2, 1/2]` when its walks end at 0 and at 1.  In the
second batch `r = [1/2, -1/2]` and `rabs = [1/2, 1/2]`, whose sum is `1`, but
`std::accumulate(..., 0)` returns the `int` `0`, so each sample adds `0` instead of
`+1/2` or `-1/2`, and the function returns `[1/2, 1/2]`. -/
theorem ppw_contribution_truncates :
    ppw_sampleLoop cycleGraph (1/2) 5 [1, 0] [1, 0] 2 2 [0, 0] [0, 0, 0, 0, 0, 2 ^ 31, 0, 0]
      = .ok [1/2, 1/2] [] ∧
    ppw_r cycleGraph (1/2) [1, 0] [1/2, 1/2] = [1/2, -1/2] ∧
    ppw_rabs [1/2, -1/2] = [1/2, 1/2] ∧
    ([1/2, 1/2] : List ℚ).sum = 1 ∧
    accumulate_int [1/2, 1/2] = 0 ∧
    ppw_contribution [1/2, -1/2] [1/2, 1/2] 2 0 = 0 ∧
    ppw_contribution [1/2, -1/2] [1/2, 1/2] 2 1 = 0 ∧
    ppw_sampleLoop cycleGraph (1/2) 5 [1/2, -1/2] [1/2, 1/2] 2 2 [1/2, 1/2]
      [0, 0, 0, 2 ^ 31, 0, 0] = .ok [1/2, 1/2] [] ∧
    ppr_ppw cycleGraph 0 (1/2) 1 4 2 5 [0, 0, 0, 0, 0, 2 ^ 31, 0, 0, 0, 0, 0, 2 ^ 31, 0, 0]
      = .ok [1/2, 1/2] [] := by
  refine ⟨by decide!, by decide!, by decide!, by norm_num, by decide!, by decide!, by decide!,
    by decide!, by decide!⟩

theorem foldl_add_scaled (c d : ℚ) (x : List ℚ) (l : List Nat) :
    ∀ a : ℚ, l.foldl (fun acc v => acc + c * x.getD v 0 / d) a
      = a + c * ((l.map fun v => x.getD v 0).sum / d) := by
  induction l with
  | nil => intro a; simp
  | cons v l ih =>
    intro a
    rw [List.foldl_cons, ih, List.map_cons, List.sum_cons]
    ring

theorem getD_map_range (f : Nat → ℚ) (n u : Nat) :
    ((List.range n).map f).getD u 0 = if u < n then f u else 0 := by
  by_cases hu : u < n
  · rw [if_pos hu, List.getD_eq_getElem _ _ (by simpa using hu)]
    simp
  · rw [if_neg hu, List.getD_eq_default _ _ (by simp; omega)]

theorem ppw_spread_eq (g : Graph) (alpha : ℚ) (x : List ℚ) (u : Nat) (hu : u < g.n) :
    ppw_spread g alpha x u = (1 - alpha) * (transitionP g x).getD u 0 := by
  unfold ppw_spread transitionP
  rw [foldl_add_scaled, getD_map_range, if_pos hu, zero_add]

theorem transitionP_length (g : Graph) (x : List ℚ) : (transitionP g x).length = g.n := by
  simp [transitionP]

theorem transitionP_scale (g : Graph) (c : ℚ) (x y : List ℚ)
    (h : ∀ i, x.getD i 0 = c * y.getD i 0) :
    ∀ i, (transitionP g x).getD i 0 = c * (transitionP g y).getD i 0 := by
  intro i
  unfold transitionP
  rw [getD_map_range, getD_map_range]
  by_cases hi : i < g.n
  · rw [if_pos hi, if_pos hi]
    have : ((g.get_neighbors i).map fun v => x.getD v 0)
        = (g.get_neighbors i).map fun v => c * y.getD v 0 := by
      apply List.map_congr_left
      intro v _
      exact h v
    rw [this, List.sum_map_mul_left]
    ring
  · rw [if_neg hi, if_neg hi, mul_zero]

theorem transitionP_iterate_scale (g : Graph) (c : ℚ) (k : Nat) :
    ∀ (x y : List ℚ), (∀ i, x.getD i 0 = c * y.getD i 0) →
      ∀ i, ((transitionP g)^[k] x).getD i 0 = c * ((transitionP g)^[k] y).getD i 0 := by
  induction k with
  | zero => intro x y h i; exact h i
  | succ k ih =>
    intro x y h i
    rw [Function.iterate_succ_apply, Function.iterate_succ_apply]
    exact ih _ _ (transitionP_scale g c x y h) i

/-- The state after the nodes `0, ..., k-1` of one power iteration. -/
theorem pi_node_prefix (g : Graph) (alpha : ℚ) (st pt : List ℚ) (s : PIState)
    (hP : s.ppr.length = g.n) (hS : s.facpsigma.length = g.n) (hF : s.facpppr.length = g.n)
    (k : Nat) (hk : k ≤ g.n) :
    ((List.range k).foldl (pi_node g alpha st pt) s).ppr.length = g.n ∧
    ((List.range k).foldl (pi_node g alpha st pt) s).facpsigma.length = g.n ∧
    ((List.range k).foldl (pi_node g alpha st pt) s).facpppr.length = g.n ∧
    ∀ i,
      ((List.range k).foldl (pi_node g alpha st pt) s).ppr.getD i 0
        = (if i < k then s.ppr.getD i 0 + alpha * s.facpsigma.getD i 0 else s.ppr.getD i 0) ∧
      ((List.range k).foldl (pi_node g alpha st pt) s).facpsigma.getD i 0
        = (if i < k then ppw_spread g alpha st i else s.facpsigma.getD i 0) ∧
      ((List.range k).foldl (pi_node g alpha st pt) s).facpppr.getD i 0
        = (if i < k then ppw_spread g alpha pt i else s.facpppr.getD i 0) := by
  induction k with
  | zero => exact ⟨hP, hS, hF, fun i => by simp⟩
  | succ k ih =>
    obtain ⟨h1, h2, h3, h4⟩ := ih (by omega)
    rw [List.range_succ, List.foldl_append, List.foldl_cons, List.foldl_nil]
    generalize (List.range k).foldl (pi_node g alpha st pt) s = t at h1 h2 h3 h4
    refine ⟨by simp [pi_node, h1], by simp [pi_node, h2], by simp [pi_node, h3], fun i => ?_⟩
    obtain ⟨hk1, hk2, hk3⟩ := h4 k
    rw [if_neg (lt_irrefl k)] at hk1 hk2 hk3
    obtain ⟨hi1, hi2, hi3⟩ := h4 i
    simp only [pi_node]
    by_cases hik : k = i
    · subst hik
      rw [getD_set_self _ _ _ _ (by omega), getD_set_self _ _ _ _ (by omega),
        getD_set_self _ _ _ _ (by omega), if_pos (Nat.lt_succ_self k), if_pos (Nat.lt_succ_self k),
        if_pos (Nat.lt_succ_self k), hk1, hk2]
      exact ⟨rfl, rfl, rfl⟩
    · rw [getD_set_ne _ _ _ hik, getD_set_ne _ _ _ hik, getD_set_ne _ _ _ hik, hi1, hi2, hi3]
      have hiff : i < k + 1 ↔ i < k := by omega
      simp only [hiff, and_self]

theorem pi_sweep_spec (g : Graph) (alpha : ℚ) (s : PIState)
    (hP : s.ppr.length = g.n) (hS : s.facpsigma.length = g.n) (hF : s.facpppr.length = g.n) :
    (pi_sweep g alpha s).ppr.length = g.n ∧
    (pi_sweep g alpha s).facpsigma.length = g.n ∧
    (pi_sweep g alpha s).facpppr.length = g.n ∧
    ∀ i,
      (pi_sweep g alpha s).ppr.getD i 0 = s.ppr.getD i 0 + alpha * s.facpsigma.getD i 0 ∧
      (pi_sweep g alpha s).facpsigma.getD i 0
        = (1 - alpha) * (transitionP g s.facpsigma).getD i 0 ∧
      (pi_sweep g alpha s).facpppr.getD i 0
        = (1 - alpha) * (transitionP g s.facpppr).getD i 0 := by
  obtain ⟨h1, h2, h3, h4⟩ :=
    pi_node_prefix g alpha s.facpsigma s.facpppr s hP hS hF g.n (le_refl _)
  refine ⟨h1, h2, h3, fun i => ?_⟩
  obtain ⟨hi1, hi2, hi3⟩ := h4 i
  unfold pi_sweep
  rw [hi1, hi2, hi3]
  by_cases hi : i < g.n
  · rw [if_pos hi, if_pos hi, if_pos hi, ppw_spread_eq g alpha _ i hi,
      ppw_spread_eq g alpha _ i hi]
    exact ⟨rfl, rfl, rfl⟩
  · rw [if_neg hi, if_neg hi, if_neg hi]
    have z1 : s.facpsigma.getD i 0 = 0 := List.getD_eq_default _ _ (by omega)
    have z2 : s.facpppr.getD i 0 = 0 := List.getD_eq_default _ _ (by omega)
    have z3 : (transitionP g s.facpsigma).getD i 0 = 0 :=
      List.getD_eq_default _ _ (by rw [transitionP_length]; omega)
    have z4 : (transitionP g s.facpppr).getD i 0 = 0 :=
      List.getD_eq_default _ _ (by rw [transitionP_length]; omega)
    rw [z1, z2, z3, z4]
    simp

theorem pi_iterate_spec (g : Graph) (alpha : ℚ) (k : Nat) :
    ∀ (s : PIState), s.ppr.length = g.n → s.facpsigma.length = g.n →
      s.facpppr.length = g.n →
      (pi_iterate g alpha k s).ppr.length = g.n ∧
      (pi_iterate g alpha k s).facpppr.length = g.n ∧
      ∀ i,
        (pi_iterate g alpha k s).ppr.getD i 0
          = s.ppr.getD i 0 + (Finset.range k).sum (fun j =>
              alpha * (1 - alpha) ^ j * ((transitionP g)^[j] s.facpsigma).getD i 0) ∧
        (pi_iterate g alpha k s).facpppr.getD i 0
          = (1 - alpha) ^ k * ((transitionP g)^[k] s.facpppr).getD i 0 := by
  induction k with
  | zero => intro s hP _ hF; exact ⟨hP, hF, fun i => by simp [pi_iterate]⟩
  | succ k ih =>
    intro s hP hS hF
    obtain ⟨h1, h2, h3, h4⟩ := pi_sweep_spec g alpha s hP hS hF
    obtain ⟨g1, g2, g3⟩ := ih (pi_sweep g alpha s) h1 h2 h3
    rw [pi_iterate]
    refine ⟨g1, g2, fun i => ?_⟩
    obtain ⟨gi1, gi2⟩ := g3 i
    have hsig : ∀ j i, ((transitionP g)^[j] (pi_sweep g alpha s).facpsigma).getD i 0
        = (1 - alpha) * ((transitionP g)^[j + 1] s.facpsigma).getD i 0 := by
      intro j i
      rw [Function.iterate_succ_apply]
      exact transitionP_iterate_scale g (1 - alpha) j _ _ (fun v => (h4 v).2.1) i
    have hppr : ((transitionP g)^[k] (pi_sweep g alpha s).facpppr).getD i 0
        = (1 - alpha) * ((transitionP g)^[k + 1] s.facpppr).getD i 0 := by
      rw [Function.iterate_succ_apply]
      exact transitionP_iterate_scale g (1 - alpha) k _ _ (fun v => (h4 v).2.2) i
    constructor
    · rw [gi1, (h4 i).1, Finset.sum_range_succ']
      simp only [hsig, Function.iterate_zero, id_eq, pow_zero, mul_one]
      have : ∀ j, alpha * (1 - alpha) ^ j
            * ((1 - alpha) * ((transitionP g)^[j + 1] s.facpsigma).getD i 0)
          = alpha * (1 - alpha) ^ (j + 1) * ((transitionP g)^[j + 1] s.facpsigma).getD i 0 := by
        intro j; ring
      simp only [this]
      ring
    · rw [gi2, hppr]; ring

theorem pi_finish_spec (g : Graph) (s : PIState) (hP : s.ppr.length = g.n) :
    (pi_finish g s).length = g.n ∧
    ∀ i, i < g.n → (pi_finish g s).getD i 0 = s.ppr.getD i 0 + s.facpppr.getD i 0 := by
  unfold pi_finish
  have key : ∀ k, k ≤ g.n →
      ((List.range k).foldl (fun p u => p.set u (p.getD u 0 + s.facpppr.getD u 0)) s.ppr).length
        = g.n ∧
      ∀ i, ((List.range k).foldl (fun p u => p.set u (p.getD u 0 + s.facpppr.getD u 0))
          s.ppr).getD i 0
        = if i < k then s.ppr.getD i 0 + s.facpppr.getD i 0 else s.ppr.getD i 0 := by
    intro k
    induction k with
    | zero => intro _; exact ⟨hP, fun i => by simp⟩
    | succ k ih =>
      intro hk
      obtain ⟨h1, h2⟩ := ih (by omega)
      rw [List.range_succ, List.foldl_append, List.foldl_cons, List.foldl_nil]
      generalize (List.range k).foldl
        (fun p u => p.set u (p.getD u 0 + s.facpppr.getD u 0)) s.ppr = t at h1 h2
      refine ⟨by simp [h1], fun i => ?_⟩
      by_cases hik : k = i
      · subst hik
        rw [getD_set_self _ _ _ _ (by omega), if_pos (Nat.lt_succ_self k), h2 k,
          if_neg (lt_irrefl k)]
      · rw [getD_set_ne _ _ _ hik, h2 i]
        have hiff : i < k + 1 ↔ i < k := by omega
        simp only [hiff]
  obtain ⟨h1, h2⟩ := key g.n (le_refl _)
  exact ⟨h1, fun i hi => by rw [h2 i, if_pos hi]⟩

/-- C30 (PPW power-iteration correction): for `1 ≤ pi_num` and vectors `sigma`, `ppr` of
length `n`, the power-iteration block returns a vector of length `n` whose entry `u` is
`sum_{k < K} alpha (1-alpha)^k (P^k sigma)[u] + (1-alpha)^K (P^K ppr)[u]` with
`K = pi_num - 1`, where `(P x)[u]` is the average of `x` over the out-neighbours of `u`
(`0` when there is none). -/
theorem ppw_power_eq_formula (g : Graph) (alpha : ℚ) (pi_num : Nat) (sigma ppr : List ℚ)
    (hpi : 1 ≤ pi_num) (hpi64 : pi_num < 2 ^ 64) (hsig : sigma.length = g.n)
    (hppr : ppr.length = g.n) :
    (ppw_power g alpha pi_num sigma ppr).length = g.n ∧
    ∀ u, u < g.n → (ppw_power g alpha pi_num sigma ppr).getD u 0
      = ppw_power_formula g alpha (pi_num - 1) sigma ppr u := by
  have hK : (pi_num + 2 ^ 64 - 1) % 2 ^ 64 = pi_num - 1 := by
    have : pi_num + 2 ^ 64 - 1 = (pi_num - 1) + 2 ^ 64 := by omega
    rw [this, Nat.add_mod_right, Nat.mod_eq_of_lt (by omega)]
  unfold ppw_power
  rw [hK]
  obtain ⟨h1, _, h3⟩ := pi_iterate_spec g alpha (pi_num - 1)
    ⟨List.replicate ppr.length 0, sigma, ppr⟩ (by simp [hppr]) hsig hppr
  obtain ⟨f1, f2⟩ := pi_finish_spec g _ h1
  refine ⟨f1, fun u hu => ?_⟩
  rw [f2 u hu, (h3 u).1, (h3 u).2, getD_replicate, zero_add]
  rfl

/-- Witness for C30: the cycle `0 → 1 → 0`, `alpha = 1/2`, `pi_num = 3`, `sigma = [1, 0]`,
`ppr = [1/2, 1/2]`: the block returns `[5/8, 3/8]`. -/
theorem ppw_power_eq_formula_witness :
    ppw_power cycleGraph (1/2) 3 [1, 0] [1/2, 1/2] = [5/8, 3/8] ∧
    ∀ u, u < 2 → (ppw_power cycleGraph (1/2) 3 [1, 0] [1/2, 1/2]).getD u 0
      = ppw_power_formula cycleGraph (1/2) 2 [1, 0] [1/2, 1/2] u :=
  ⟨by decide!, (ppw_power_eq_formula cycleGraph (1/2) 3 [1, 0] [1/2, 1/2] (by decide)
    (by decide) (by decide) (by decide)).2⟩

/-! ## The dispatcher -/

theorem fpLoop_length {g : Graph} {alpha rmax : ℚ} (fuel : Nat) :
    ∀ (s s1 : PushState), fpLoop g alpha rmax fuel s = some s1 →
      s1.ppr.length = s.ppr.length := by
  induction fuel with
  | zero =>
    intro s s1 h
    simp only [fpLoop] at h
    split at h
    · cases Option.some.inj h; rfl
    · exact Option.noConfusion h
  | succ fuel ih =>
    intro s s1 h
    simp only [fpLoop] at h
    cases hit : fpIter g alpha rmax s with
    | none => rw [hit] at h; cases Option.some.inj h; rfl
    | some s2 =>
      rw [hit] at h
      obtain ⟨u, rest, _, _, rfl⟩ := fpIter_eq_some hit
      rw [ih _ s1 h]
      simp [pushStep]

theorem forwardpush_first_length {g : Graph} {source : Nat} {alpha rmax : ℚ} {fuel : Nat}
    {draws : List Nat} {res : List ℚ} {rest : List Nat}
    (h : forwardpush_first g source alpha rmax fuel draws = .ok res rest) :
    res.length = g.n := by
  unfold forwardpush_first at h
  cases hfp : ppr_forwardpush g source alpha rmax fuel with
  | none => rw [hfp] at h; exact Run.noConfusion h
  | some pr =>
    obtain ⟨ppr, r⟩ := pr
    rw [hfp] at h
    simp only [Run.ok.injEq] at h
    obtain ⟨s1, hloop, hp, _⟩ := ppr_forwardpush_eq_some hfp
    rw [← h.1, ← hp, fpLoop_length fuel _ s1 hloop]
    simp [fpInit]

theorem walkLoop_length (g : Graph) (alpha : ℚ) (fuel u : Nat) (inc : ℚ) (count : Nat) :
    ∀ (ppr : List ℚ) (draws : List Nat) (ppr1 : List ℚ) (rest : List Nat),
      walkLoop g alpha fuel u inc count ppr draws = .ok ppr1 rest →
      ppr1.length = ppr.length := by
  induction count with
  | zero =>
    intro ppr draws ppr1 rest h
    simp only [walkLoop, Run.ok.injEq] at h
    rw [← h.1]
  | succ count ih =>
    intro ppr draws ppr1 rest h
    rw [walkLoop] at h
    cases hw : random_walk g alpha fuel u draws with
    | ok v rest1 =>
      rw [hw] at h
      rw [ih _ _ _ _ h, List.length_set]
    | noNeighbors rest1 => rw [hw] at h; exact Run.noConfusion h
    | starved => rw [hw] at h; exact Run.noConfusion h

theorem completeWalks_length (g : Graph) (alpha : ℚ) (fuel : Nat) (r : List ℚ)
    (cnt : Nat → Nat) (nodes : List Nat) :
    ∀ (ppr : List ℚ) (draws : List Nat) (ppr1 : List ℚ) (rest : List Nat),
      completeWalks g alpha fuel r cnt nodes ppr draws = .ok ppr1 rest →
      ppr1.length = ppr.length := by
  induction nodes with
  | nil =>
    intro ppr draws ppr1 rest h
    simp only [completeWalks, Run.ok.injEq] at h
    rw [← h.1]
  | cons u us ih =>
    intro ppr draws ppr1 rest h
    rw [completeWalks] at h
    split at h
    · cases hw : walkLoop g alpha fuel u (r.getD u 0 / (cnt u : ℚ)) (cnt u) ppr draws with
      | ok pprm restm =>
        rw [hw] at h
        rw [ih _ _ _ _ h, walkLoop_length g alpha fuel u _ _ _ _ _ _ hw]
      | noNeighbors restm => rw [hw] at h; exact Run.noConfusion h
      | starved => rw [hw] at h; exact Run.noConfusion h
    · exact ih _ _ _ _ h

theorem foldl_length_of_step {σ : Type} (len : σ → Nat) (f : σ → Nat → σ)
    (hf : ∀ s u, len (f s u) = len s) (us : List Nat) :
    ∀ s, len (us.foldl f s) = len s := by
  induction us with
  | nil => intro s; rfl
  | cons u us ih => intro s; rw [List.foldl_cons, ih, hf]

theorem ppQueueLoop_length {g : Graph} {alpha lambda : ℚ} (fuel : Nat) :
    ∀ (s s1 : PowerState), ppQueueLoop g alpha lambda fuel s = some s1 →
      s1.ppr.length = s.ppr.length := by
  induction fuel with
  | zero =>
    intro s s1 h
    simp only [ppQueueLoop] at h
    split at h
    · exact Option.noConfusion h
    · cases Option.some.inj h; rfl
  | succ fuel ih =>
    intro s s1 h
    simp only [ppQueueLoop] at h
    split at h
    · cases hst : ppQueueStep g alpha lambda s with
      | none => rw [hst] at h; exact Option.noConfusion h
      | some s2 =>
        rw [hst] at h
        rw [ih _ s1 h]
        unfold ppQueueStep at hst
        cases hpop : s.queue.pop with
        | none => rw [hpop] at hst; exact Option.noConfusion hst
        | some uq =>
          rw [hpop] at hst
          simp only [Option.some.injEq] at hst
          subst hst
          simp [pushStep]
    · cases Option.some.inj h; rfl

theorem scanNode_length (g : Graph) (alpha rmaxp : ℚ) (s : PowerState) (u : Nat) :
    (scanNode g alpha rmaxp s u).ppr.length = s.ppr.length := by
  unfold scanNode
  split
  · simp
  · rfl

theorem scanEpoch_length {g : Graph} {alpha rmaxp : ℚ} (fuel : Nat) :
    ∀ (s s1 : PowerState), scanEpoch g alpha rmaxp fuel s = some s1 →
      s1.ppr.length = s.ppr.length := by
  induction fuel with
  | zero =>
    intro s s1 h
    simp only [scanEpoch] at h
    split at h
    · exact Option.noConfusion h
    · cases Option.some.inj h; rfl
  | succ fuel ih =>
    intro s s1 h
    simp only [scanEpoch] at h
    split at h
    · rw [ih _ s1 h]
      exact foldl_length_of_step (fun s => s.ppr.length) _ (scanNode_length g alpha rmaxp) _ s
    · cases Option.some.inj h; rfl

theorem scanEpochs_length {g : Graph} {alpha lambda : ℚ} (fuel : Nat) (is : List Nat) :
    ∀ (s s1 : PowerState), scanEpochs g alpha lambda fuel is s = some s1 →
      s1.ppr.length = s.ppr.length := by
  induction is with
  | nil =>
    intro s s1 h
    simp only [scanEpochs, Option.some.injEq] at h
    rw [h]
  | cons i is ih =>
    intro s s1 h
    simp only [scanEpochs] at h
    cases hep : scanEpoch g alpha (powerpush_rmaxp lambda g.m i) fuel s with
    | none => rw [hep] at h; exact Option.noConfusion h
    | some s2 =>
      rw [hep] at h
      rw [ih _ s1 h, scanEpoch_length fuel s s2 hep]

theorem ppr_powerpush_length {g : Graph} {source : Nat} {alpha lambda : ℚ} {fuel : Nat}
    {ppr r : List ℚ} (h : ppr_powerpush g source alpha lambda fuel = some (ppr, r)) :
    ppr.length = g.n := by
  unfold ppr_powerpush at h
  cases hq : ppQueueLoop g alpha lambda fuel (ppInit g source) with
  | none => rw [hq] at h; exact Option.noConfusion h
  | some s =>
    rw [hq] at h
    have hlen : s.ppr.length = g.n := by
      rw [ppQueueLoop_length fuel _ s hq]
      simp [ppInit, fpInit]
    simp only at h
    split at h
    · cases hsc : scanEpochs g alpha lambda fuel ((List.range epoch_num).map (· + 1)) s with
      | none => rw [hsc] at h; exact Option.noConfusion h
      | some s1 =>
        rw [hsc] at h
        simp only [Option.map_some', Option.some.injEq, Prod.mk.injEq] at h
        rw [← h.1, scanEpochs_length fuel _ s s1 hsc, hlen]
    · simp only [Option.some.injEq, Prod.mk.injEq] at h
      rw [← h.1, hlen]

theorem ppw_sampleLoop_length (g : Graph) (alpha : ℚ) (fuel : Nat) (r rabs : List ℚ)
    (spb : Nat) (i : Nat) :
    ∀ (ppr : List ℚ) (draws : List Nat) (ppr1 : List ℚ) (rest : List Nat),
      ppw_sampleLoop g alpha fuel r rabs spb i ppr draws = .ok ppr1 rest →
      ppr1.length = ppr.length := by
  induction i with
  | zero =>
    intro ppr draws ppr1 rest h
    simp only [ppw_sampleLoop, Run.ok.injEq] at h
    rw [← h.1]
  | succ i ih =>
    intro ppr draws ppr1 rest h
    rw [ppw_sampleLoop] at h
    cases hc : AliasSampler.construct rabs with
    | none => rw [hc] at h; exact Run.noConfusion h
    | some sampler =>
      rw [hc] at h
      simp only at h
      cases hd : sampler.draw draws with
      | none => rw [hd] at h; exact Run.noConfusion h
      | some sr =>
        obtain ⟨s, rest0⟩ := sr
        rw [hd] at h
        simp only at h
        cases hw : random_walk g alpha fuel s rest0 with
        | ok v rest1 =>
          rw [hw] at h
          rw [ih _ _ _ _ h, List.length_set]
        | noNeighbors rest1 => rw [hw] at h; exact Run.noConfusion h
        | starved => rw [hw] at h; exact Run.noConfusion h

theorem pi_iterate_length (g : Graph) (alpha : ℚ) (k : Nat) :
    ∀ s : PIState, (pi_iterate g alpha k s).ppr.length = s.ppr.length := by
  induction k with
  | zero => intro s; rfl
  | succ k ih =>
    intro s
    rw [pi_iterate, ih]
    exact foldl_length_of_step (fun s => s.ppr.length) (pi_node g alpha s.facpsigma s.facpppr)
      (fun s u => by simp [pi_node]) _ s

theorem ppw_power_length (g : Graph) (alpha : ℚ) (pi_num : Nat) (sigma ppr : List ℚ) :
    (ppw_power g alpha pi_num sigma ppr).length = ppr.length := by
  unfold ppw_power pi_finish
  rw [foldl_length_of_step (fun p : List ℚ => p.length) _ (fun p u => by simp) _ _,
    pi_iterate_length]
  simp

theorem ppw_batches_length (g : Graph) (alpha : ℚ) (pi_num spb : Nat) (sigma : List ℚ)
    (fuel : Nat) (b : Nat) :
    ∀ (ppr : List ℚ) (draws : List Nat) (ppr1 : List ℚ) (rest : List Nat),
      ppw_batches g alpha pi_num spb sigma fuel b ppr draws = .ok ppr1 rest →
      ppr1.length = ppr.length := by
  induction b with
  | zero =>
    intro ppr draws ppr1 rest h
    simp only [ppw_batches, Run.ok.injEq] at h
    rw [← h.1]
  | succ b ih =>
    intro ppr draws ppr1 rest h
    rw [ppw_batches] at h
    cases hs : ppw_sampleLoop g alpha fuel (ppw_r g alpha sigma ppr)
        (ppw_rabs (ppw_r g alpha sigma ppr)) spb spb ppr draws with
    | ok pprm restm =>
      rw [hs] at h
      rw [ih _ _ _ _ h, ppw_power_length, ppw_sampleLoop_length _ _ _ _ _ _ _ _ _ _ _ hs]
    | noNeighbors restm => rw [hs] at h; exact Run.noConfusion h
    | starved => rw [hs] at h; exact Run.noConfusion h

theorem SSPPR_length_aux (flog fsqrt : ℚ → ℚ) (g : Graph) (source : Nat) (alpha : ℚ)
    (q : SSPPRParams) (fuel : Nat) (draws : List Nat) (res : List ℚ) (rest : List Nat) :
    (ppr_rw g source alpha q.rw_num fuel draws = .ok res rest → res.length = g.n) ∧
    (ppr_forarw_skelton g source alpha q.rmax q.rw_num fuel draws = .ok res rest →
      res.length = g.n) ∧
    (ppr_fora flog fsqrt g source alpha q.eps q.delta q.pf fuel draws = .ok res rest →
      res.length = g.n) ∧
    (ppr_speedppr flog g source alpha q.eps q.delta q.pf fuel draws = .ok res rest →
      res.length = g.n) ∧
    (ppr_ppw g source alpha q.pi_num q.sample_size q.batch_size fuel draws = .ok res rest →
      res.length = g.n) := by
  refine ⟨fun h => ?_, fun h => ?_, fun h => ?_, fun h => ?_, fun h => ?_⟩
  · unfold ppr_rw at h
    rw [walkLoop_length _ _ _ _ _ _ _ _ _ _ h]; simp
  · unfold ppr_forarw_skelton at h
    cases hfp : ppr_forwardpush g source alpha q.rmax fuel with
    | none => rw [hfp] at h; exact Run.noConfusion h
    | some pr =>
      obtain ⟨ppr, r⟩ := pr
      rw [hfp] at h
      simp only at h
      rw [completeWalks_length _ _ _ _ _ _ _ _ _ _ h]
      have hx : forwardpush_first g source alpha q.rmax fuel draws = .ok ppr draws := by
        unfold forwardpush_first; rw [hfp]
      exact forwardpush_first_length hx
  · unfold ppr_fora at h
    simp only at h
    cases hfp : fora_forwardpush fsqrt g source alpha (fora_w flog q.eps q.delta q.pf)
        fuel with
    | none => rw [hfp] at h; exact Run.noConfusion h
    | some pr =>
      obtain ⟨ppr, r⟩ := pr
      rw [hfp] at h
      simp only at h
      rw [completeWalks_length _ _ _ _ _ _ _ _ _ _ h]
      unfold fora_forwardpush at hfp
      split at hfp
      · rw [forwardpush_unbounded_eq] at hfp
        simp only [Option.some.injEq, Prod.mk.injEq] at hfp
        rw [← hfp.1]
        simp [pushStep, fpInit]
      · have hx : forwardpush_first g source alpha
            (fsqrt (1 / ((g.m * fora_w flog q.eps q.delta q.pf % 2 ^ 64 : Nat) : ℚ))) fuel draws
              = .ok ppr draws := by
          unfold forwardpush_first; rw [hfp]
        exact forwardpush_first_length hx
  · unfold ppr_speedppr at h
    simp only at h
    cases hpp : ppr_powerpush g source alpha
        (speedppr_lambda g.m (speedppr_w flog q.eps q.delta q.pf)) fuel with
    | none => rw [hpp] at h; exact Run.noConfusion h
    | some pr =>
      obtain ⟨ppr, r⟩ := pr
      rw [hpp] at h
      simp only at h
      rw [completeWalks_length _ _ _ _ _ _ _ _ _ _ h]
      exact ppr_powerpush_length hpp
  · unfold ppr_ppw at h
    rw [ppw_batches_length _ _ _ _ _ _ _ _ _ _ _ h]; simp

/-- C17 (dispatcher method selection): `SSPPR` fails (with `invalid_argument`) if and only
if the method name is not one of "push", "forwardpush", "rw", "fora_skeleton", "fora",
"speedppr", "ppw"; for each of these names it returns the result of the corresponding
estimator, called with the parameters after the defaults ("push" and "forwardpush" both
give the `ppr` component of `ppr_forwardpush`); and every vector it returns has length
`n`. -/
theorem SSPPR_dispatch (flog fsqrt : ℚ → ℚ) (g : Graph) (source_val : Nat) (alpha : ℚ)
    (method : String) (p : SSPPRParams) (fuel : Nat) (draws : List Nat) :
    (SSPPR flog fsqrt g source_val alpha method p fuel draws = .error .invalid_argument
      ↔ method ∉ SSPPR_methods) ∧
    ((∃ e, SSPPR flog fsqrt g source_val alpha method p fuel draws = .error e)
      ↔ method ∉ SSPPR_methods) ∧
    (method = "push" ∨ method = "forwardpush" →
      SSPPR flog fsqrt g source_val alpha method p fuel draws
        = .ok (forwardpush_first g (source_val % 2 ^ 32) alpha
            (SSPPR_defaults g.n p).rmax fuel draws)) ∧
    (method = "rw" →
      SSPPR flog fsqrt g source_val alpha method p fuel draws
        = .ok (ppr_rw g (source_val % 2 ^ 32) alpha (SSPPR_defaults g.n p).rw_num fuel draws)) ∧
    (method = "fora_skeleton" →
      SSPPR flog fsqrt g source_val alpha method p fuel draws
        = .ok (ppr_forarw_skelton g (source_val % 2 ^ 32) alpha (SSPPR_defaults g.n p).rmax
            (SSPPR_defaults g.n p).rw_num fuel draws)) ∧
    (method = "fora" →
      SSPPR flog fsqrt g source_val alpha method p fuel draws
        = .ok (ppr_fora flog fsqrt g (source_val % 2 ^ 32) alpha (SSPPR_defaults g.n p).eps
            (SSPPR_defaults g.n p).delta (SSPPR_defaults g.n p).pf fuel draws)) ∧
    (method = "speedppr" →
      SSPPR flog fsqrt g source_val alpha method p fuel draws
        = .ok (ppr_speedppr flog g (source_val % 2 ^ 32) alpha (SSPPR_defaults g.n p).eps
            (SSPPR_defaults g.n p).delta (SSPPR_defaults g.n p).pf fuel draws)) ∧
    (method = "ppw" →
      SSPPR flog fsqrt g source_val alpha method p fuel draws
        = .ok (ppr_ppw g (source_val % 2 ^ 32) alpha (SSPPR_defaults g.n p).pi_num
            (SSPPR_defaults g.n p).sample_size (SSPPR_defaults g.n p).batch_size fuel draws)) ∧
    (∀ res rest, SSPPR flog fsqrt g source_val alpha method p fuel draws = .ok (.ok res rest) →
      res.length = g.n) := by
  have haux := SSPPR_length_aux flog fsqrt g (source_val % 2 ^ 32) alpha (SSPPR_defaults g.n p)
    fuel draws
  have hmem : method ∈ SSPPR_methods ↔ (method = "push" ∨ method = "forwardpush" ∨
      method = "rw" ∨ method = "fora_skeleton" ∨ method = "fora" ∨ method = "speedppr" ∨
      method = "ppw") := by
    simp [SSPPR_methods]
  have hiff : SSPPR flog fsqrt g source_val alpha method p fuel draws
      = .error .invalid_argument ↔ method ∉ SSPPR_methods := by
    rw [hmem]
    unfold SSPPR
    simp only
    split_ifs with c1 c2 c3 c4 c5 c6
    · simp only [reduceCtorEq, false_iff, not_not]; tauto
    · simp only [reduceCtorEq, false_iff, not_not]; tauto
    · simp only [reduceCtorEq, false_iff, not_not]; tauto
    · simp only [reduceCtorEq, false_iff, not_not]; tauto
    · simp only [reduceCtorEq, false_iff, not_not]; tauto
    · simp only [reduceCtorEq, false_iff, not_not]; tauto
    · simp only [true_iff]; tauto
  refine ⟨hiff, ⟨fun ⟨e, he⟩ => ?_, fun h => ⟨_, hiff.2 h⟩⟩, ?_, ?_, ?_, ?_, ?_, ?_, ?_⟩
  · cases e
    exact hiff.1 he
  · intro hm
    unfold SSPPR
    rw [if_pos hm]
  · rintro rfl
    unfold SSPPR
    rw [if_neg (by decide), if_pos rfl]
  · rintro rfl
    unfold SSPPR
    rw [if_neg (by decide), if_neg (by decide), if_pos rfl]
  · rintro rfl
    unfold SSPPR
    rw [if_neg (by decide), if_neg (by decide), if_neg (by decide), if_pos rfl]
  · rintro rfl
    unfold SSPPR
    rw [if_neg (by decide), if_neg (by decide), if_neg (by decide), if_neg (by decide),
      if_pos rfl]
  · rintro rfl
    unfold SSPPR
    rw [if_neg (by decide), if_neg (by decide), if_neg (by decide), if_neg (by decide),
      if_neg (by decide), if_pos rfl]
  · intro res rest h
    unfold SSPPR at h
    simp only at h
    split_ifs at h with c1 c2 c3 c4 c5 c6
    · exact forwardpush_first_length (Except.ok.inj h)
    · exact (haux res rest).1 (Except.ok.inj h)
    · exact (haux res rest).2.1 (Except.ok.inj h)
    · exact (haux res rest).2.2.1 (Except.ok.inj h)
    · exact (haux res rest).2.2.2.1 (Except.ok.inj h)
    · exact (haux res rest).2.2.2.2 (Except.ok.inj h)

/-- C18 (dispatcher defaults): each of the eight parameters is replaced by its default when
it is zero (`eps = 0.1`, `delta = 1/n`, `pf = 1/n`, `rmax = 1e-4`, `rw_num = 1000`,
`pi_num = 10`, `sample_size = 100`, `batch_size = 10`, with `n` the node count of the
graph) and kept when it is not, and the selected estimator is called with the values so
obtained. -/
theorem SSPPR_defaults_applied (flog fsqrt : ℚ → ℚ) (g : Graph) (source_val : Nat) (alpha : ℚ)
    (method : String) (p : SSPPRParams) (fuel : Nat) (draws : List Nat) :
    ((p.eps = 0 → (SSPPR_defaults g.n p).eps = 1 / 10) ∧
      (p.eps ≠ 0 → (SSPPR_defaults g.n p).eps = p.eps)) ∧
    ((p.delta = 0 → (SSPPR_defaults g.n p).delta = 1 / (g.n : ℚ)) ∧
      (p.delta ≠ 0 → (SSPPR_defaults g.n p).delta = p.delta)) ∧
    ((p.pf = 0 → (SSPPR_defaults g.n p).pf = 1 / (g.n : ℚ)) ∧
      (p.pf ≠ 0 → (SSPPR_defaults g.n p).pf = p.pf)) ∧
    ((p.rmax = 0 → (SSPPR_defaults g.n p).rmax = 1 / 10000) ∧
      (p.rmax ≠ 0 → (SSPPR_defaults g.n p).rmax = p.rmax)) ∧
    ((p.rw_num = 0 → (SSPPR_defaults g.n p).rw_num = 1000) ∧
      (p.rw_num ≠ 0 → (SSPPR_defaults g.n p).rw_num = p.rw_num)) ∧
    ((p.pi_num = 0 → (SSPPR_defaults g.n p).pi_num = 10) ∧
      (p.pi_num ≠ 0 → (SSPPR_defaults g.n p).pi_num = p.pi_num)) ∧
    ((p.sample_size = 0 → (SSPPR_defaults g.n p).sample_size = 100) ∧
      (p.sample_size ≠ 0 → (SSPPR_defaults g.n p).sample_size = p.sample_size)) ∧
    ((p.batch_size = 0 → (SSPPR_defaults g.n p).batch_size = 10) ∧
      (p.batch_size ≠ 0 → (SSPPR_defaults g.n p).batch_size = p.batch_size)) ∧
    ((p.eps ≠ 0 ∧ p.delta ≠ 0 ∧ p.pf ≠ 0 ∧ p.rmax ≠ 0 ∧ p.rw_num ≠ 0 ∧ p.pi_num ≠ 0 ∧
      p.sample_size ≠ 0 ∧ p.batch_size ≠ 0) → SSPPR_defaults g.n p = p) ∧
    SSPPR flog fsqrt g source_val alpha method p fuel draws =
      (if method = "push" ∨ method = "forwardpush" then
        .ok (forwardpush_first g (source_val % 2 ^ 32) alpha
          (if p.rmax = 0 then 1 / 10000 else p.rmax) fuel draws)
      else if method = "rw" then
        .ok (ppr_rw g (source_val % 2 ^ 32) alpha
          (if p.rw_num = 0 then 1000 else p.rw_num) fuel draws)
      else if method = "fora_skeleton" then
        .ok (ppr_forarw_skelton g (source_val % 2 ^ 32) alpha
          (if p.rmax = 0 then 1 / 10000 else p.rmax)
          (if p.rw_num = 0 then 1000 else p.rw_num) fuel draws)
      else if method = "fora" then
        .ok (ppr_fora flog fsqrt g (source_val % 2 ^ 32) alpha
          (if p.eps = 0 then 1 / 10 else p.eps)
          (if p.delta = 0 then 1 / (g.n : ℚ) else p.delta)
          (if p.pf = 0 then 1 / (g.n : ℚ) else p.pf) fuel draws)
      else if method = "speedppr" then
        .ok (ppr_speedppr flog g (source_val % 2 ^ 32) alpha
          (if p.eps = 0 then 1 / 10 else p.eps)
          (if p.delta = 0 then 1 / (g.n : ℚ) else p.delta)
          (if p.pf = 0 then 1 / (g.n : ℚ) else p.pf) fuel draws)
      else if method = "ppw" then
        .ok (ppr_ppw g (source_val % 2 ^ 32) alpha
          (if p.pi_num = 0 then 10 else p.pi_num)
          (if p.sample_size = 0 then 100 else p.sample_size)
          (if p.batch_size = 0 then 10 else p.batch_size) fuel draws)
      else .error .invalid_argument) := by
  have hq : ∀ (c : Prop) [Decidable c] (d x : ℚ),
      (c → (if c then d else x) = d) ∧ (¬ c → (if c then d else x) = x) :=
    fun c _ d x => ⟨fun h => if_pos h, fun h => if_neg h⟩
  have hn : ∀ (c : Prop) [Decidable c] (d x : Nat),
      (c → (if c then d else x) = d) ∧ (¬ c → (if c then d else x) = x) :=
    fun c _ d x => ⟨fun h => if_pos h, fun h => if_neg h⟩
  refine ⟨hq _ _ _, hq _ _ _, hq _ _ _, hq _ _ _, hn _ _ _, hn _ _ _, hn _ _ _, hn _ _ _,
    fun h => ?_, rfl⟩
  · obtain ⟨h1, h2, h3, h4, h5, h6, h7, h8⟩ := h
    simp only [SSPPR_defaults, if_neg h1, if_neg h2, if_neg h3, if_neg h4, if_neg h5, if_neg h6,
      if_neg h7, if_neg h8]

/-! ## Serialization -/

theorem size_bytes_length (n : Nat) : (size_bytes n).length = 8 := rfl

theorem read_size_size_bytes (n : Nat) (hn : n < 2 ^ 64) (rest : List Nat) :
    read_size (size_bytes n ++ rest) = some (n, rest) := by
  simp only [size_bytes, List.cons_append, List.nil_append, read_size, Option.some.injEq,
    Prod.mk.injEq, and_true]
  norm_num at hn ⊢
  omega

theorem read_chars_append (cs : List Nat) :
    ∀ rest, read_chars cs.length (cs ++ rest) = some (cs, rest) := by
  induction cs with
  | nil => intro rest; rfl
  | cons c cs ih =>
    intro rest
    show read_chars (cs.length + 1) (c :: (cs ++ rest)) = some (c :: cs, rest)
    rw [read_chars, ih]

mutual
theorem serializer_length : ∀ v : Val, (serializer v).length = get_size v
  | .scalar bytes => by simp [serializer, get_size]
  | .string chars => by simp [serializer, get_size, size_bytes_length]
  | .vector vs => by
    simp [serializer, get_size, size_bytes_length, serializer_list_length vs]
  | .pair a b => by simp [serializer, get_size, serializer_length a, serializer_length b]
  | .tuple vs => by simp [serializer, get_size, serializer_list_length vs]
theorem serializer_list_length : ∀ vs : List Val, (serializer_list vs).length = get_size_list vs
  | [] => by simp [serializer_list, get_size_list]
  | v :: vs => by
    simp [serializer_list, get_size_list, serializer_length v, serializer_list_length vs]
end

theorem read_elems_append (f : List Nat → Option (Val × List Nat)) (vs : List Val)
    (hf : ∀ v ∈ vs, ∀ rest, f (serializer v ++ rest) = some (v, rest)) :
    ∀ rest, read_elems f vs.length (serializer_list vs ++ rest) = some (vs, rest) := by
  induction vs with
  | nil => intro rest; rfl
  | cons v vs ih =>
    intro rest
    have hv := hf v (List.mem_cons_self v vs) (serializer_list vs ++ rest)
    have hvs := ih (fun w hw => hf w (List.mem_cons_of_mem v hw)) rest
    show read_elems f (vs.length + 1) (serializer_list (v :: vs) ++ rest) = some (v :: vs, rest)
    rw [read_elems, serializer_list, List.append_assoc, hv]
    simp only [hvs]

mutual
theorem deserialize_serializer : ∀ (t : Ty) (v : Val), hasType t v = true →
    ∀ rest, deserialize_helper t (serializer v ++ rest) = some (v, rest)
  | .scalar size, .scalar bytes => by
    intro h rest
    simp only [hasType, Bool.and_eq_true, beq_iff_eq] at h
    simp only [deserialize_helper, serializer]
    rw [← h.1]
    simp
  | .string, .string chars => by
    intro h rest
    simp only [hasType, Bool.and_eq_true, decide_eq_true_eq] at h
    simp only [deserialize_helper, serializer, List.append_assoc,
      read_size_size_bytes _ h.1]
    by_cases h0 : chars.length = 0
    · rw [if_pos h0]
      have : chars = [] := List.length_eq_zero.1 h0
      subst this
      rfl
    · rw [if_neg h0, read_chars_append]
  | .vector t, .vector vs => by
    intro h rest
    simp only [hasType, Bool.and_eq_true, decide_eq_true_eq, List.all_eq_true] at h
    simp only [deserialize_helper, serializer, List.append_assoc,
      read_size_size_bytes _ h.1]
    rw [read_elems_append (deserialize_helper t) vs
      (fun v hv rest1 => deserialize_serializer t v (h.2 v hv) rest1)]
  | .pair a b, .pair x y => by
    intro h rest
    simp only [hasType, Bool.and_eq_true] at h
    simp only [deserialize_helper, serializer, List.append_assoc,
      deserialize_serializer a x h.1, deserialize_serializer b y h.2]
  | .tuple ts, .tuple vs => by
    intro h rest
    simp only [hasType] at h
    simp only [deserialize_helper, serializer, deserialize_serializer_list ts vs h]
  | .scalar _, .string _ => by intro h; simp [hasType] at h
  | .scalar _, .vector _ => by intro h; simp [hasType] at h
  | .scalar _, .pair _ _ => by intro h; simp [hasType] at h
  | .scalar _, .tuple _ => by intro h; simp [hasType] at h
  | .string, .scalar _ => by intro h; simp [hasType] at h
  | .string, .vector _ => by intro h; simp [hasType] at h
  | .string, .pair _ _ => by intro h; simp [hasType] at h
  | .string, .tuple _ => by intro h; simp [hasType] at h
  | .vector _, .scalar _ => by intro h; simp [hasType] at h
  | .vector _, .string _ => by intro h; simp [hasType] at h
  | .vector _, .pair _ _ => by intro h; simp [hasType] at h
  | .vector _, .tuple _ => by intro h; simp [hasType] at h
  | .pair _ _, .scalar _ => by intro h; simp [hasType] at h
  | .pair _ _, .string _ => by intro h; simp [hasType] at h
  | .pair _ _, .vector _ => by intro h; simp [hasType] at h
  | .pair _ _, .tuple _ => by intro h; simp [hasType] at h
  | .tuple _, .scalar _ => by intro h; simp [hasType] at h
  | .tuple _, .string _ => by intro h; simp [hasType] at h
  | .tuple _, .vector _ => by intro h; simp [hasType] at h
  | .tuple _, .pair _ _ => by intro h; simp [hasType] at h
theorem deserialize_serializer_list : ∀ (ts : List Ty) (vs : List Val),
    hasTypeList ts vs = true →
    ∀ rest, deserialize_tuple ts (serializer_list vs ++ rest) = some (vs, rest)
  | [], [] => by intro _ rest; rfl
  | t :: ts, v :: vs => by
    intro h rest
    simp only [hasTypeList, Bool.and_eq_true] at h
    simp only [deserialize_tuple, serializer_list, List.append_assoc,
      deserialize_serializer t v h.1, deserialize_serializer_list ts vs h.2]
  | [], _ :: _ => by intro h; simp [hasTypeList] at h
  | _ :: _, [] => by intro h; simp [hasTypeList] at h
end

/-- C20 (serialization round trip): for every value `v` of a supported type `t`,
`serialize` passes its assertion and appends exactly `get_size v` bytes to the stream, and
`deserialize` applied to the bytes that `serialize` produces on an empty stream returns `v`,
leaving no byte unread (with any bytes appended after them, exactly those are left). -/
theorem serialize_round_trip (t : Ty) (v : Val) (h : hasType t v = true) :
    (∀ res, ∃ out, serialize v res = some out ∧ out.length = res.length + get_size v ∧
      out.take res.length = res) ∧
    (∃ bytes, serialize v [] = some bytes ∧ bytes.length = get_size v ∧
      deserialize_helper t bytes = some (v, []) ∧ deserialize t bytes = some v) ∧
    (∀ rest, deserialize_helper t (serializer v ++ rest) = some (v, rest)) := by
  have hlen := serializer_length v
  have hrt := deserialize_serializer t v h
  refine ⟨fun res => ⟨res ++ serializer v, ?_, ?_, ?_⟩, ⟨serializer v, ?_, hlen, ?_, ?_⟩, hrt⟩
  · unfold serialize; rw [if_pos hlen]
  · rw [List.length_append, hlen]
  · simp
  · unfold serialize; rw [if_pos hlen]; rfl
  · have := hrt []
    rwa [List.append_nil] at this
  · have := hrt []
    rw [List.append_nil] at this
    unfold deserialize
    rw [this]; rfl

/-- Witness for C20: a `std::vector<std::pair<uint16_t, std::string>>` with the two
elements `(0x0201, "ab")` and `(0x0403, "")`. -/
theorem serialize_round_trip_witness :
    ∃ bytes, serialize (.vector [.pair (.scalar [1, 2]) (.string [97, 98]),
        .pair (.scalar [3, 4]) (.string [])]) [] = some bytes ∧
      bytes.length = 30 ∧
      deserialize (.vector (.pair (.scalar 2) .string)) bytes
        = some (.vector [.pair (.scalar [1, 2]) (.string [97, 98]),
            .pair (.scalar [3, 4]) (.string [])]) := by
  obtain ⟨bytes, h1, h2, _, h4⟩ := (serialize_round_trip (.vector (.pair (.scalar 2) .string))
    (.vector [.pair (.scalar [1, 2]) (.string [97, 98]), .pair (.scalar [3, 4]) (.string [])])
    (by decide)).2.1
  exact ⟨bytes, h1, h2, h4⟩

/-! ## Forward Push: conservation of mass -/

theorem pushStep_ppr_getD (g : Graph) (alpha rmax : ℚ) (u : Nat) (s : PushState) (v : Nat) :
    (pushStep g alpha rmax u s).ppr.getD v 0
      = if v = u ∧ u < s.ppr.length then s.ppr.getD u 0 + alpha * s.r.getD u 0
        else s.ppr.getD v 0 := by
  simp only [pushStep]
  by_cases hv : u = v
  · subst hv
    by_cases hu : u < s.ppr.length
    · rw [getD_set_self _ _ _ _ hu, if_pos ⟨rfl, hu⟩]
    · have hneg : ¬ (u = u ∧ u < s.ppr.length) := fun h => hu h.2
      rw [if_neg hneg, List.getD_eq_default _ _ (by simp; omega),
        List.getD_eq_default _ _ (by omega)]
  · have hneg : ¬ (v = u ∧ u < s.ppr.length) := fun h => hv h.1.symm
    rw [getD_set_ne _ _ _ hv, if_neg hneg]

theorem pushStep_ppr_mono (g : Graph) {alpha : ℚ} (rmax : ℚ) (ha0 : 0 ≤ alpha) (u : Nat)
    (s : PushState) (hnn : ∀ v, 0 ≤ s.r.getD v 0) (v : Nat) :
    s.ppr.getD v 0 ≤ (pushStep g alpha rmax u s).ppr.getD v 0 := by
  rw [pushStep_ppr_getD]
  split
  · rename_i h
    rw [h.1]
    have := mul_nonneg ha0 (hnn u)
    linarith
  · exact le_refl _

theorem fpInit_mass (g : Graph) {source : Nat} (hs : source < g.n) :
    (fpInit g source).ppr.sum + (fpInit g source).r.sum = 1 := by
  simp only [fpInit]
  rw [sum_set _ _ _ (by simpa using hs), getD_replicate]
  simp

/-- C32 (Forward Push conserves mass): on a well-formed graph in which every node reachable
from the source has degree at least 1 and is not its own out-neighbour, with
`0 ≤ alpha ≤ 1`, every state of the loop of `ppr_forwardpush` has
`sum(ppr) + sum(r) = 1` and non-negative entries of `ppr` and `r`; every processing step
keeps the sum and does not lower any entry of `ppr`; and so the returned pair has
`sum(ppr) + sum(r) = 1`. -/
theorem ppr_forwardpush_mass_invariant (g : Graph) (source : Nat) (alpha rmax : ℚ)
    (hg : g.WF) (hs : source < g.n) (ha0 : 0 ≤ alpha) (ha1 : alpha ≤ 1)
    (hdeg : ∀ v, g.Reach source v → 1 ≤ g.get_degree v)
    (hloop : ∀ v, g.Reach source v → v ∉ g.get_neighbors v) :
    (∀ s, FPReach g alpha rmax source s →
      s.ppr.sum + s.r.sum = 1 ∧ (∀ v, 0 ≤ s.ppr.getD v 0) ∧ (∀ v, 0 ≤ s.r.getD v 0)) ∧
    (∀ s s1, FPReach g alpha rmax source s → fpIter g alpha rmax s = some s1 →
      s1.ppr.sum + s1.r.sum = s.ppr.sum + s.r.sum ∧
      ∀ v, s.ppr.getD v 0 ≤ s1.ppr.getD v 0) ∧
    (∀ fuel ppr r, ppr_forwardpush g source alpha rmax fuel = some (ppr, r) →
      ppr.sum + r.sum = 1 ∧ (∀ v, 0 ≤ ppr.getD v 0) ∧ (∀ v, 0 ≤ r.getD v 0)) := by
  have hstep : ∀ s s1, FPReach g alpha rmax source s → fpIter g alpha rmax s = some s1 →
      s1.ppr.sum + s1.r.sum = s.ppr.sum + s.r.sum ∧
      ∀ v, s.ppr.getD v 0 ≤ s1.ppr.getD v 0 := by
    intro s s1 hreach hit
    have hinv := hreach.toFPInv hg ha1 hs
    obtain ⟨u, rest, hq, hpop, rfl⟩ := fpIter_eq_some hit
    have hmem : u ∈ s.queue._queue := by rw [hq]; exact List.mem_cons_self u rest
    have hun : u < g.n := hinv.queue.mem_lt hmem
    have hru := hreach.queued_reach hg ha1 hs u hmem
    exact ⟨pushStep_mass hg alpha rmax u _ hinv.lenP hinv.lenR hun (hdeg u hru) (hloop u hru),
      pushStep_ppr_mono g rmax ha0 u _ hinv.nonneg⟩
  have hall : ∀ s, FPReach g alpha rmax source s →
      s.ppr.sum + s.r.sum = 1 ∧ (∀ v, 0 ≤ s.ppr.getD v 0) ∧ (∀ v, 0 ≤ s.r.getD v 0) := by
    intro s hreach
    induction hreach with
    | init =>
      refine ⟨fpInit_mass g hs, fun v => ?_, (fpInit_inv g hs).nonneg⟩
      simp only [fpInit]
      rw [getD_replicate]
    | step hprev hit ih =>
      obtain ⟨hsum, hmono⟩ := hstep _ _ hprev hit
      exact ⟨hsum.trans ih.1, fun v => le_trans (ih.2.1 v) (hmono v),
        ((FPReach.step hprev hit).toFPInv hg ha1 hs).nonneg⟩
  refine ⟨hall, hstep, fun fuel ppr r h => ?_⟩
  obtain ⟨s1, hl, hp, hr⟩ := ppr_forwardpush_eq_some h
  have := hall s1 (fpLoop_sound fuel _ s1 (FPReach.init : FPReach g alpha rmax source _) hl).1
  rw [hp, hr] at this
  exact this

/-- Witness for C32: the cycle `0 → 1 → 0` with `alpha = 1/2` and `rmax = 1/4`. -/
theorem ppr_forwardpush_mass_invariant_witness :
    ppr_forwardpush cycleGraph 0 (1/2) (1/4) 10 = some ([1/2, 1/4], [1/4, 0]) ∧
    ([1/2, 1/4] : List ℚ).sum + ([1/4, 0] : List ℚ).sum = 1 :=
  have hlt : ∀ v, cycleGraph.Reach 0 v → v < 2 := fun v hv =>
    Graph.Reach.node_lt (g := cycleGraph) (by decide) (by decide) hv
  ⟨by decide!, ((ppr_forwardpush_mass_invariant cycleGraph 0 (1/2) (1/4) (by decide) (by decide)
    (by norm_num) (by norm_num)
    (fun v hv => by have := hlt v hv; interval_cases v <;> decide)
    (fun v hv => by have := hlt v hv; interval_cases v <;> decide)).2.2 10 [1/2, 1/4] [1/4, 0]
    (by decide!)).1⟩

/-! ## Power Push: termination -/

theorem geo_search_spec (q u : ℚ) (fuel : Nat) :
    ∀ k, q ^ (k + fuel) ≤ u → (∀ j, j < k → ¬ q ^ j ≤ u) →
      q ^ geo_search q u fuel k ≤ u ∧ ∀ j, j < geo_search q u fuel k → ¬ q ^ j ≤ u := by
  induction fuel with
  | zero => intro k hk hlt; exact ⟨hk, hlt⟩
  | succ fuel ih =>
    intro k hk hlt
    rw [geo_search]
    split
    · rename_i h
      exact ⟨h, hlt⟩
    · rename_i h
      refine ih (k + 1) (by rw [Nat.add_assoc, Nat.add_comm 1 fuel]; exact hk) fun j hj => ?_
      rcases Nat.lt_succ_iff_lt_or_eq.1 hj with h1 | h1
      · exact hlt j h1
      · rw [h1]; exact h

/-- Bernoulli's inequality bounds the search. -/
theorem pow_le_of_ceil_bound (p u : ℚ) (hp0 : 0 < p) (hp1 : p < 1) (hu0 : 0 < u) :
    (1 - p) ^ ⌈(1 - u) / (u * p)⌉₊ ≤ u := by
  set K := ⌈(1 - u) / (u * p)⌉₊ with hKdef
  have hK : (1 - u) / (u * p) ≤ (K : ℚ) := Nat.le_ceil _
  have hup : 0 < u * p := mul_pos hu0 hp0
  have h1 : 1 - u ≤ (K : ℚ) * (u * p) := (div_le_iff₀ hup).1 hK
  have hb : 1 + (K : ℚ) * p ≤ (1 + p) ^ K := one_add_mul_le_pow (by linarith) K
  have hq : (1 - p) ^ K * (1 + p) ^ K ≤ 1 := by
    rw [← mul_pow]
    exact pow_le_one₀ (by nlinarith) (by nlinarith)
  have hqK : 0 ≤ (1 - p) ^ K := pow_nonneg (by linarith) K
  have hpos : 0 < 1 + (K : ℚ) * p := by positivity
  have h2 : (1 - p) ^ K * (1 + (K : ℚ) * p) ≤ 1 :=
    le_trans (mul_le_mul_of_nonneg_left hb hqK) hq
  have h3 : 1 ≤ u * (1 + (K : ℚ) * p) := by nlinarith
  have h4 : (1 - p) ^ K * (1 + (K : ℚ) * p) ≤ u * (1 + (K : ℚ) * p) := le_trans h2 h3
  exact le_of_mul_le_mul_right h4 hpos

theorem ceil_log_ratio_least (p u : ℚ) (hp0 : 0 < p) (hp1 : p < 1) (hu0 : 0 < u) :
    (1 - p) ^ ceil_log_ratio p u ≤ u ∧ ∀ j, j < ceil_log_ratio p u → u < (1 - p) ^ j := by
  have h := geo_search_spec (1 - p) u ⌈(1 - u) / (u * p)⌉₊ 0
    (by rw [Nat.zero_add]; exact pow_le_of_ceil_bound p u hp0 hp1 hu0)
    (fun j hj => absurd hj (Nat.not_lt_zero j))
  exact ⟨h.1, fun j hj => not_le.1 (h.2 j hj)⟩

theorem ceil_log_ratio_eq_succ_iff (p u : ℚ) (hp0 : 0 < p) (hp1 : p < 1) (hu0 : 0 < u)
    (k : Nat) :
    ceil_log_ratio p u = k + 1 ↔ (1 - p) ^ (k + 1) ≤ u ∧ u < (1 - p) ^ k := by
  obtain ⟨h1, h2⟩ := ceil_log_ratio_least p u hp0 hp1 hu0
  have hq0 : 0 ≤ 1 - p := by linarith
  have hq1 : 1 - p ≤ 1 := by linarith
  constructor
  · intro h
    rw [h] at h1 h2
    exact ⟨h1, h2 k (Nat.lt_succ_self k)⟩
  · rintro ⟨ha, hb⟩
    rcases Nat.lt_trichotomy (ceil_log_ratio p u) (k + 1) with hlt | heq | hgt
    · have hle : ceil_log_ratio p u ≤ k := Nat.lt_succ_iff.1 hlt
      have := pow_le_pow_of_le_one hq0 hq1 hle
      linarith
    · exact heq
    · have := h2 (k + 1) hgt
      linarith

theorem ceil_log_real (q u : ℝ) (hq0 : 0 < q) (hq1 : q < 1) (hu0 : 0 < u) (k : Nat) :
    ⌈Real.log u / Real.log q⌉ = ((k + 1 : Nat) : ℤ) ↔ q ^ (k + 1) ≤ u ∧ u < q ^ k := by
  have hlq : Real.log q < 0 := Real.log_neg hq0 hq1
  rw [Int.ceil_eq_iff, lt_div_iff_of_neg hlq, div_le_iff_of_neg hlq]
  have e1 : (((k + 1 : Nat) : ℤ) : ℝ) - 1 = (k : ℝ) := by push_cast; ring
  have e2 : (((k + 1 : Nat) : ℤ) : ℝ) = ((k + 1 : Nat) : ℝ) := by push_cast; ring
  rw [e1, e2, ← Real.log_pow, ← Real.log_pow,
    Real.log_lt_log_iff hu0 (pow_pos hq0 k), Real.log_le_log_iff (pow_pos hq0 (k + 1)) hu0]
  exact and_comm

theorem ceil_log_real_pos (q u : ℝ) (hq0 : 0 < q) (hq1 : q < 1) (hu0 : 0 < u) (hu1 : u < 1) :
    0 < ⌈Real.log u / Real.log q⌉ :=
  Int.ceil_pos.2 (div_pos_of_neg_of_neg (Real.log_neg hu0 hu1) (Real.log_neg hq0 hq1))

theorem ceil_log_ratio_pos (p u : ℚ) (hp0 : 0 < p) (hp1 : p < 1) (hu0 : 0 < u) (hu1 : u < 1) :
    1 ≤ ceil_log_ratio p u := by
  by_contra h
  have h0 : ceil_log_ratio p u = 0 := by omega
  have := (ceil_log_ratio_least p u hp0 hp1 hu0).1
  rw [h0, pow_zero] at this
  linarith

/-- The search agrees with the ceiling of the quotient of the logarithms. -/
theorem ceil_log_ratio_eq_ceil (p u : ℚ) (hp0 : 0 < p) (hp1 : p < 1) (hu0 : 0 < u)
    (hu1 : u < 1) :
    ((ceil_log_ratio p u : Nat) : ℤ) = ⌈Real.log (u : ℝ) / Real.log (1 - (p : ℝ))⌉ := by
  obtain ⟨k, hk⟩ : ∃ k, ceil_log_ratio p u = k + 1 :=
    ⟨ceil_log_ratio p u - 1, by have := ceil_log_ratio_pos p u hp0 hp1 hu0 hu1; omega⟩
  obtain ⟨h1, h2⟩ := (ceil_log_ratio_eq_succ_iff p u hp0 hp1 hu0 k).1 hk
  have hp0r : (0 : ℝ) < (p : ℝ) := by exact_mod_cast hp0
  have hp1r : (p : ℝ) < 1 := by exact_mod_cast hp1
  have hu0r : (0 : ℝ) < (u : ℝ) := by exact_mod_cast hu0
  have h1r : (1 - (p : ℝ)) ^ (k + 1) ≤ (u : ℝ) := by exact_mod_cast h1
  have h2r : (u : ℝ) < (1 - (p : ℝ)) ^ k := by exact_mod_cast h2
  rw [hk]
  exact ((ceil_log_real (1 - (p : ℝ)) (u : ℝ) (by linarith) (by linarith) hu0r k).2
    ⟨h1r, h2r⟩).symm

/-- The uniform values in `(0,1)` that are mapped to `k + 1` form the interval
`[(1-p)^(k+1), (1-p)^k)`. -/
theorem geometric_preimage (p : ℝ) (hp0 : 0 < p) (hp1 : p < 1) (k : Nat) :
    {u : ℝ | 0 < u ∧ u < 1 ∧ ⌈Real.log u / Real.log (1 - p)⌉ = ((k + 1 : Nat) : ℤ)}
      = Set.Ico ((1 - p) ^ (k + 1)) ((1 - p) ^ k) := by
  have hq0 : 0 < 1 - p := by linarith
  have hq1 : 1 - p < 1 := by linarith
  ext u
  simp only [Set.mem_setOf_eq, Set.mem_Ico]
  constructor
  · rintro ⟨hu0, _, hc⟩
    exact (ceil_log_real (1 - p) u hq0 hq1 hu0 k).1 hc
  · rintro ⟨ha, hb⟩
    have hu0 : 0 < u := lt_of_lt_of_le (pow_pos hq0 (k + 1)) ha
    have hu1 : u < 1 := lt_of_lt_of_le hb (pow_le_one₀ hq0.le hq1.le)
    exact ⟨hu0, hu1, (ceil_log_real (1 - p) u hq0 hq1 hu0 k).2 ⟨ha, hb⟩⟩

theorem geometric_volume (p : ℝ) (hp0 : 0 < p) (hp1 : p < 1) (k : Nat) :
    MeasureTheory.volume
        {u : ℝ | 0 < u ∧ u < 1 ∧ ⌈Real.log u / Real.log (1 - p)⌉ = ((k + 1 : Nat) : ℤ)}
      = ENNReal.ofReal ((1 - p) ^ k * p) := by
  rw [geometric_preimage p hp0 hp1 k, Real.volume_Ico]
  congr 1
  ring

theorem geometric_volume_zero (p : ℝ) (hp0 : 0 < p) (hp1 : p < 1) :
    MeasureTheory.volume
        {u : ℝ | 0 < u ∧ u < 1 ∧ ⌈Real.log u / Real.log (1 - p)⌉ = 0} = 0 := by
  have hempty : {u : ℝ | 0 < u ∧ u < 1 ∧ ⌈Real.log u / Real.log (1 - p)⌉ = 0} = ∅ := by
    ext u
    simp only [Set.mem_setOf_eq, Set.mem_empty_iff_false, iff_false]
    rintro ⟨hu0, hu1, hc⟩
    have := ceil_log_real_pos (1 - p) u (by linarith) (by linarith) hu0 hu1
    omega
  rw [hempty, MeasureTheory.measure_empty]

/-- C31 (`rand_geometric` distribution), the code at the failing input: with `p = 1/2` no
uniform value in `(0,1)` is mapped to `0` (the comment above the function and the claim give
the value `0` the probability `p = 1/2`), and every value in `[1/2, 1)`, a set of measure
`1/2`, is mapped to `1` (they give the value `1` the probability `(1-p) * p = 1/4`).  For
instance `u = 3/4`, drawn as `x = 3 * 2^30`, gives `1`. -/
theorem rand_geometric_never_zero :
    ceil_log_ratio (1/2) (3/4) = 1 ∧
    ⌈Real.log (((3/4 : ℚ) : ℝ)) / Real.log (1 - (((1/2 : ℚ)) : ℝ))⌉ = 1 ∧
    rand_geometric (1/2) [3 * 2 ^ 30] = some (1, []) ∧
    (∀ u : ℚ, 0 < u → u < 1 → ceil_log_ratio (1/2) u ≠ 0) ∧
    (∀ u : ℚ, 1/2 ≤ u → u < 1 → ceil_log_ratio (1/2) u = 1) ∧
    MeasureTheory.volume
        {u : ℝ | 0 < u ∧ u < 1 ∧ ⌈Real.log u / Real.log (1 - (1/2 : ℝ))⌉ = 0} = 0 ∧
    MeasureTheory.volume
        {u : ℝ | 0 < u ∧ u < 1 ∧ ⌈Real.log u / Real.log (1 - (1/2 : ℝ))⌉ = 1}
      = ENNReal.ofReal (1/2) := by
  have hhalf0 : (0 : ℚ) < 1/2 := by norm_num
  have hhalf1 : (1/2 : ℚ) < 1 := by norm_num
  refine ⟨by decide!, ?_, by decide!, fun u h0 h1 => ?_, fun u h0 h1 => ?_,
    geometric_volume_zero (1/2) (by norm_num) (by norm_num), ?_⟩
  · have h := ceil_log_ratio_eq_ceil (1/2) (3/4) hhalf0 hhalf1 (by norm_num) (by norm_num)
    have hv : ceil_log_ratio (1/2) (3/4) = 1 := by decide!
    rw [hv] at h
    exact h.symm
  · have := ceil_log_ratio_pos (1/2) u hhalf0 hhalf1 h0 h1
    omega
  · exact (ceil_log_ratio_eq_succ_iff (1/2) u hhalf0 hhalf1 (by linarith) 0).2
      ⟨by norm_num; linarith, by norm_num; exact h1⟩
  · have := geometric_volume (1/2) (by norm_num) (by norm_num) 0
    norm_num at this ⊢
    exact this

/-- The law that `rand_geometric` has as coded: for `0 < p < 1` and a uniform value `u`
in `(0,1)`, the value `ceil(ln(u) / ln(1-p))` is at least `1`, and it is `k + 1` exactly when
`(1-p)^(k+1) ≤ u < (1-p)^k`, for every `k = 0, 1, 2, ...`: the set of `u` mapped to `k + 1`
has measure `(1-p)^k * p`.  `rand_geometric(p)` returns this value for the first nonzero
output `x` of the generator, with `u = x / 2^32`; for `p = 1` it returns `1`. -/
theorem rand_geometric_distribution (p : ℚ) (hp0 : 0 < p) (hp1 : p < 1) (k : Nat) :
    (∀ u : ℚ, 0 < u → u < 1 →
      ((ceil_log_ratio p u : Nat) : ℤ) = ⌈Real.log (u : ℝ) / Real.log (1 - (p : ℝ))⌉ ∧
      1 ≤ ceil_log_ratio p u ∧
      (ceil_log_ratio p u = k + 1 ↔ (1 - p) ^ (k + 1) ≤ u ∧ u < (1 - p) ^ k)) ∧
    MeasureTheory.volume
        {u : ℝ | 0 < u ∧ u < 1 ∧
          ⌈Real.log u / Real.log (1 - (p : ℝ))⌉ = ((k + 1 : Nat) : ℤ)}
      = ENNReal.ofReal ((((1 - p) ^ k * p : ℚ)) : ℝ) ∧
    (1 - p) ^ k - (1 - p) ^ (k + 1) = (1 - p) ^ k * p ∧
    (∀ x rest, x ≠ 0 →
      rand_geometric p (x :: rest) = some (ceil_log_ratio p ((x : ℚ) / 2 ^ 32) % 2 ^ 32, rest)) ∧
    (∀ draws, rand_geometric 1 draws = some (1, draws)) := by
  have hp0r : (0 : ℝ) < (p : ℝ) := by exact_mod_cast hp0
  have hp1r : (p : ℝ) < 1 := by exact_mod_cast hp1
  refine ⟨fun u hu0 hu1 => ⟨ceil_log_ratio_eq_ceil p u hp0 hp1 hu0 hu1,
    ceil_log_ratio_pos p u hp0 hp1 hu0 hu1, ceil_log_ratio_eq_succ_iff p u hp0 hp1 hu0 k⟩,
    ?_, by ring, fun x rest hx => ?_, fun draws => ?_⟩
  · rw [geometric_volume (p : ℝ) hp0r hp1r k]
    congr 1
    push_cast
    ring
  · have hne : p ≠ 1 := ne_of_lt hp1
    simp only [rand_geometric, if_neg hne, rand_nonzero, if_neg hx]
  · simp only [rand_geometric, if_true]

/-- An instance of the law as coded: `p = 1/2`, `k = 1`, `u = 3/10`, which lies in
`[1/4, 1/2)` and is mapped to `2`. -/
theorem rand_geometric_distribution_witness :
    ceil_log_ratio (1/2) (3/10) = 2 ∧
    (ceil_log_ratio (1/2) (3/10) = 1 + 1
      ↔ (1 - 1/2 : ℚ) ^ (1 + 1) ≤ 3/10 ∧ (3/10 : ℚ) < (1 - 1/2) ^ 1) :=
  ⟨by decide!, ((rand_geometric_distribution (1/2) (by norm_num) (by norm_num) 1).1 (3/10)
    (by norm_num) (by norm_num)).2.2⟩
